import Mathlib

/-!
pool_checkr: the `mining_notify` parser

A shallow embedding of `pkg/mining_notify/parse.go` and the properties of its
parameter validation, hash reversal, BIP34 height extraction and coinbase output
walk.

Conventions of the embedding.

* A Go `string` is a sequence of bytes.  It is embedded as `GoString = List Char`,
  one `Char` per byte (a `Char` whose code is below 256 stands for that byte);
  `len`, indexing and slicing are those of the list.  Statements quantified over
  all `GoString`s therefore cover every Go string.
* Unsigned 64-bit integers are natural numbers, reduced modulo `2 ^ 64` where the
  source can overflow.
* A run-time panic (slice bounds or index out of range) is a value of its own:
  `none` for functions without an error result, `Outcome.panic` otherwise.
* The standard-library routines the parser calls (`strings.TrimSpace`,
  `hex.DecodeString`, `hex.EncodeToString`, `strconv.ParseUint`,
  `strings.HasPrefix`, `strings.HasSuffix`, `binary.BigEndian.Uint64`) are
  embedded from their Go implementations.
* The address library (`github.com/mrtnetwork/bitcoin/address`) and the JSON
  decoder (`json.Unmarshal`) are parameters.
* A `time.Time` in UTC is the second count it was made from with `time.Unix`.
* `CoinbaseOutput.ValueBTC` is `float64(ValueSatoshis) / 1e8`, a function of
  `ValueSatoshis` alone; floating point is left out of the embedding.
-/

namespace MiningNotify

/-- Go strings: byte sequences, one `Char` per byte. -/
abbrev GoString := List Char

/-! ## Slicing -/

/-- Go's `s[lo:hi]`: panics (here `none`) unless `lo ≤ hi ≤ len(s)`. -/
def slice (s : GoString) (lo hi : Nat) : Option GoString :=
  if lo ≤ hi ∧ hi ≤ s.length then some ((s.drop lo).take (hi - lo)) else none

/-- Go's `s[lo:]`: panics (here `none`) unless `lo ≤ len(s)`. -/
def sliceFrom (s : GoString) (lo : Nat) : Option GoString :=
  if lo ≤ s.length then some (s.drop lo) else none

/-- Go's `s[:hi]`: panics (here `none`) unless `hi ≤ len(s)`. -/
def sliceTo (s : GoString) (hi : Nat) : Option GoString :=
  if hi ≤ s.length then some (s.take hi) else none

/-- Go's `strings.HasPrefix(s, p)`. -/
def startsWith (s p : GoString) : Bool :=
  decide (p.length ≤ s.length ∧ s.take p.length = p)

/-- Go's `strings.HasSuffix(s, p)`. -/
def endsWith (s p : GoString) : Bool :=
  decide (p.length ≤ s.length ∧ s.drop (s.length - p.length) = p)

/-! ## `encoding/hex` -/

/-- The `reverseHexTable` of `encoding/hex`: the value of a hexadecimal digit,
in either case; `none` where the table holds `0xff`. -/
def fromHexChar (c : Char) : Option Nat :=
  if 48 ≤ c.toNat ∧ c.toNat ≤ 57 then some (c.toNat - 48)
  else if 97 ≤ c.toNat ∧ c.toNat ≤ 102 then some (c.toNat - 97 + 10)
  else if 65 ≤ c.toNat ∧ c.toNat ≤ 70 then some (c.toNat - 65 + 10)
  else none

/-- The result of `hex.DecodeString`: the bytes decoded before the first
problem, and whether an error was reported (invalid byte or odd length). -/
def hexDecodeString : GoString → List Nat × Bool
  | [] => ([], false)
  | [_] => ([], true)
  | p :: q :: rest =>
    match fromHexChar p, fromHexChar q with
    | some a, some b =>
      let r := hexDecodeString rest
      ((a * 16 + b) :: r.1, r.2)
    | _, _ => ([], true)

/-- The `hextable` of `encoding/hex`, `"0123456789abcdef"`, indexed by a nibble. -/
def hexDigit (d : Nat) : Char :=
  "0123456789abcdef".toList.getD d '0'

/-- Go's `hex.EncodeToString`: two lower-case digits per byte. -/
def hexEncodeToString : List Nat → GoString
  | [] => []
  | v :: rest => hexDigit (v / 16 % 16) :: hexDigit (v % 16) :: hexEncodeToString rest

/-! ## `strconv.ParseUint` -/

/-- The two errors of `strconv`: `ErrSyntax` and `ErrRange`. -/
inductive NumErr where
  | invalidSyntax
  | outOfRange
  deriving DecidableEq

/-- The digit value `ParseUint` gives a byte: `0-9`, and letters of either case
(`lower(c) = c | 0x20`) counted from ten; `none` for any other byte. -/
def digitVal (c : Char) : Option Nat :=
  if 48 ≤ c.toNat ∧ c.toNat ≤ 57 then some (c.toNat - 48)
  else if 97 ≤ (c.toNat ||| 32) ∧ (c.toNat ||| 32) ≤ 122 then some ((c.toNat ||| 32) - 97 + 10)
  else none

/-- The digit loop of `ParseUint` for a base in `2..36`; `n` is the accumulator.
Returns the pair `(value, err)` that `ParseUint` returns. -/
def parseUintLoop (base maxVal cutoff : Nat) : GoString → Nat → Nat × Option NumErr
  | [], n => (n, none)
  | c :: cs, n =>
    match digitVal c with
    | none => (0, some .invalidSyntax)
    | some d =>
      if d ≥ base then (0, some .invalidSyntax)
      else if n ≥ cutoff then (maxVal, some .outOfRange)
      else
        let n1 := (n * base + d) % 2 ^ 64
        if n1 < n * base % 2 ^ 64 ∨ n1 > maxVal then (maxVal, some .outOfRange)
        else parseUintLoop base maxVal cutoff cs n1

/-- Go's `strconv.ParseUint(s, base, bitSize)` for `2 ≤ base ≤ 36` and
`1 ≤ bitSize ≤ 64`, the only way the parser calls it (base 16; 8, 32 or 64 bits).
Returns `(value, err)`: on a syntax error the value is 0, on a range error the
largest value of the bit size. -/
def parseUint (s : GoString) (base bitSize : Nat) : Nat × Option NumErr :=
  if s = [] then (0, some .invalidSyntax)
  else parseUintLoop base (2 ^ bitSize - 1) ((2 ^ 64 - 1) / base + 1) s 0

/-! ## `strings.TrimSpace` -/

/-- The white space `unicode.IsSpace` accepts, as UTF-8 byte sequences: the ASCII
bytes `\t \n \v \f \r` and space, then U+0085, U+00A0, U+1680, U+2000..U+200A,
U+2028, U+2029, U+202F, U+205F and U+3000. -/
def spaceEncodings : List (List Nat) :=
  [[9], [10], [11], [12], [13], [32], [0xC2, 0x85], [0xC2, 0xA0], [0xE1, 0x9A, 0x80],
   [0xE2, 0x80, 0x80], [0xE2, 0x80, 0x81], [0xE2, 0x80, 0x82], [0xE2, 0x80, 0x83],
   [0xE2, 0x80, 0x84], [0xE2, 0x80, 0x85], [0xE2, 0x80, 0x86], [0xE2, 0x80, 0x87],
   [0xE2, 0x80, 0x88], [0xE2, 0x80, 0x89], [0xE2, 0x80, 0x8A], [0xE2, 0x80, 0xA8],
   [0xE2, 0x80, 0xA9], [0xE2, 0x80, 0xAF], [0xE2, 0x81, 0x9F], [0xE3, 0x80, 0x80]]

/-- The length of the white-space rune the byte sequence starts with, if any. -/
def leadingSpace (bs : List Nat) : Option Nat :=
  (spaceEncodings.find? (fun e => e.isPrefixOf bs)).map List.length

/-- Drop leading white-space runes (`TrimLeftFunc(s, unicode.IsSpace)`). -/
def trimLeft : Nat → GoString → GoString
  | 0, s => s
  | fuel + 1, s =>
    match leadingSpace (s.map Char.toNat) with
    | some k => trimLeft fuel (s.drop k)
    | none => s

/-- Drop trailing white-space runes (`TrimRightFunc(s, unicode.IsSpace)`): a rune
ends the string when its encoding, read backwards, starts the reversed string. -/
def trimRight : Nat → GoString → GoString
  | 0, s => s
  | fuel + 1, s =>
    match (spaceEncodings.find? (fun e => e.reverse.isPrefixOf (s.reverse.map Char.toNat))).map
        List.length with
    | some k => trimRight fuel (s.take (s.length - k))
    | none => s

/-- Go's `strings.TrimSpace`: leading, then trailing white space removed.  Every
round removes at least one byte, so `len(s)` rounds are enough. -/
def trimSpace (s : GoString) : GoString :=
  let t := trimLeft s.length s
  trimRight t.length t

/-! ## In-place reversal -/

/-- The two-index swap loop
`for i < j { b[i], b[j] = b[j], b[i]; i++; j-- }`
on a byte slice; `none` is an index out of range.  The loop runs at most
`len(b)` times from any start, which is the fuel the callers give. -/
def swapLoop : Nat → List Nat → Nat → Nat → Option (List Nat)
  | 0, bs, _, _ => some bs
  | fuel + 1, bs, i, j =>
    if i < j then
      match bs[i]?, bs[j]? with
      | some x, some y => swapLoop fuel ((bs.set i y).set j x) (i + 1) (j - 1)
      | _, _ => none
    else some bs

/-! ## `reverseHashHex` -/

/-- The source's `reverseHashHex`.  `len(bytes)-1` is `-1` for no bytes, where the
loop does not run; the truncated subtraction gives `0` and the same. -/
def reverseHashHex (leHex : GoString) : Option GoString :=
  let leHex := trimSpace leHex
  let leHex := if leHex.length % 2 = 1 then '0' :: leHex else leHex
  match hexDecodeString leHex with
  | (_, true) => some leHex
  | (bytes, false) =>
    match swapLoop bytes.length bytes 0 (bytes.length - 1) with
    | none => none
    | some rev => some (hexEncodeToString rev)

/-! ## `extractHeightFromCoinbase` -/

/-- The height loop `for i := len-1; i >= 0; i-- { height = height<<8 | b[i] }`
on a `uint64`: the last byte is taken first. -/
def heightFromLE (heightLE : List Nat) : Nat :=
  heightLE.foldr (fun b height => (height <<< 8) % 2 ^ 64 ||| b) 0

/-- Lines 166 to 174 of `extractHeightFromCoinbase`, "collect full scriptSig (may
span part1 & part2)": the rest of `part1` after the length byte, completed from
`part2` when the declared length asks for more and `part2` has it.  `none` is a
panic.  The caller has checked `len(part1) ≥ 90`, so `len(part1) - 82 - 2` is
exact. -/
def assembleScriptSig (part1 part2 : GoString) (scriptLen : Nat) : Option GoString :=
  let scriptSigStart := 82
  let availableInPart1 := part1.length - scriptSigStart - 2
  match sliceFrom part1 (scriptSigStart + 2) with
  | none => none
  | some scriptSigHex =>
    if scriptLen * 2 > availableInPart1 then
      let needed := scriptLen * 2 - availableInPart1
      if part2.length ≥ needed then
        match sliceTo part2 needed with
        | none => none
        | some fromPart2 => some (scriptSigHex ++ fromPart2)
      else some scriptSigHex
    else some scriptSigHex

/-- The `switch` of `extractHeightFromCoinbase` on the push opcode: the text of
the height bytes, `""` when no case reads any; `none` is a panic. -/
def heightBytesOf (scriptSigHex : GoString) (pushByte : Nat) : Option GoString :=
  if pushByte ≥ 1 ∧ pushByte ≤ 75 then
    let stop := 2 + pushByte * 2
    if scriptSigHex.length ≥ stop then slice scriptSigHex 2 stop else some []
  else if pushByte = 0x4c then
    if scriptSigHex.length ≥ 6 then
      match slice scriptSigHex 2 4 with
      | none => none
      | some lenHex =>
        let lenB := (parseUint lenHex 16 32).1
        let stop := 4 + lenB * 2
        if scriptSigHex.length ≥ stop then slice scriptSigHex 4 stop else some []
    else some []
  else if pushByte = 0x4d then
    if scriptSigHex.length ≥ 8 then
      match slice scriptSigHex 2 6 with
      | none => none
      | some lenHex =>
        let lenB := (parseUint lenHex 16 32).1
        let stop := 6 + lenB * 2
        if scriptSigHex.length ≥ stop then slice scriptSigHex 6 stop else some []
    else some []
  else some []

/-- Lines 176 to 224 of `extractHeightFromCoinbase`, "now try to read height
push": the height read from the assembled scriptSig; `none` is a panic. -/
def readHeightPush (scriptSigHex : GoString) : Option Nat :=
  if scriptSigHex.length < 4 then some 0
  else
    match slice scriptSigHex 0 2 with
    | none => none
    | some pushHex =>
      let pushByte := (parseUint pushHex 16 8).1
      match heightBytesOf scriptSigHex pushByte with
      | none => none
      | some heightBytes =>
        if heightBytes = [] then some 0
        else
          let d := hexDecodeString heightBytes
          if d.2 then some 0
          else some (heightFromLE d.1)

/-- The source's `extractHeightFromCoinbase`; `none` is a panic. -/
def extractHeightFromCoinbase (part1 part2 : GoString) : Option (Nat × GoString) :=
  if part1.length < 90 then some (0, [])
  else
    let scriptSigStart := 82
    if part1.length < scriptSigStart + 4 then some (0, [])
    else
      match slice part1 scriptSigStart (scriptSigStart + 2) with
      | none => none
      | some scriptLenHex =>
        let r := parseUint scriptLenHex 16 32
        let scriptLen := r.1
        if r.2 ≠ none ∨ scriptLen = 0 then some (0, [])
        else
          match assembleScriptSig part1 part2 scriptLen with
          | none => none
          | some scriptSigHex =>
            match readHeightPush scriptSigHex with
            | none => none
            | some height => some (height, scriptSigHex)

/-! ## `extractCoinbaseOutputs` -/

/-- Go errors the parser returns: `errors.New(msg)`, the `*strconv.NumError` of a
failed `ParseUint` (the text parsed and the kind of failure), and
`fmt.Errorf(msg + ": %w", inner)`, an error wrapping another. -/
inductive GoError where
  | errorsNew (msg : String)
  | numError (num : GoString) (kind : NumErr)
  | wrap (msg : String) (inner : GoError)
  deriving DecidableEq

/-- What a Go function with result `(T, error)` does: returns a value, returns an
error, or panics. -/
inductive Outcome (α : Type) where
  | ok (a : α)
  | fail (e : GoError)
  | panic
  deriving DecidableEq

/-- The source's `CoinbaseOutput` (without the derived `ValueBTC`); the field
`Type` is spelled `Typ`, `Type` being reserved. -/
structure CoinbaseOutput where
  ValueSatoshis : Nat
  Typ : GoString
  Address : GoString
  deriving DecidableEq

/-- The address library: each function takes the hex payload the parser cuts out
of the script and gives the address text its result shows, or fails. -/
structure AddressEncoder where
  P2PKHAddressFromHash160 : GoString → Option GoString
  P2SHAddressFromHash160 : GoString → Option GoString
  P2WPKHAddresssFromProgram : GoString → Option GoString
  P2WSHAddresssFromProgram : GoString → Option GoString

/-- Go's `binary.BigEndian.Uint64(b)`: reads `b[0..7]`, panics when `len(b) < 8`. -/
def bigEndianUint64 (b : List Nat) : Option Nat :=
  match b with
  | b0 :: b1 :: b2 :: b3 :: b4 :: b5 :: b6 :: b7 :: _ =>
    some (((((((b0 * 256 + b1) * 256 + b2) * 256 + b3) * 256 + b4) * 256 + b5) * 256 + b6) * 256
      + b7)
  | _ => none

/-- The scan `for i := 0; i <= len(coinbaseHex)-10; i += 2` for `ffffffff`
followed by a count in `[1, 10]`: the offset found, if any.  The bound is
written `i + 10 ≤ len`; `i` grows by two each round, so `len` rounds are enough. -/
def findOutputsStart (coinbaseHex : GoString) : Nat → Nat → Outcome (Option Nat)
  | 0, _ => .ok none
  | fuel + 1, i =>
    if i + 10 ≤ coinbaseHex.length then
      match slice coinbaseHex i (i + 8) with
      | none => .panic
      | some w =>
        if w = "ffffffff".toList then
          match slice coinbaseHex (i + 8) (i + 10) with
          | none => .panic
          | some nx =>
            let next := (parseUint nx 16 8).1
            if next ≥ 1 ∧ next ≤ 10 then .ok (some (i + 8))
            else findOutputsStart coinbaseHex fuel (i + 2)
        else findOutputsStart coinbaseHex fuel (i + 2)
    else .ok none

/-- The `switch` on the script of one output: its `Type` and `Address`, starting
from `"Unknown"` and `"Unable to decode"`; `none` is a panic in a slice. -/
def classifyScript (enc : AddressEncoder) (scriptLen : Nat) (script : GoString) :
    Option (GoString × GoString) :=
  let unable := "Unable to decode".toList
  if scriptLen = 25 ∧ startsWith script "76a914".toList ∧ endsWith script "88ac".toList then
    (slice script 6 46).map fun pkh =>
      ("P2PKH".toList, (enc.P2PKHAddressFromHash160 pkh).getD unable)
  else if scriptLen = 23 ∧ startsWith script "a914".toList ∧ endsWith script "87".toList then
    (slice script 4 44).map fun sh =>
      ("P2SH".toList, (enc.P2SHAddressFromHash160 sh).getD unable)
  else if scriptLen = 22 ∧ startsWith script "0014".toList then
    (sliceFrom script 4).map fun prog =>
      ("P2WPKH".toList, (enc.P2WPKHAddresssFromProgram prog).getD unable)
  else if scriptLen = 34 ∧ startsWith script "0020".toList then
    (sliceFrom script 4).map fun prog =>
      ("P2WSH".toList, (enc.P2WSHAddresssFromProgram prog).getD unable)
  else if startsWith script "6a".toList then
    some ("OP_RETURN".toList, "(Null Data)".toList)
  else some ("Unknown".toList, unable)

/-- The output loop `for i := uint64(0); i < outputCount; i++`, by the number of
rounds left; `break` returns the outputs collected so far. -/
def walkOutputs (enc : AddressEncoder) (coinbaseHex : GoString) :
    Nat → Nat → List CoinbaseOutput → Outcome (List CoinbaseOutput)
  | 0, _, outputs => .ok outputs
  | left + 1, offset, outputs =>
    if offset + 16 + 2 > coinbaseHex.length then .ok outputs
    else
      match slice coinbaseHex offset (offset + 16) with
      | none => .panic
      | some valLE =>
        let valBytes := (hexDecodeString valLE).1
        match swapLoop 8 valBytes 0 7 with
        | none => .panic
        | some valBE =>
          match bigEndianUint64 valBE with
          | none => .panic
          | some valueSat =>
            let offset := offset + 16
            match slice coinbaseHex offset (offset + 2) with
            | none => .panic
            | some lenHex =>
              let r := parseUint lenHex 16 32
              if r.2 ≠ none then .ok outputs
              else
                let scriptLen := r.1
                let offset := offset + 2
                if offset + scriptLen * 2 > coinbaseHex.length then .ok outputs
                else
                  match slice coinbaseHex offset (offset + scriptLen * 2) with
                  | none => .panic
                  | some script =>
                    let offset := offset + scriptLen * 2
                    match classifyScript enc scriptLen script with
                    | none => .panic
                    | some ta =>
                      walkOutputs enc coinbaseHex left offset
                        (outputs ++ [{ ValueSatoshis := valueSat, Typ := ta.1, Address := ta.2 }])

/-- The source's `extractCoinbaseOutputs(part1, part2)`; `part1` is not used. -/
def extractCoinbaseOutputs (enc : AddressEncoder) (_part1 part2 : GoString) :
    Outcome (List CoinbaseOutput) :=
  let coinbaseHex := part2
  if coinbaseHex.length < 20 then .fail (.errorsNew "coinbase part2 too short")
  else
    match findOutputsStart coinbaseHex coinbaseHex.length 0 with
    | .panic => .panic
    | .fail e => .fail e
    | .ok found =>
      let located : Option Nat :=
        match found with
        | some offset => some offset
        | none => if startsWith coinbaseHex "ffffffff".toList then some 8 else none
      match located with
      | none => .fail (.errorsNew "could not locate outputs start")
      | some offset =>
        -- `if offset+4 <= len && s[offset:offset+2] == "00" { flag := ...; if ... { offset += 4 } }`
        let skipped : Option Nat :=
          if offset + 4 ≤ coinbaseHex.length then
            match slice coinbaseHex offset (offset + 2) with
            | none => none
            | some marker =>
              if marker = "00".toList then
                match slice coinbaseHex (offset + 2) (offset + 4) with
                | none => none
                | some flag =>
                  if flag = "00".toList ∨ flag = "01".toList then some (offset + 4)
                  else some offset
              else some offset
          else some offset
        match skipped with
        | none => .panic
        | some offset =>
          match slice coinbaseHex offset (offset + 2) with
          | none => .panic
          | some countHex =>
            match parseUint countHex 16 8 with
            | (_, some kind) => .fail (.numError countHex kind)
            | (outputCount, none) => walkOutputs enc coinbaseHex outputCount (offset + 2) []

/-! ## Evaluation on the repository's test vector

`parse_test.go` expects, for `testdata/256-foundation.txt`, height 933395, the
script signature below and two outputs: 313562880 satoshis to a P2WPKH script and
a zero-value `OP_RETURN`.  The fragments here carry the bytes that expectation
fixes; the remaining bytes (previous output, witness program, lock time) are
filled with zeros. -/

/-- A `coinbase_part1`: 82 characters of version, input count and previous
output, the script length `2c`, and the 17 bytes of script signature before the
extra nonce. -/
def testPart1 : GoString :=
  ("02000000010000000000000000000000000000000000000000000000000000000000000000ffffffff"
    ++ "2c" ++ "03133e0e010004b050726904c0e425150c").toList

/-- A `coinbase_part2`: the rest of the script signature, the sequence
`ffffffff`, two outputs and the lock time. -/
def testPart2 : GoString :=
  ("0e6879647261706f6f6c2f32353666" ++ "ffffffff" ++ "02"
    ++ "0097b01200000000" ++ "16" ++ "00140000000000000000000000000000000000000000"
    ++ "0000000000000000" ++ "06" ++ "6a0400000000"
    ++ "00000000").toList

/-- An address library that always fails. -/
def failingEncoder : AddressEncoder :=
  { P2PKHAddressFromHash160 := fun _ => none
    P2SHAddressFromHash160 := fun _ => none
    P2WPKHAddresssFromProgram := fun _ => none
    P2WSHAddresssFromProgram := fun _ => none }

/-! ## Vocabulary of the specification -/

/-- A hexadecimal digit, of either case. -/
def isHexDigit (c : Char) : Bool := decide (c ∈ "0123456789abcdefABCDEF".toList)

/-- A hexadecimal digit that is not an upper-case letter. -/
def isLowerHexDigit (c : Char) : Bool := decide (c ∈ "0123456789abcdef".toList)

/-- The number a string of hexadecimal digits writes, most significant first. -/
def hexNat (s : GoString) : Nat :=
  s.foldl (fun n c => n * 16 + (fromHexChar c).getD 0) 0

/-- The little-endian value of a byte sequence: `b₀ + b₁·256 + b₂·256² + …`. -/
def leValue : List Nat → Nat
  | [] => 0
  | b :: bs => b + 256 * leValue bs

/-- One serialized transaction output as hexadecimal text: the 8 value bytes, the
script length byte and the script. -/
structure SerializedOutput where
  value : GoString
  scriptLen : GoString
  script : GoString

/-- The text of a serialized output: value, script length, script. -/
def SerializedOutput.text (o : SerializedOutput) : GoString :=
  o.value ++ o.scriptLen ++ o.script

/-- A well-formed serialized output: 16 hexadecimal digits of value, a
2-hex-digit script length `L`, then `2 * L` hexadecimal digits of script. -/
def SerializedOutput.wellFormed (o : SerializedOutput) : Bool :=
  decide (o.value.length = 16) && o.value.all isHexDigit &&
  decide (o.scriptLen.length = 2) && o.scriptLen.all isHexDigit &&
  decide (o.script.length = 2 * hexNat o.scriptLen) && o.script.all isHexDigit

/-- The decoding of one serialized output: its value read little-endian, and the
type and address the script `switch` gives its script. -/
def decodeOutput (enc : AddressEncoder) (o : SerializedOutput) : CoinbaseOutput :=
  let ta := (classifyScript enc (hexNat o.scriptLen) o.script).getD
    ("Unknown".toList, "Unable to decode".toList)
  { ValueSatoshis := leValue (hexDecodeString o.value).1, Typ := ta.1, Address := ta.2 }

/-- The concatenated text of a list of serialized outputs. -/
def outputsText (outs : List SerializedOutput) : GoString :=
  (outs.map SerializedOutput.text).flatten

/-- The two outputs of the test vector: 313562880 satoshis to a P2WPKH script and
a zero-value `OP_RETURN`. -/
def testOutputs : List SerializedOutput :=
  [⟨"0097b01200000000".toList, "16".toList,
      "00140000000000000000000000000000000000000000".toList⟩,
   ⟨"0000000000000000".toList, "06".toList, "6a0400000000".toList⟩]

/-- The five script templates and the fallback, on the hexadecimal text of a
script `s` and the output `r` decoded from it. -/
def followsTemplates (s : GoString) (r : CoinbaseOutput) : Prop :=
  (s.length = 50 ∧ "76a914".toList <+: s ∧ "88ac".toList <:+ s → r.Typ = "P2PKH".toList) ∧
  (s.length = 46 ∧ "a914".toList <+: s ∧ "87".toList <:+ s → r.Typ = "P2SH".toList) ∧
  (s.length = 44 ∧ "0014".toList <+: s → r.Typ = "P2WPKH".toList) ∧
  (s.length = 68 ∧ "0020".toList <+: s → r.Typ = "P2WSH".toList) ∧
  ("6a".toList <+: s → r.Typ = "OP_RETURN".toList ∧ r.Address = "(Null Data)".toList) ∧
  (¬ (s.length = 50 ∧ "76a914".toList <+: s ∧ "88ac".toList <:+ s) ∧
   ¬ (s.length = 46 ∧ "a914".toList <+: s ∧ "87".toList <:+ s) ∧
   ¬ (s.length = 44 ∧ "0014".toList <+: s) ∧
   ¬ (s.length = 68 ∧ "0020".toList <+: s) ∧
   ¬ ("6a".toList <+: s) →
    r.Typ = "Unknown".toList ∧ r.Address = "Unable to decode".toList)

/-- What a result of `extractCoinbaseOutputs` shows apart from the addresses: the
error or panic, or the `ValueSatoshis` and `Type` of the outputs in order. -/
def Outcome.shape : Outcome (List CoinbaseOutput) → Outcome (List (Nat × GoString))
  | .ok outs => .ok (outs.map fun r => (r.ValueSatoshis, r.Typ))
  | .fail e => .fail e
  | .panic => .panic

/-- An output `r` decoded from the serialized output `o` keeps its value and
type, with the address `Unable to decode`, when the script is one of the four
address templates and the encoder fails on its payload. -/
def keepsSentinel (enc : AddressEncoder) (o : SerializedOutput) (r : CoinbaseOutput) : Prop :=
  r.ValueSatoshis = leValue (hexDecodeString o.value).1 ∧
  (∀ p : GoString, o.script = "76a914".toList ++ p ++ "88ac".toList → p.length = 40 →
    enc.P2PKHAddressFromHash160 p = none →
    r.Typ = "P2PKH".toList ∧ r.Address = "Unable to decode".toList) ∧
  (∀ p : GoString, o.script = "a914".toList ++ p ++ "87".toList → p.length = 40 →
    enc.P2SHAddressFromHash160 p = none →
    r.Typ = "P2SH".toList ∧ r.Address = "Unable to decode".toList) ∧
  (∀ p : GoString, o.script = "0014".toList ++ p → p.length = 40 →
    enc.P2WPKHAddresssFromProgram p = none →
    r.Typ = "P2WPKH".toList ∧ r.Address = "Unable to decode".toList) ∧
  (∀ p : GoString, o.script = "0020".toList ++ p → p.length = 64 →
    enc.P2WSHAddresssFromProgram p = none →
    r.Typ = "P2WSH".toList ∧ r.Address = "Unable to decode".toList)

/-- The value of a byte written as two hexadecimal digits; `none` for any other
text. -/
def hexByteValue (t : GoString) : Option Nat :=
  match t with
  | [p, q] =>
    match fromHexChar p, fromHexChar q with
    | some a, some b => some (a * 16 + b)
    | _, _ => none
  | _ => none

/-- At the byte-aligned offset `i` the 8 characters `ffffffff` stand, followed at
once by a byte whose value is in `[1, 10]`. -/
def outputsLocatedAt (s : GoString) (i : Nat) : Prop :=
  i % 2 = 0 ∧ i + 10 ≤ s.length ∧ (s.drop i).take 8 = "ffffffff".toList ∧
    ∃ v, hexByteValue ((s.drop (i + 8)).take 2) = some v ∧ 1 ≤ v ∧ v ≤ 10

/-- The height push of a scriptSig (hexadecimal text) can be read: the first
byte is a push opcode `p` in `1..75`, `0x4c` or `0x4d`, and the push data, `n ≥ 1`
bytes starting at character `k`, lie within the text and are hexadecimal digits.
For a direct push `n = p` and `k = 2`; for `0x4c`, `n` is the byte after the
opcode and `k = 4`; for `0x4d` the data follow the two length bytes, `k = 6`. -/
def heightPushRead (sig : GoString) : Prop :=
  4 ≤ sig.length ∧ ∃ p, hexByteValue (sig.take 2) = some p ∧ ∃ k n,
    ((1 ≤ p ∧ p ≤ 75 ∧ k = 2 ∧ n = p) ∨
     (p = 0x4c ∧ k = 4 ∧ hexByteValue ((sig.drop 2).take 2) = some n) ∨
     (p = 0x4d ∧ k = 6)) ∧
    1 ≤ n ∧ k + 2 * n ≤ sig.length ∧ ∀ c ∈ (sig.drop k).take (2 * n), isHexDigit c = true

/-- A `coinbase_part1` whose scriptSig, 6 bytes long, begins with `OP_PUSHDATA2`,
the length 3 written little-endian (`03 00`) and the three height bytes
`13 3e 0e` of block 933395. -/
def pushData2Part1 : GoString :=
  ("02000000010000000000000000000000000000000000000000000000000000000000000000ffffffff"
    ++ "06" ++ "4d0300133e0e").toList

/-- A `coinbase_part1` whose scriptSig, 4 bytes long, is `OP_PUSHDATA2`, the
length bytes `00 01` (256 when read little-endian) and the single byte `05`. -/
def pushData2ShortPart1 : GoString :=
  ("02000000010000000000000000000000000000000000000000000000000000000000000000ffffffff"
    ++ "04" ++ "4d000105").toList

/-! ### `Parse` -/

/-- The values `json.Unmarshal` stores in an `interface{}`: `nil`, `bool`,
`float64`, `string`, `[]interface{}` and `map[string]interface{}`.  The parser
never looks at a number; it is kept as the text of its literal. -/
inductive JsonValue where
  | null
  | bool (b : Bool)
  | number (literal : GoString)
  | string (s : GoString)
  | array (items : List JsonValue)
  | object (fields : List (GoString × JsonValue))

/-- The `map[string]interface{}` that `json.Unmarshal` fills: a value for each key
present. -/
abbrev JsonObject := GoString → Option JsonValue

/-- The JSON decoder, `json.Unmarshal([]byte(input), &raw)` with
`raw map[string]interface{}`: a decoded object or an error.  The library is a
parameter. -/
abbrev Unmarshal := GoString → Except GoError JsonObject

/-- A `time.Time` in UTC, as the second count `sec` of `time.Unix(sec, 0)`.  The
zero value `time.Time{}` is January 1 of year 1, `sec = -62135596800`. -/
abbrev GoTime := Int

/-- The zero value `time.Time{}`. -/
def zeroTime : GoTime := -62135596800

/-- Go's conversion `int64(t)` of a `uint64`: the two's complement reading. -/
def int64OfUint64 (t : Nat) : Int :=
  if t % 2 ^ 64 < 2 ^ 63 then ((t % 2 ^ 64 : Nat) : Int) else ((t % 2 ^ 64 : Nat) : Int) - 2 ^ 64

/-- Go's `time.Unix(sec, 0).UTC()`. -/
def timeUnixUTC (sec : Int) : GoTime := sec

/-- The source's `ParsedNotify`. -/
structure ParsedNotify where
  JobID : GoString
  PrevHash : GoString
  Height : Nat
  ScriptSig : GoString
  CoinbaseOuts : List CoinbaseOutput
  Version : GoString
  NBits : GoString
  NTime : GoString
  NTimeParsed : GoTime
  CleanJobs : Bool
  deriving DecidableEq

/-- Sequencing of Go statements that may return an error or panic. -/
def Outcome.bind {α β : Type} (x : Outcome α) (f : α → Outcome β) : Outcome β :=
  match x with
  | .ok a => f a
  | .fail e => .fail e
  | .panic => .panic

/-- The statement `x, ok := params[i].(string); if !ok { return nil, errors.New(msg) }`;
an index out of range is a panic. -/
def paramString (params : List JsonValue) (i : Nat) (msg : String) : Outcome GoString :=
  match params[i]? with
  | none => .panic
  | some (.string s) => .ok s
  | some _ => .fail (.errorsNew msg)

/-- The statement `x, ok := params[i].(bool); if !ok { return nil, errors.New(msg) }`. -/
def paramBool (params : List JsonValue) (i : Nat) (msg : String) : Outcome Bool :=
  match params[i]? with
  | none => .panic
  | some (.bool b) => .ok b
  | some _ => .fail (.errorsNew msg)

/-- Lines 126 to 129 of `Parse`, "parse nTime": the time of a base-16 `ntime` above
`1e9`, else the zero value the field starts with. -/
def parseNTime (ntime : GoString) : GoTime :=
  let r := parseUint ntime 16 64
  if r.2 = none ∧ r.1 > 1000000000 then timeUnixUTC (int64OfUint64 r.1) else zeroTime

/-- Lines 103 to 131 of `Parse`: the result built from the eight parameters. -/
def buildNotify (enc : AddressEncoder) (jobID prevhashLe coinbasePart1 coinbasePart2 version
    nbits ntime : GoString) (cleanJobs : Bool) : Outcome ParsedNotify :=
  match reverseHashHex prevhashLe with
  | none => .panic
  | some prevHash =>
    match extractHeightFromCoinbase coinbasePart1 coinbasePart2 with
    | none => .panic
    | some (height, scriptSig) =>
      match extractCoinbaseOutputs enc coinbasePart1 coinbasePart2 with
      | .panic => .panic
      | .fail err => .fail (.wrap "failed to extract coinbase outputs" err)
      | .ok outs =>
        .ok { JobID := jobID, PrevHash := prevHash, Height := height, ScriptSig := scriptSig,
              CoinbaseOuts := outs, Version := version, NBits := nbits, NTime := ntime,
              NTimeParsed := parseNTime ntime, CleanJobs := cleanJobs }

/-- Lines 46 to 131 of `Parse`: from the decoded object to the result. -/
def parseObject (enc : AddressEncoder) (raw : JsonObject) : Outcome ParsedNotify :=
  match raw "params".toList with
  | none => .fail (.errorsNew "missing 'params' field in mining.notify JSON")
  | some (.array params) =>
    if params.length < 9 then
      .fail (.errorsNew ("mining.notify params too short: got " ++ toString params.length
        ++ ", expected >=9"))
    else
      (paramString params 0 "params[0] (job_id) must be a string").bind fun jobID =>
      (paramString params 1 "params[1] (prevhash) must be a string").bind fun prevhashLe =>
      (paramString params 2 "params[2] (coinbase_part1) must be a string").bind fun part1 =>
      (paramString params 3 "params[3] (coinbase_part2) must be a string").bind fun part2 =>
      (paramString params 5 "params[5] (version) must be a string").bind fun version =>
      (paramString params 6 "params[6] (nbits) must be a string").bind fun nbits =>
      (paramString params 7 "params[7] (ntime) must be a string").bind fun ntime =>
      (paramBool params 8 "params[8] (clean_jobs) must be a boolean").bind fun cleanJobs =>
      buildNotify enc jobID prevhashLe part1 part2 version nbits ntime cleanJobs
  | some _ => .fail (.errorsNew "'params' must be an array")

/-- The source's `Parse`. -/
def Parse (unmarshal : Unmarshal) (enc : AddressEncoder) (input : GoString) :
    Outcome ParsedNotify :=
  let input := trimSpace input
  match unmarshal input with
  | .error err => .fail (.wrap "invalid mining.notify JSON" err)
  | .ok raw => parseObject enc raw

/-- The `params` of the test vector, with the previous block hash in the byte
order the pool sends. -/
def testParams : List JsonValue :=
  [.string "188d18305556824a".toList,
   .string "c02f7244762d09e3e052549bb90a2b9839f417cd0001d7da0000000000000000".toList,
   .string testPart1, .string testPart2, .array [],
   .string "20000000".toList, .string "1701ebf2".toList, .string "697250b0".toList,
   .bool false]

/-- A decoded object with the given `params` and the `id` and `method` keys. -/
def notifyObject (params : JsonValue) : JsonObject := fun key =>
  if key = "params".toList then some params
  else if key = "method".toList then some (.string "mining.notify".toList)
  else if key = "id".toList then some .null
  else none

/-- The value is a JSON string. -/
def isString : JsonValue → Bool
  | .string _ => true
  | _ => false

/-- The value is a JSON boolean. -/
def isBool : JsonValue → Bool
  | .bool _ => true
  | _ => false

/-- The text of a JSON string (empty for any other value). -/
def stringOf : JsonValue → GoString
  | .string s => s
  | _ => []

/-- The truth value of a JSON boolean (false for any other value). -/
def boolOf : JsonValue → Bool
  | .bool b => b
  | _ => false

/-- The required positions of `params`: strings at 0, 1, 2, 3, 5, 6, 7 and a
boolean at 8. -/
def requiredPositions : List Nat := [0, 1, 2, 3, 5, 6, 7, 8]

/-- The value has the type required at position `i`. -/
def hasRequiredType (i : Nat) (v : JsonValue) : Bool :=
  if i = 8 then isBool v else isString v

/-- The error text for a value of the wrong type at position `i`. -/
def wrongTypeMessage (i : Nat) : String :=
  if i = 0 then "params[0] (job_id) must be a string"
  else if i = 1 then "params[1] (prevhash) must be a string"
  else if i = 2 then "params[2] (coinbase_part1) must be a string"
  else if i = 3 then "params[3] (coinbase_part2) must be a string"
  else if i = 5 then "params[5] (version) must be a string"
  else if i = 6 then "params[6] (nbits) must be a string"
  else if i = 7 then "params[7] (ntime) must be a string"
  else "params[8] (clean_jobs) must be a boolean"

/-- The result of a Go function with its returned value changed by `f`. -/
def Outcome.map {α β : Type} (f : α → β) : Outcome α → Outcome β
  | .ok a => .ok (f a)
  | .fail e => .fail e
  | .panic => .panic

/-- A parsed notify with the `ntime` fields of another `ntime` string. -/
def withNTime (ntime : GoString) (r : ParsedNotify) : ParsedNotify :=
  { r with NTime := ntime, NTimeParsed := parseNTime ntime }

/-- What `parse_test.go` expects of the test vector, with the address of an
encoder that fails. -/
def testParsed : ParsedNotify :=
  { JobID := "188d18305556824a".toList
    PrevHash := "0000000000000000dad70100cd17f439982b0ab99b5452e0e3092d7644722fc0".toList
    Height := 933395
    ScriptSig := ("03133e0e010004b050726904c0e425150c0e6879647261706f6f6c2f32353666"
      ++ "ffffffff020097b012000000").toList
    CoinbaseOuts :=
      [⟨313562880, "P2WPKH".toList, "Unable to decode".toList⟩,
       ⟨0, "OP_RETURN".toList, "(Null Data)".toList⟩]
    Version := "20000000".toList
    NBits := "1701ebf2".toList
    NTime := "697250b0".toList
    NTimeParsed := 1769099440
    CleanJobs := false }

/-- The odd-length padding step of `reverseHashHex`: a leading `0` for a string
of odd length. -/
def padEven (t : GoString) : GoString :=
  if t.length % 2 = 1 then '0' :: t else t

/-- A serialized output as the output loop reads it: 16 hexadecimal digits of
value, a 2-hex-digit script length `L`, then `2 * L` characters of script, which
the loop does not inspect before the script `switch`. -/
def SerializedOutput.framed (o : SerializedOutput) : Bool :=
  decide (o.value.length = 16) && o.value.all isHexDigit &&
  decide (o.scriptLen.length = 2) && o.scriptLen.all isHexDigit &&
  decide (o.script.length = 2 * hexNat o.scriptLen)

/-- The offset `start` where the output loop starts in `s`: behind the count byte
that follows the first located `ffffffff`; or, when none is located and `s` begins
with `ffffffff`, behind the count byte at offset 8, or at offset 12 after a SegWit
marker `00` with flag `00` or `01`. -/
def outputsStartAt (s : GoString) (start : Nat) : Prop :=
  (∃ j, outputsLocatedAt s j ∧ (∀ k, k < j → ¬ outputsLocatedAt s k) ∧ start = j + 10) ∨
  ((¬ ∃ i, outputsLocatedAt s i) ∧ "ffffffff".toList <+: s ∧
    start = if (s.drop 8).take 2 = "00".toList ∧
      ((s.drop 10).take 2 = "00".toList ∨ (s.drop 10).take 2 = "01".toList) then 14 else 10)

/-! ## Lemmas -/

theorem swapLoop_spec (fuel : Nat) : ∀ (bs : List Nat) (i j : Nat), j < bs.length → j < i + 2 * fuel →
    ∃ r, swapLoop fuel bs i j = some r ∧
      ∀ k, r[k]? = if i ≤ k ∧ k ≤ j then bs[i + j - k]? else bs[k]? := by
  induction fuel with
  | zero =>
    intro bs i j hj hf
    refine ⟨bs, rfl, fun k => ?_⟩
    split
    · next h => have : i + j - k = k := by omega
                rw [this]
    · rfl
  | succ fuel ih =>
    intro bs i j hj hf
    unfold swapLoop
    by_cases hij : i < j
    · have hi : i < bs.length := by omega
      simp only [hij, if_true, List.getElem?_eq_getElem hi, List.getElem?_eq_getElem hj]
      obtain ⟨r, hr, hk⟩ := ih ((bs.set i bs[j]).set j bs[i]) (i + 1) (j - 1)
        (by simp; omega) (by omega)
      refine ⟨r, hr, fun k => ?_⟩
      rw [hk k]
      simp only [List.getElem?_set, List.length_set]
      rcases Nat.lt_trichotomy k i with h1 | h1 | h1
      · have e1 : ¬ (i + 1 ≤ k ∧ k ≤ j - 1) := by omega
        have e2 : ¬ (i ≤ k ∧ k ≤ j) := by omega
        have e3 : ¬ j = k := by omega
        have e4 : ¬ i = k := by omega
        simp only [e1, e2, e3, e4, if_false]
      · subst h1
        have e1 : ¬ (k + 1 ≤ k ∧ k ≤ j - 1) := by omega
        have e2 : (k ≤ k ∧ k ≤ j) := by omega
        have e3 : ¬ j = k := by omega
        have e5 : k + j - k = j := by omega
        simp [e1, e2, e3, e5, hi, List.getElem?_eq_getElem hj]
      · rcases Nat.lt_trichotomy k j with h2 | h2 | h2
        · have e1 : (i + 1 ≤ k ∧ k ≤ j - 1) := by omega
          have e2 : (i ≤ k ∧ k ≤ j) := by omega
          have e3 : ¬ j = i + j - k := by omega
          have e4 : ¬ i = i + j - k := by omega
          have e5 : i + 1 + (j - 1) - k = i + j - k := by omega
          simp [e1, e2, e3, e4, e5]
        · subst h2
          have e1 : ¬ (i + 1 ≤ k ∧ k ≤ k - 1) := by omega
          have e2 : (i ≤ k ∧ k ≤ k) := by omega
          have e5 : i + k - k = i := by omega
          simp [e1, e2, e5, hj, List.getElem?_eq_getElem hi]
        · have e1 : ¬ (i + 1 ≤ k ∧ k ≤ j - 1) := by omega
          have e2 : ¬ (i ≤ k ∧ k ≤ j) := by omega
          have e3 : ¬ j = k := by omega
          have e4 : ¬ i = k := by omega
          simp only [e1, e2, e3, e4, if_false]
    · simp only [hij, if_false]
      refine ⟨bs, rfl, fun k => ?_⟩
      split
      · next h => have : i + j - k = k := by omega
                  rw [this]
      · rfl

theorem swapLoop_reverse (bs : List Nat) :
    swapLoop bs.length bs 0 (bs.length - 1) = some bs.reverse := by
  cases bs with
  | nil => rfl
  | cons b rest =>
    obtain ⟨r, hr, hk⟩ := swapLoop_spec (b :: rest).length (b :: rest) 0 ((b :: rest).length - 1)
      (by simp) (by simp; omega)
    rw [hr]
    congr 1
    apply List.ext_getElem?
    intro k
    rw [hk k]
    by_cases h : k ≤ (b :: rest).length - 1
    · have h' : k < (b :: rest).length := by simp at h ⊢; omega
      rw [List.getElem?_reverse h']
      simp only [Nat.zero_le, true_and, h, if_true]
      congr 1
      omega
    · have h' : (b :: rest).length ≤ k := by simp at h ⊢; omega
      simp only [Nat.zero_le, true_and, h, if_false]
      rw [List.getElem?_eq_none h', List.getElem?_eq_none (by simpa using h')]

theorem char_eq_ofNat (c : Char) (n : Nat) (h : c.toNat = n) : c = Char.ofNat n := by
  rw [← h, Char.ofNat_toNat]

theorem fromHexChar_of_isHexDigit (c : Char) (h : isHexDigit c = true) :
    ∃ a, fromHexChar c = some a ∧ a < 16 ∧ hexDigit a = c.toLower := by
  simp only [isHexDigit, decide_eq_true_eq] at h
  simp only [String.toList, List.mem_cons, List.mem_singleton] at h
  rcases h with h | h | h | h | h | h | h | h | h | h | h | h | h | h | h | h | h | h | h | h | h | h | h <;>
    first
    | (subst h; exact ⟨_, rfl, by decide, by decide⟩)
    | simp at h

theorem isHexDigit_of_fromHexChar (c : Char) (a : Nat) (h : fromHexChar c = some a) :
    isHexDigit c = true := by
  unfold fromHexChar at h
  split_ifs at h with h1 h2 h3
  · obtain ⟨l, u⟩ := h1
    have := char_eq_ofNat c _ rfl
    generalize c.toNat = n at *
    subst this
    interval_cases n <;> decide
  · obtain ⟨l, u⟩ := h2
    have := char_eq_ofNat c _ rfl
    generalize c.toNat = n at *
    subst this
    interval_cases n <;> decide
  · obtain ⟨l, u⟩ := h3
    have := char_eq_ofNat c _ rfl
    generalize c.toNat = n at *
    subst this
    interval_cases n <;> decide

theorem fromHexChar_hexDigit (d : Nat) (h : d < 16) : fromHexChar (hexDigit d) = some d := by
  interval_cases d <;> rfl

theorem isLowerHexDigit_hexDigit (d : Nat) (h : d < 16) : isLowerHexDigit (hexDigit d) = true := by
  interval_cases d <;> decide

theorem isHexDigit_of_lower (c : Char) (h : isLowerHexDigit c = true) : isHexDigit c = true := by
  simp only [isLowerHexDigit, isHexDigit, decide_eq_true_eq, String.toList, List.mem_cons,
    List.mem_singleton] at h ⊢
  tauto

theorem toLower_of_lower (c : Char) (h : isLowerHexDigit c = true) : c.toLower = c := by
  simp only [isLowerHexDigit, decide_eq_true_eq, String.toList, List.mem_cons,
    List.mem_singleton] at h
  rcases h with h | h | h | h | h | h | h | h | h | h | h | h | h | h | h | h | h <;>
    first
    | (subst h; decide)
    | simp at h

theorem map_toLower_of_lower (s : GoString) (h : ∀ c ∈ s, isLowerHexDigit c = true) :
    s.map Char.toLower = s := by
  induction s with
  | nil => rfl
  | cons c cs ih =>
    simp only [List.map_cons]
    rw [toLower_of_lower c (h c (by simp)), ih (fun x hx => h x (by simp [hx]))]

/-- Decoding what `EncodeToString` wrote gives the bytes back. -/
theorem hexDecodeString_encode (bs : List Nat) (h : ∀ b ∈ bs, b < 256) :
    hexDecodeString (hexEncodeToString bs) = (bs, false) := by
  induction bs with
  | nil => rfl
  | cons b rest ih =>
    have hb : b < 256 := h b (by simp)
    have ih' := ih (fun x hx => h x (by simp [hx]))
    simp only [hexEncodeToString, hexDecodeString]
    rw [fromHexChar_hexDigit _ (Nat.mod_lt _ (by norm_num)),
      fromHexChar_hexDigit _ (Nat.mod_lt _ (by norm_num))]
    simp only [ih']
    congr 2
    omega

theorem hexEncodeToString_lower (bs : List Nat) :
    ∀ c ∈ hexEncodeToString bs, isLowerHexDigit c = true := by
  induction bs with
  | nil => intro c hc; simp [hexEncodeToString] at hc
  | cons b rest ih =>
    intro c hc
    simp only [hexEncodeToString, List.mem_cons] at hc
    rcases hc with hc | hc | hc
    · rw [hc]; exact isLowerHexDigit_hexDigit _ (Nat.mod_lt _ (by norm_num))
    · rw [hc]; exact isLowerHexDigit_hexDigit _ (Nat.mod_lt _ (by norm_num))
    · exact ih c hc

theorem hexEncodeToString_length (bs : List Nat) :
    (hexEncodeToString bs).length = 2 * bs.length := by
  induction bs with
  | nil => rfl
  | cons b rest ih => simp only [hexEncodeToString, List.length_cons, ih]; omega

/-- Decoding an even-length string of hexadecimal digits succeeds, gives one byte
per two digits, and encoding the bytes gives the string back in lower case. -/
theorem hexDecodeString_of_hex : ∀ (n : Nat) (s : GoString), s.length = 2 * n →
    (∀ c ∈ s, isHexDigit c = true) →
    ∃ bs, hexDecodeString s = (bs, false) ∧ bs.length = n ∧ (∀ b ∈ bs, b < 256) ∧
      hexEncodeToString bs = s.map Char.toLower := by
  intro n
  induction n with
  | zero =>
    intro s hl _
    have : s = [] := List.eq_nil_of_length_eq_zero (by omega)
    subst this
    exact ⟨[], rfl, rfl, by simp, rfl⟩
  | succ n ih =>
    intro s hl hs
    match s, hl, hs with
    | p :: q :: rest, hl, hs =>
      obtain ⟨a, ha, ha16, hpa⟩ := fromHexChar_of_isHexDigit p (hs p (by simp))
      obtain ⟨b, hb, hb16, hqb⟩ := fromHexChar_of_isHexDigit q (hs q (by simp))
      obtain ⟨bs, hbs, hlen, hlt, henc⟩ := ih rest (by simp at hl; omega)
        (fun x hx => hs x (by simp [hx]))
      refine ⟨(a * 16 + b) :: bs, ?_, by simp [hlen], ?_, ?_⟩
      · simp only [hexDecodeString, ha, hb, hbs]
      · intro x hx
        simp only [List.mem_cons] at hx
        rcases hx with hx | hx
        · omega
        · exact hlt x hx
      · simp only [hexEncodeToString, List.map_cons, henc]
        have e1 : (a * 16 + b) / 16 % 16 = a := by omega
        have e2 : (a * 16 + b) % 16 = b := by omega
        rw [e1, e2, hpa, hqb]

theorem isHexDigit_range (c : Char) (h : isHexDigit c = true) : 48 ≤ c.toNat ∧ c.toNat ≤ 122 := by
  simp only [isHexDigit, decide_eq_true_eq, String.toList, List.mem_cons,
    List.mem_singleton] at h
  rcases h with h | h | h | h | h | h | h | h | h | h | h | h | h | h | h | h | h | h | h | h | h | h | h <;>
    first
    | (subst h; decide)
    | simp at h

theorem find_space_none (n : Nat) (l : List Nat) (h : 48 ≤ n ∧ n ≤ 122) :
    spaceEncodings.find? (fun e => e.isPrefixOf (n :: l)) = none ∧
    spaceEncodings.find? (fun e => e.reverse.isPrefixOf (n :: l)) = none := by
  constructor
  · simp only [spaceEncodings, List.find?_eq_none, List.mem_cons, List.mem_singleton]
    intro e he
    rcases he with he | he | he | he | he | he | he | he | he | he | he | he | he | he | he | he | he | he | he | he | he | he | he | he | he | he <;>
    first
    | (subst he; simp [List.isPrefixOf]; omega)
    | simp at he
  · simp only [spaceEncodings, List.find?_eq_none, List.mem_cons, List.mem_singleton]
    intro e he
    rcases he with he | he | he | he | he | he | he | he | he | he | he | he | he | he | he | he | he | he | he | he | he | he | he | he | he | he <;>
    first
    | (subst he; simp [List.isPrefixOf]; omega)
    | simp at he

theorem find_space_nil :
    spaceEncodings.find? (fun e => e.isPrefixOf ([] : List Nat)) = none ∧
    spaceEncodings.find? (fun e => e.reverse.isPrefixOf ([] : List Nat)) = none := by
  constructor <;> decide

theorem trimLeft_hex (fuel : Nat) (s : GoString) (h : ∀ c ∈ s, isHexDigit c = true) :
    trimLeft fuel s = s := by
  cases fuel with
  | zero => rfl
  | succ fuel =>
    cases s with
    | nil => simp [trimLeft, leadingSpace, find_space_nil.1]
    | cons c cs =>
      simp [trimLeft, leadingSpace, (find_space_none c.toNat _ (isHexDigit_range c (h c (by simp)))).1]

theorem trimRight_hex (fuel : Nat) (s : GoString) (h : ∀ c ∈ s, isHexDigit c = true) :
    trimRight fuel s = s := by
  cases fuel with
  | zero => rfl
  | succ fuel =>
    cases hr : s.reverse with
    | nil => simp [trimRight, hr, find_space_nil.2]
    | cons c cs =>
      have hc : c ∈ s := by
        have : c ∈ s.reverse := by rw [hr]; simp
        simpa using this
      simp [trimRight, hr, (find_space_none c.toNat _ (isHexDigit_range c (h c hc))).2]

theorem trimSpace_hex (s : GoString) (h : ∀ c ∈ s, isHexDigit c = true) : trimSpace s = s := by
  simp only [trimSpace]
  rw [trimLeft_hex _ _ h, trimRight_hex _ _ h]

/-- On an even-length string of hexadecimal digits `reverseHashHex` decodes,
reverses and re-encodes. -/
theorem reverseHashHex_of_hex (s : GoString) (heven : s.length % 2 = 0)
    (h : ∀ c ∈ s, isHexDigit c = true) :
    ∃ bs, hexDecodeString s = (bs, false) ∧ (∀ b ∈ bs, b < 256) ∧ 2 * bs.length = s.length ∧
      hexEncodeToString bs = s.map Char.toLower ∧
      reverseHashHex s = some (hexEncodeToString bs.reverse) := by
  obtain ⟨bs, hbs, hlen, hlt, henc⟩ := hexDecodeString_of_hex (s.length / 2) s (by omega) h
  refine ⟨bs, hbs, hlt, by omega, henc, ?_⟩
  have hne : ¬ s.length % 2 = 1 := by omega
  simp only [reverseHashHex, trimSpace_hex s h, hne, if_false, hbs, swapLoop_reverse]

theorem reverseHashHex_twice (s : GoString) (heven : s.length % 2 = 0)
    (h : ∀ c ∈ s, isHexDigit c = true) :
    (reverseHashHex s).bind reverseHashHex = some (s.map Char.toLower) := by
  obtain ⟨bs, _, hlt, hlen, henc, hr⟩ := reverseHashHex_of_hex s heven h
  rw [hr, Option.some_bind]
  have hlt' : ∀ b ∈ bs.reverse, b < 256 := fun b hb => hlt b (by simpa using hb)
  obtain ⟨bs', hbs', _, _, _, hr'⟩ := reverseHashHex_of_hex (hexEncodeToString bs.reverse)
    (by rw [hexEncodeToString_length]; omega)
    (fun c hc => isHexDigit_of_lower c (hexEncodeToString_lower _ c hc))
  rw [hexDecodeString_encode _ hlt'] at hbs'
  have : bs' = bs.reverse := by
    have := congrArg Prod.fst hbs'
    exact this.symm
  rw [hr', this, List.reverse_reverse, henc]

theorem slice_eq_some (s : GoString) (lo hi : Nat) (h1 : lo ≤ hi) (h2 : hi ≤ s.length) :
    slice s lo hi = some ((s.drop lo).take (hi - lo)) := by
  simp [slice, h1, h2]

theorem slice_append_mid (a b c : GoString) :
    slice (a ++ b ++ c) a.length (a.length + b.length) = some b := by
  rw [slice_eq_some _ _ _ (by omega) (by simp)]
  simp [List.append_assoc]

theorem digitVal_of_isHexDigit (c : Char) (h : isHexDigit c = true) :
    digitVal c = fromHexChar c := by
  simp only [isHexDigit, decide_eq_true_eq, String.toList, List.mem_cons,
    List.mem_singleton] at h
  rcases h with h | h | h | h | h | h | h | h | h | h | h | h | h | h | h | h | h | h | h | h | h | h | h <;>
    first
    | (subst h; decide)
    | simp at h

/-- `ParseUint` on two hexadecimal digits, at 8 or 32 bits, gives their value. -/
theorem parseUint_two_hex (p q : Char) (hp : isHexDigit p = true) (hq : isHexDigit q = true)
    (bits : Nat) (hb : bits = 8 ∨ bits = 32) :
    parseUint [p, q] 16 bits = (hexNat [p, q], none) ∧ hexNat [p, q] < 256 := by
  obtain ⟨a, ha, ha16, _⟩ := fromHexChar_of_isHexDigit p hp
  obtain ⟨b, hb', hb16, _⟩ := fromHexChar_of_isHexDigit q hq
  have e1 : hexNat [p, q] = a * 16 + b := by
    simp [hexNat, ha, hb']
  rw [e1]
  refine ⟨?_, by omega⟩
  simp only [parseUint, List.cons_ne_nil, if_false, reduceCtorEq, parseUintLoop,
    digitVal_of_isHexDigit p hp, digitVal_of_isHexDigit q hq, ha, hb']
  have c1 : ¬ a ≥ 16 := by omega
  have c2 : ¬ b ≥ 16 := by omega
  have c3 : ¬ (0 ≥ (2 ^ 64 - 1) / 16 + 1) := by norm_num
  have c4 : (0 * 16 + a) % 2 ^ 64 = a := by norm_num; omega
  have c5 : ¬ (a < 0 * 16 % 2 ^ 64 ∨ a > 2 ^ bits - 1) := by
    rcases hb with hb | hb <;> subst hb <;> norm_num <;> omega
  have c6 : ¬ (a ≥ (2 ^ 64 - 1) / 16 + 1) := by norm_num; omega
  have c7 : (a * 16 + b) % 2 ^ 64 = a * 16 + b := by norm_num; omega
  have c8 : ¬ (a * 16 + b < a * 16 % 2 ^ 64 ∨ a * 16 + b > 2 ^ bits - 1) := by
    rcases hb with hb | hb <;> subst hb <;> norm_num <;> omega
  simp only [c1, c2, c3, c4, c5, c6, c7, c8, if_false]

theorem bigEndianUint64_swap (bs : List Nat) (h : bs.length = 8) :
    ∃ r, swapLoop 8 bs 0 7 = some r ∧ bigEndianUint64 r = some (leValue bs) := by
  have := swapLoop_reverse bs
  rw [h] at this
  refine ⟨bs.reverse, this, ?_⟩
  match bs, h with
  | [b0, b1, b2, b3, b4, b5, b6, b7], _ =>
    simp only [List.reverse_cons, List.reverse_nil, List.nil_append, List.cons_append,
      bigEndianUint64, leValue]
    congr 1
    ring

theorem swapLoop_short (bs : List Nat) (h : bs.length < 8) : swapLoop 8 bs 0 7 = none := by
  unfold swapLoop
  have : bs[7]? = none := List.getElem?_eq_none (by omega)
  simp [this]

theorem slice_at (s pre mid post : GoString) (hs : s = pre ++ mid ++ post) (lo hi : Nat)
    (hlo : lo = pre.length) (hhi : hi = lo + mid.length) : slice s lo hi = some mid := by
  subst hs hlo hhi
  exact slice_append_mid pre mid post

theorem wellFormed_iff (o : SerializedOutput) : o.wellFormed = true ↔
    (o.value.length = 16 ∧ (∀ c ∈ o.value, isHexDigit c = true) ∧
     o.scriptLen.length = 2 ∧ (∀ c ∈ o.scriptLen, isHexDigit c = true) ∧
     o.script.length = 2 * hexNat o.scriptLen ∧ (∀ c ∈ o.script, isHexDigit c = true)) := by
  simp only [SerializedOutput.wellFormed, Bool.and_eq_true, decide_eq_true_eq, List.all_eq_true]
  tauto

/-- The script `switch` cuts its payload within the script whenever the script
has the length its length byte declares. -/
theorem classifyScript_isSome (enc : AddressEncoder) (L : Nat) (script : GoString)
    (h : script.length = 2 * L) : ∃ ta, classifyScript enc L script = some ta := by
  unfold classifyScript
  simp only
  split_ifs with h1 h2 h3 h4 h5
  · rw [slice_eq_some _ _ _ (by omega) (by omega)]; exact ⟨_, rfl⟩
  · rw [slice_eq_some _ _ _ (by omega) (by omega)]; exact ⟨_, rfl⟩
  · simp only [sliceFrom]; rw [if_pos (by omega)]; exact ⟨_, rfl⟩
  · simp only [sliceFrom]; rw [if_pos (by omega)]; exact ⟨_, rfl⟩
  · exact ⟨_, rfl⟩
  · exact ⟨_, rfl⟩

/-- One round of the output loop on a well-formed output: the output is decoded
and the offset moves past it. -/
theorem walkOutputs_step (enc : AddressEncoder) (s pre post : GoString) (o : SerializedOutput)
    (hwf : o.wellFormed = true) (hs : s = pre ++ o.text ++ post) (left : Nat)
    (acc : List CoinbaseOutput) :
    walkOutputs enc s (left + 1) pre.length acc =
      walkOutputs enc s left (pre ++ o.text).length (acc ++ [decodeOutput enc o]) := by
  obtain ⟨hv, hvh, hl, hlh, hsc, _⟩ := (wellFormed_iff o).1 hwf
  have hlen : s.length = pre.length + 16 + 2 + 2 * hexNat o.scriptLen + post.length := by
    rw [hs]; simp [SerializedOutput.text, hv, hl, hsc]; omega
  have h1 : slice s pre.length (pre.length + 16) = some o.value :=
    slice_at s pre o.value (o.scriptLen ++ o.script ++ post)
      (by rw [hs]; simp [SerializedOutput.text]) _ _ rfl (by rw [hv])
  have h2 : slice s (pre.length + 16) (pre.length + 16 + 2) = some o.scriptLen :=
    slice_at s (pre ++ o.value) o.scriptLen (o.script ++ post)
      (by rw [hs]; simp [SerializedOutput.text]) _ _ (by simp [hv]) (by rw [hl])
  have h3 : slice s (pre.length + 16 + 2) (pre.length + 16 + 2 + hexNat o.scriptLen * 2)
      = some o.script :=
    slice_at s (pre ++ o.value ++ o.scriptLen) o.script post
      (by rw [hs]; simp [SerializedOutput.text]) _ _ (by simp [hv, hl]) (by rw [hsc]; omega)
  obtain ⟨bs, hbs, hbl, _, _⟩ := hexDecodeString_of_hex 8 o.value (by omega) hvh
  obtain ⟨r, hr, hbe⟩ := bigEndianUint64_swap bs hbl
  obtain ⟨ta, hta⟩ := classifyScript_isSome enc (hexNat o.scriptLen) o.script hsc
  have hp : parseUint o.scriptLen 16 32 = (hexNat o.scriptLen, none) := by
    match o.scriptLen, hl, hlh with
    | [p, q], _, hlh =>
      exact (parseUint_two_hex p q (hlh p (by simp)) (hlh q (by simp)) 32 (Or.inr rfl)).1
  have g1 : ¬ (pre.length + 16 + 2 > s.length) := by omega
  have g2 : ¬ (pre.length + 16 + 2 + hexNat o.scriptLen * 2 > s.length) := by omega
  have e : (pre ++ o.text).length = pre.length + 16 + 2 + hexNat o.scriptLen * 2 := by
    simp [SerializedOutput.text, hv, hl, hsc]; omega
  conv_lhs => unfold walkOutputs
  simp only [g1, if_false, h1, hbs, hr, hbe, h2, hp, ne_eq, not_true_eq_false, g2, h3, hta, e,
    decodeOutput, Option.getD_some]

theorem text_length (o : SerializedOutput) (hwf : o.wellFormed = true) :
    o.text.length = 18 + 2 * hexNat o.scriptLen := by
  obtain ⟨hv, _, hl, _, hsc, _⟩ := (wellFormed_iff o).1 hwf
  simp [SerializedOutput.text, hv, hl, hsc]
  omega

/-- The output loop on a run of well-formed outputs decodes them all, in order. -/
theorem walkOutputs_wellFormed (enc : AddressEncoder) (s post : GoString) :
    ∀ (outs : List SerializedOutput) (pre : GoString) (left : Nat) (acc : List CoinbaseOutput),
    (∀ o ∈ outs, o.wellFormed = true) → s = pre ++ outputsText outs ++ post →
    walkOutputs enc s (outs.length + left) pre.length acc =
      walkOutputs enc s left (pre ++ outputsText outs).length
        (acc ++ outs.map (decodeOutput enc)) := by
  intro outs
  induction outs with
  | nil =>
    intro pre left acc _ _
    simp [outputsText]
  | cons o rest ih =>
    intro pre left acc hwf hs
    have hs1 : s = pre ++ o.text ++ (outputsText rest ++ post) := by
      rw [hs]; simp [outputsText]
    have hs2 : s = (pre ++ o.text) ++ outputsText rest ++ post := by
      rw [hs]; simp [outputsText]
    have e : (o :: rest).length + left = (rest.length + left) + 1 := by simp; omega
    rw [e, walkOutputs_step enc s pre _ o (hwf o (by simp)) hs1,
      ih (pre ++ o.text) left _ (fun x hx => hwf x (by simp [hx])) hs2]
    simp [outputsText]

/-- After `ffffffff` and a count byte in `[1, 10]` the scan stops at once, no
SegWit marker is skipped, and the output loop starts at offset 10. -/
theorem extractCoinbaseOutputs_header (enc : AddressEncoder) (part1 s cnt rest : GoString)
    (n : Nat) (hs : s = "ffffffff".toList ++ cnt ++ rest) (hlen : 20 ≤ s.length)
    (hc : cnt.length = 2) (hp : parseUint cnt 16 8 = (n, none)) (hn : 1 ≤ n ∧ n ≤ 10) :
    extractCoinbaseOutputs enc part1 s = walkOutputs enc s n 10 [] := by
  have h1 : slice s 0 8 = some "ffffffff".toList :=
    slice_at s [] "ffffffff".toList (cnt ++ rest) (by rw [hs]; simp) _ _ rfl rfl
  have h2 : slice s 8 10 = some cnt :=
    slice_at s "ffffffff".toList cnt rest hs _ _ rfl (by rw [hc])
  have hne : cnt ≠ "00".toList := by
    intro h
    rw [h] at hp
    have : (parseUint "00".toList 16 8).1 = 0 := by decide
    rw [hp] at this
    simp at this
    omega
  obtain ⟨k, hk⟩ : ∃ k, s.length = k + 1 := ⟨s.length - 1, by omega⟩
  have hf : findOutputsStart s s.length 0 = .ok (some 8) := by
    rw [hk]
    unfold findOutputsStart
    have g : 0 + 10 ≤ s.length := by omega
    simp only [g, if_true, Nat.zero_add, h1, h2, hp, ge_iff_le, hn.1, hn.2, and_self]
  have g1 : ¬ s.length < 20 := by omega
  have g2 : 8 + 4 ≤ s.length := by omega
  unfold extractCoinbaseOutputs
  simp only [g1, if_false, hf, g2, if_true, h2, hne, hp]

theorem prefix_split (t a b : GoString) (h : t <+: a ++ b) (hl : a.length ≤ t.length) :
    ∃ t', t = a ++ t' ∧ t' <+: b := by
  obtain ⟨u, hu⟩ := h
  have h1 : a <+: t ++ u := by rw [hu]; exact List.prefix_append a b
  have h2 : a <+: t := List.prefix_of_prefix_length_le h1 (List.prefix_append t u) hl
  obtain ⟨t', ht'⟩ := h2
  refine ⟨t', ht'.symm, ?_⟩
  rw [← ht', List.append_assoc] at hu
  have := List.append_cancel_left hu
  exact ⟨u, this⟩

/-- A round of the output loop that meets a proper prefix of a well-formed
output at the end of the text stops the loop without an error. -/
theorem walkOutputs_truncated (enc : AddressEncoder) (s pre t : GoString) (w : SerializedOutput)
    (hwf : w.wellFormed = true) (hs : s = pre ++ t) (hpre : t <+: w.text)
    (hlt : t.length < w.text.length) (left : Nat) (acc : List CoinbaseOutput) :
    walkOutputs enc s (left + 1) pre.length acc = .ok acc := by
  obtain ⟨hv, hvh, hl, hlh, hsc, _⟩ := (wellFormed_iff w).1 hwf
  have hlen : s.length = pre.length + t.length := by rw [hs]; simp
  have htl := text_length w hwf
  unfold walkOutputs
  by_cases g1 : pre.length + 16 + 2 > s.length
  · simp only [g1, if_true]
  · have ht18 : 18 ≤ t.length := by omega
    obtain ⟨t1, ht1, hp1⟩ := prefix_split t w.value (w.scriptLen ++ w.script)
      (by simpa [SerializedOutput.text] using hpre) (by omega)
    obtain ⟨t2, ht2, hp2⟩ := prefix_split t1 w.scriptLen w.script hp1
      (by rw [ht1] at ht18; simp [hv] at ht18; omega)
    have h1 : slice s pre.length (pre.length + 16) = some w.value :=
      slice_at s pre w.value (w.scriptLen ++ t2)
        (by rw [hs, ht1, ht2]; simp) _ _ rfl (by rw [hv])
    have h2 : slice s (pre.length + 16) (pre.length + 16 + 2) = some w.scriptLen :=
      slice_at s (pre ++ w.value) w.scriptLen t2
        (by rw [hs, ht1, ht2]; simp) _ _ (by simp [hv]) (by rw [hl])
    obtain ⟨bs, hbs, hbl, _, _⟩ := hexDecodeString_of_hex 8 w.value (by omega) hvh
    obtain ⟨r, hr, hbe⟩ := bigEndianUint64_swap bs hbl
    have hp : parseUint w.scriptLen 16 32 = (hexNat w.scriptLen, none) := by
      match w.scriptLen, hl, hlh with
      | [p, q], _, hlh =>
        exact (parseUint_two_hex p q (hlh p (by simp)) (hlh q (by simp)) 32 (Or.inr rfl)).1
    have g2 : pre.length + 16 + 2 + hexNat w.scriptLen * 2 > s.length := by omega
    simp only [g1, if_false, h1, hbs, hr, hbe, h2, hp, ne_eq, not_true_eq_false, g2, if_true]

theorem parseUint_count (n : Nat) (hn : 1 ≤ n ∧ n ≤ 10) :
    (hexEncodeToString [n]).length = 2 ∧ parseUint (hexEncodeToString [n]) 16 8 = (n, none) := by
  obtain ⟨h1, h2⟩ := hn
  interval_cases n <;> exact ⟨rfl, by decide⟩

theorem walkOutputs_zero (enc : AddressEncoder) (s : GoString) (off : Nat)
    (acc : List CoinbaseOutput) : walkOutputs enc s 0 off acc = .ok acc := by
  unfold walkOutputs
  rfl

theorem outputsText_length_ge (outs : List SerializedOutput)
    (hwf : ∀ o ∈ outs, o.wellFormed = true) : 18 * outs.length ≤ (outputsText outs).length := by
  induction outs with
  | nil => simp
  | cons o rest ih =>
    have h1 := text_length o (hwf o (by simp))
    have h2 := ih (fun x hx => hwf x (by simp [hx]))
    simp only [outputsText, List.map_cons, List.flatten_cons, List.length_append,
      List.length_cons] at h2 ⊢
    omega

/-- The extractor on `ffffffff`, a count byte in `[1, 10]`, a run of well-formed
outputs and any rest: the run is decoded and the loop goes on behind it for the
rounds the count leaves. -/
theorem extractCoinbaseOutputs_run (enc : AddressEncoder) (part1 cnt rest : GoString)
    (n left : Nat) (outs : List SerializedOutput) (hwf : ∀ o ∈ outs, o.wellFormed = true)
    (hc : cnt.length = 2) (hp : parseUint cnt 16 8 = (n, none)) (hn : 1 ≤ n ∧ n ≤ 10)
    (hcount : n = outs.length + left) (hne : outs ≠ []) :
    extractCoinbaseOutputs enc part1 ("ffffffff".toList ++ cnt ++ outputsText outs ++ rest) =
      walkOutputs enc ("ffffffff".toList ++ cnt ++ outputsText outs ++ rest) left
        ("ffffffff".toList ++ cnt ++ outputsText outs).length (outs.map (decodeOutput enc)) := by
  have hl := outputsText_length_ge outs hwf
  have hpos : 1 ≤ outs.length := by
    cases outs with
    | nil => exact absurd rfl hne
    | cons _ _ => simp
  rw [extractCoinbaseOutputs_header enc part1 _ cnt (outputsText outs ++ rest) n
    (by simp) (by simp [hc]; omega) hc hp hn, hcount]
  have e : (10 : Nat) = ("ffffffff".toList ++ cnt).length := by simp [hc]
  rw [e, walkOutputs_wellFormed enc _ rest outs ("ffffffff".toList ++ cnt) left [] hwf rfl]
  simp

theorem startsWith_iff (s p : GoString) : startsWith s p = true ↔ p <+: s := by
  simp only [startsWith, decide_eq_true_eq]
  constructor
  · rintro ⟨_, h⟩
    exact List.prefix_iff_eq_take.2 h.symm
  · intro h
    exact ⟨h.length_le, (List.prefix_iff_eq_take.1 h).symm⟩

theorem endsWith_iff (s p : GoString) : endsWith s p = true ↔ p <:+ s := by
  simp only [endsWith, decide_eq_true_eq]
  constructor
  · rintro ⟨_, h⟩
    exact List.suffix_iff_eq_drop.2 h.symm
  · intro h
    exact ⟨h.length_le, (List.suffix_iff_eq_drop.1 h).symm⟩

theorem head_of_prefix (c : Char) (p s : GoString) (h : (c :: p) <+: s) : s.head? = some c := by
  obtain ⟨u, hu⟩ := h
  rw [← hu]
  rfl

/-- The script `switch` follows the five templates on the script text. -/
theorem classifyScript_templates (enc : AddressEncoder) (L : Nat) (s : GoString)
    (hl : s.length = 2 * L) (ta : GoString × GoString) (h : classifyScript enc L s = some ta)
    (v : Nat) : followsTemplates s { ValueSatoshis := v, Typ := ta.1, Address := ta.2 } := by
  have k1 : "76a914".toList <+: s → s.head? = some '7' := head_of_prefix _ _ _
  have k2 : "a914".toList <+: s → s.head? = some 'a' := head_of_prefix _ _ _
  have k3 : "0014".toList <+: s → s.head? = some '0' := head_of_prefix _ _ _
  have k4 : "0020".toList <+: s → s.head? = some '0' := head_of_prefix _ _ _
  have k5 : "6a".toList <+: s → s.head? = some '6' := head_of_prefix _ _ _
  unfold classifyScript at h
  simp only [startsWith_iff, endsWith_iff] at h
  unfold followsTemplates
  split_ifs at h with c1 c2 c3 c4 c5
  · obtain ⟨_, _, rfl⟩ := Option.map_eq_some'.1 h
    have h7 := k1 c1.2.1
    refine ⟨fun _ => rfl, ?_, ?_, ?_, ?_, ?_⟩
    · rintro ⟨g, _⟩; omega
    · rintro ⟨g, _⟩; omega
    · rintro ⟨g, _⟩; omega
    · intro g; rw [k5 g] at h7; simp at h7
    · rintro ⟨g, _⟩; exact absurd ⟨by omega, c1.2.1, c1.2.2⟩ g
  · obtain ⟨_, _, rfl⟩ := Option.map_eq_some'.1 h
    have h7 := k2 c2.2.1
    refine ⟨?_, fun _ => rfl, ?_, ?_, ?_, ?_⟩
    · rintro ⟨g, _⟩; omega
    · rintro ⟨g, _⟩; omega
    · rintro ⟨g, _⟩; omega
    · intro g; rw [k5 g] at h7; simp at h7
    · rintro ⟨_, g, _⟩; exact absurd ⟨by omega, c2.2.1, c2.2.2⟩ g
  · obtain ⟨_, _, rfl⟩ := Option.map_eq_some'.1 h
    have h7 := k3 c3.2
    refine ⟨?_, ?_, fun _ => rfl, ?_, ?_, ?_⟩
    · rintro ⟨g, _⟩; omega
    · rintro ⟨g, _⟩; omega
    · rintro ⟨g, _⟩; omega
    · intro g; rw [k5 g] at h7; simp at h7
    · rintro ⟨_, _, g, _⟩; exact absurd ⟨by omega, c3.2⟩ g
  · obtain ⟨_, _, rfl⟩ := Option.map_eq_some'.1 h
    have h7 := k4 c4.2
    refine ⟨?_, ?_, ?_, fun _ => rfl, ?_, ?_⟩
    · rintro ⟨g, _⟩; omega
    · rintro ⟨g, _⟩; omega
    · rintro ⟨g, _⟩; omega
    · intro g; rw [k5 g] at h7; simp at h7
    · rintro ⟨_, _, _, g, _⟩; exact absurd ⟨by omega, c4.2⟩ g
  · simp only [Option.some.injEq] at h
    subst h
    refine ⟨?_, ?_, ?_, ?_, fun _ => ⟨rfl, rfl⟩, ?_⟩
    · rintro ⟨g1, g2, g3⟩; exact absurd ⟨by omega, g2, g3⟩ c1
    · rintro ⟨g1, g2, g3⟩; exact absurd ⟨by omega, g2, g3⟩ c2
    · rintro ⟨g1, g2⟩; exact absurd ⟨by omega, g2⟩ c3
    · rintro ⟨g1, g2⟩; exact absurd ⟨by omega, g2⟩ c4
    · rintro ⟨_, _, _, _, g⟩; exact absurd c5 g
  · simp only [Option.some.injEq] at h
    subst h
    refine ⟨?_, ?_, ?_, ?_, ?_, fun _ => ⟨rfl, rfl⟩⟩
    · rintro ⟨g1, g2, g3⟩; exact absurd ⟨by omega, g2, g3⟩ c1
    · rintro ⟨g1, g2, g3⟩; exact absurd ⟨by omega, g2, g3⟩ c2
    · rintro ⟨g1, g2⟩; exact absurd ⟨by omega, g2⟩ c3
    · rintro ⟨g1, g2⟩; exact absurd ⟨by omega, g2⟩ c4
    · intro g; exact absurd g c5

theorem decodeOutput_templates (enc : AddressEncoder) (o : SerializedOutput)
    (hwf : o.wellFormed = true) : followsTemplates o.script (decodeOutput enc o) := by
  obtain ⟨_, _, _, _, hsc, _⟩ := (wellFormed_iff o).1 hwf
  obtain ⟨ta, hta⟩ := classifyScript_isSome enc (hexNat o.scriptLen) o.script hsc
  have := classifyScript_templates enc _ _ hsc ta hta (leValue (hexDecodeString o.value).1)
  simpa [decodeOutput, hta] using this

/-- The type the script `switch` assigns, and whether it panics, do not depend on
the address encoder. -/
theorem classifyScript_type_indep (e1 e2 : AddressEncoder) (L : Nat) (s : GoString) :
    (classifyScript e1 L s).map Prod.fst = (classifyScript e2 L s).map Prod.fst := by
  unfold classifyScript
  simp only
  split_ifs <;> simp [Option.map_map, Function.comp_def]

theorem walkOutputs_shape (e1 e2 : AddressEncoder) (s : GoString) :
    ∀ (n off : Nat) (acc1 acc2 : List CoinbaseOutput),
    (acc1.map fun r => (r.ValueSatoshis, r.Typ)) = (acc2.map fun r => (r.ValueSatoshis, r.Typ)) →
    (walkOutputs e1 s n off acc1).shape = (walkOutputs e2 s n off acc2).shape := by
  intro n
  induction n with
  | zero =>
    intro off acc1 acc2 h
    simp only [walkOutputs, Outcome.shape, h]
  | succ n ih =>
    intro off acc1 acc2 h
    unfold walkOutputs
    by_cases g1 : off + 16 + 2 > s.length
    · simp only [g1, if_true, Outcome.shape, h]
    · simp only [g1, if_false]
      cases h1 : slice s off (off + 16) with
      | none => rfl
      | some valLE =>
        simp only
        cases h2 : swapLoop 8 (hexDecodeString valLE).1 0 7 with
        | none => rfl
        | some valBE =>
          simp only
          cases h3 : bigEndianUint64 valBE with
          | none => rfl
          | some valueSat =>
            simp only
            cases h4 : slice s (off + 16) (off + 16 + 2) with
            | none => rfl
            | some lenHex =>
              simp only
              by_cases g2 : (parseUint lenHex 16 32).2 ≠ none
              · rw [if_pos g2, if_pos g2]
                simp only [Outcome.shape, h]
              · rw [if_neg g2, if_neg g2]
                by_cases g3 : off + 16 + 2 + (parseUint lenHex 16 32).1 * 2 > s.length
                · simp only [g3, if_true, Outcome.shape, h]
                · simp only [g3, if_false]
                  cases h5 : slice s (off + 16 + 2)
                      (off + 16 + 2 + (parseUint lenHex 16 32).1 * 2) with
                  | none => rfl
                  | some script =>
                    simp only
                    have hc := classifyScript_type_indep e1 e2 (parseUint lenHex 16 32).1 script
                    cases c1 : classifyScript e1 (parseUint lenHex 16 32).1 script with
                    | none =>
                      cases c2 : classifyScript e2 (parseUint lenHex 16 32).1 script with
                      | none => rfl
                      | some t2 => rw [c1, c2] at hc; simp at hc
                    | some t1 =>
                      cases c2 : classifyScript e2 (parseUint lenHex 16 32).1 script with
                      | none => rw [c1, c2] at hc; simp at hc
                      | some t2 =>
                        rw [c1, c2] at hc
                        simp only [Option.map_some', Option.some.injEq] at hc
                        simp only
                        apply ih
                        simp [h, hc]

/-- The error or panic of `extractCoinbaseOutputs`, and the number, order, value
and type of its outputs, are the same for every address encoder. -/
theorem extractCoinbaseOutputs_shape (e1 e2 : AddressEncoder) (part1 part2 : GoString) :
    (extractCoinbaseOutputs e1 part1 part2).shape =
      (extractCoinbaseOutputs e2 part1 part2).shape := by
  unfold extractCoinbaseOutputs
  simp only
  split
  · rfl
  · split
    · rfl
    · rfl
    · split
      · rfl
      · split
        · rfl
        · split
          · rfl
          · split
            · rfl
            · exact walkOutputs_shape e1 e2 _ _ _ _ _ rfl

theorem classifyScript_p2pkh (enc : AddressEncoder) (p : GoString) (hp : p.length = 40) :
    classifyScript enc 25 ("76a914".toList ++ p ++ "88ac".toList) =
      some ("P2PKH".toList, (enc.P2PKHAddressFromHash160 p).getD "Unable to decode".toList) := by
  have c : 25 = 25 ∧ startsWith ("76a914".toList ++ p ++ "88ac".toList) "76a914".toList = true ∧
      endsWith ("76a914".toList ++ p ++ "88ac".toList) "88ac".toList = true :=
    ⟨rfl, (startsWith_iff _ _).2 ⟨p ++ "88ac".toList, by simp⟩,
      (endsWith_iff _ _).2 ⟨"76a914".toList ++ p, by simp⟩⟩
  have hs : slice ("76a914".toList ++ p ++ "88ac".toList) 6 46 = some p :=
    slice_at _ "76a914".toList p "88ac".toList rfl _ _ rfl (by rw [hp])
  unfold classifyScript
  simp only [c.2.1, c.2.2, hs, true_and, and_self, and_true, if_true, if_false, Option.map_some',
    false_and, (by decide : ¬ ((23 : Nat) = 25)), (by decide : ¬ ((22 : Nat) = 25)),
    (by decide : ¬ ((22 : Nat) = 23)), (by decide : ¬ ((34 : Nat) = 25)),
    (by decide : ¬ ((34 : Nat) = 23)), (by decide : ¬ ((34 : Nat) = 22))]

theorem classifyScript_p2sh (enc : AddressEncoder) (p : GoString) (hp : p.length = 40) :
    classifyScript enc 23 ("a914".toList ++ p ++ "87".toList) =
      some ("P2SH".toList, (enc.P2SHAddressFromHash160 p).getD "Unable to decode".toList) := by
  have c : 23 = 23 ∧ startsWith ("a914".toList ++ p ++ "87".toList) "a914".toList = true ∧
      endsWith ("a914".toList ++ p ++ "87".toList) "87".toList = true :=
    ⟨rfl, (startsWith_iff _ _).2 ⟨p ++ "87".toList, by simp⟩,
      (endsWith_iff _ _).2 ⟨"a914".toList ++ p, by simp⟩⟩
  have hs : slice ("a914".toList ++ p ++ "87".toList) 4 44 = some p :=
    slice_at _ "a914".toList p "87".toList rfl _ _ rfl (by rw [hp])
  unfold classifyScript
  simp only [c.2.1, c.2.2, hs, true_and, and_self, and_true, if_true, if_false, Option.map_some',
    false_and, (by decide : ¬ ((23 : Nat) = 25)), (by decide : ¬ ((22 : Nat) = 25)),
    (by decide : ¬ ((22 : Nat) = 23)), (by decide : ¬ ((34 : Nat) = 25)),
    (by decide : ¬ ((34 : Nat) = 23)), (by decide : ¬ ((34 : Nat) = 22))]

theorem classifyScript_p2wpkh (enc : AddressEncoder) (p : GoString) :
    classifyScript enc 22 ("0014".toList ++ p) =
      some ("P2WPKH".toList, (enc.P2WPKHAddresssFromProgram p).getD "Unable to decode".toList) := by
  have c : 22 = 22 ∧ startsWith ("0014".toList ++ p) "0014".toList = true :=
    ⟨rfl, (startsWith_iff _ _).2 ⟨p, rfl⟩⟩
  have hs : sliceFrom ("0014".toList ++ p) 4 = some p := by
    simp [sliceFrom]
  unfold classifyScript
  simp only [c.2, hs, true_and, and_self, and_true, if_true, if_false, Option.map_some',
    false_and, (by decide : ¬ ((23 : Nat) = 25)), (by decide : ¬ ((22 : Nat) = 25)),
    (by decide : ¬ ((22 : Nat) = 23)), (by decide : ¬ ((34 : Nat) = 25)),
    (by decide : ¬ ((34 : Nat) = 23)), (by decide : ¬ ((34 : Nat) = 22))]

theorem classifyScript_p2wsh (enc : AddressEncoder) (p : GoString) :
    classifyScript enc 34 ("0020".toList ++ p) =
      some ("P2WSH".toList, (enc.P2WSHAddresssFromProgram p).getD "Unable to decode".toList) := by
  have c : 34 = 34 ∧ startsWith ("0020".toList ++ p) "0020".toList = true :=
    ⟨rfl, (startsWith_iff _ _).2 ⟨p, rfl⟩⟩
  have hs : sliceFrom ("0020".toList ++ p) 4 = some p := by
    simp [sliceFrom]
  unfold classifyScript
  simp only [c.2, hs, true_and, and_self, and_true, if_true, if_false, Option.map_some',
    false_and, (by decide : ¬ ((23 : Nat) = 25)), (by decide : ¬ ((22 : Nat) = 25)),
    (by decide : ¬ ((22 : Nat) = 23)), (by decide : ¬ ((34 : Nat) = 25)),
    (by decide : ¬ ((34 : Nat) = 23)), (by decide : ¬ ((34 : Nat) = 22))]

theorem decodeOutput_keepsSentinel (enc : AddressEncoder) (o : SerializedOutput)
    (hwf : o.wellFormed = true) : keepsSentinel enc o (decodeOutput enc o) := by
  obtain ⟨_, _, _, _, hsc, _⟩ := (wellFormed_iff o).1 hwf
  refine ⟨rfl, ?_, ?_, ?_, ?_⟩
  · intro p hs hp he
    have hL : hexNat o.scriptLen = 25 := by rw [hs] at hsc; simp [hp] at hsc; omega
    simp only [decodeOutput, hL, hs, classifyScript_p2pkh enc p hp, he, Option.getD_some, Option.getD_none]
    exact ⟨trivial, trivial⟩
  · intro p hs hp he
    have hL : hexNat o.scriptLen = 23 := by rw [hs] at hsc; simp [hp] at hsc; omega
    simp only [decodeOutput, hL, hs, classifyScript_p2sh enc p hp, he, Option.getD_some, Option.getD_none]
    exact ⟨trivial, trivial⟩
  · intro p hs hp he
    have hL : hexNat o.scriptLen = 22 := by rw [hs] at hsc; simp [hp] at hsc; omega
    simp only [decodeOutput, hL, hs, classifyScript_p2wpkh enc p, he, Option.getD_some, Option.getD_none]
    exact ⟨trivial, trivial⟩
  · intro p hs hp he
    have hL : hexNat o.scriptLen = 34 := by rw [hs] at hsc; simp [hp] at hsc; omega
    simp only [decodeOutput, hL, hs, classifyScript_p2wsh enc p, he, Option.getD_some, Option.getD_none]
    exact ⟨trivial, trivial⟩

theorem le_lor (n m : Nat) : n ≤ n ||| m :=
  Nat.le_of_testBit (fun i h => by simp [h])

theorem isHexDigit_of_digitVal (c : Char) (d : Nat) (h : digitVal c = some d) (hd : d < 16) :
    isHexDigit c = true := by
  unfold digitVal at h
  split_ifs at h with h1 h2
  · apply isHexDigit_of_fromHexChar c (c.toNat - 48)
    simp [fromHexChar, h1]
  · simp only [Option.some.injEq] at h
    subst h
    have hle : c.toNat ≤ c.toNat ||| 32 := le_lor _ _
    have hn : c.toNat ≤ 102 := by omega
    have hc := char_eq_ofNat c _ rfl
    generalize c.toNat = n at *
    subst hc
    interval_cases n <;> first | decide | (exfalso; revert hd; decide) | (exfalso; revert h2; decide)

/-- On two characters that are not both hexadecimal digits `ParseUint`, at 8 or
32 bits, reports a syntax error, with value 0. -/
theorem parseUint_two_nonhex (p q : Char) (bits : Nat) (hbits : bits = 8 ∨ bits = 32)
    (h : ¬ (isHexDigit p = true ∧ isHexDigit q = true)) :
    parseUint [p, q] 16 bits = (0, some .invalidSyntax) := by
  simp only [parseUint, List.cons_ne_nil, if_false, reduceCtorEq, parseUintLoop]
  cases hp : digitVal p with
  | none => rfl
  | some a =>
    simp only
    by_cases ha : a ≥ 16
    · simp only [ha, if_true]
    · have hpx := isHexDigit_of_digitVal p a hp (by omega)
      have c3 : ¬ (0 ≥ (2 ^ 64 - 1) / 16 + 1) := by norm_num
      have c4 : (0 * 16 + a) % 2 ^ 64 = a := by norm_num; omega
      have c5 : ¬ (a < 0 * 16 % 2 ^ 64 ∨ a > 2 ^ bits - 1) := by
        rcases hbits with hb | hb <;> subst hb <;> norm_num <;> omega
      have c6 : ¬ (a ≥ (2 ^ 64 - 1) / 16 + 1) := by norm_num; omega
      simp only [ha, if_false, c3, c4, c5, c6]
      cases hq : digitVal q with
      | none => rfl
      | some b =>
        simp only
        by_cases hb : b ≥ 16
        · simp only [hb, if_true]
        · exact absurd ⟨hpx, isHexDigit_of_digitVal q b hq (by omega)⟩ h

theorem hexByteValue_eq (p q : Char) :
    (isHexDigit p = true ∧ isHexDigit q = true ∧ hexByteValue [p, q] = some (hexNat [p, q])) ∨
    (¬ (isHexDigit p = true ∧ isHexDigit q = true) ∧ hexByteValue [p, q] = none) := by
  by_cases h : isHexDigit p = true ∧ isHexDigit q = true
  · left
    obtain ⟨a, ha, _, _⟩ := fromHexChar_of_isHexDigit p h.1
    obtain ⟨b, hb, _, _⟩ := fromHexChar_of_isHexDigit q h.2
    refine ⟨h.1, h.2, ?_⟩
    simp [hexByteValue, hexNat, ha, hb]
  · right
    refine ⟨h, ?_⟩
    cases ha : fromHexChar p with
    | none => simp [hexByteValue, ha]
    | some a =>
      cases hb : fromHexChar q with
      | none => simp [hexByteValue, ha, hb]
      | some b =>
        exact absurd ⟨isHexDigit_of_fromHexChar p a ha, isHexDigit_of_fromHexChar q b hb⟩ h

/-- The count the scan reads from two characters is in `[1, 10]` exactly when
they write a byte whose value is in `[1, 10]`. -/
theorem count_in_range_iff (t : GoString) (ht : t.length = 2) :
    ((parseUint t 16 8).1 ≥ 1 ∧ (parseUint t 16 8).1 ≤ 10) ↔
      ∃ v, hexByteValue t = some v ∧ 1 ≤ v ∧ v ≤ 10 := by
  match t, ht with
  | [p, q], _ =>
    rcases hexByteValue_eq p q with ⟨hp, hq, hv⟩ | ⟨hn, hv⟩
    · rw [(parseUint_two_hex p q hp hq 8 (Or.inl rfl)).1, hv]
      simp
    · rw [parseUint_two_nonhex p q 8 (Or.inl rfl) hn, hv]
      simp

/-- The scan neither fails nor panics; it stops at the first located offset, and
finds none exactly when no offset is located. -/
theorem findOutputsStart_spec (s : GoString) : ∀ (fuel i : Nat), s.length ≤ i + fuel →
    i % 2 = 0 →
    (∃ j, findOutputsStart s fuel i = .ok (some (j + 8)) ∧ i ≤ j ∧ outputsLocatedAt s j ∧
      ∀ k, i ≤ k → k < j → ¬ outputsLocatedAt s k) ∨
    (findOutputsStart s fuel i = .ok none ∧ ∀ k, i ≤ k → ¬ outputsLocatedAt s k) := by
  intro fuel
  induction fuel with
  | zero =>
    intro i hf _
    right
    refine ⟨rfl, fun k hk hloc => ?_⟩
    have := hloc.2.1
    omega
  | succ fuel ih =>
    intro i hf hi
    unfold findOutputsStart
    by_cases g : i + 10 ≤ s.length
    · have h1 : slice s i (i + 8) = some ((s.drop i).take 8) := by
        rw [slice_eq_some _ _ _ (by omega) (by omega)]
        congr 2
        omega
      have h2 : slice s (i + 8) (i + 10) = some ((s.drop (i + 8)).take 2) := by
        rw [slice_eq_some _ _ _ (by omega) (by omega)]
        congr 2
        omega
      have hlen2 : ((s.drop (i + 8)).take 2).length = 2 := by
        simp only [List.length_take, List.length_drop]
        omega
      have hrec : ¬ outputsLocatedAt s i →
          (∃ j, findOutputsStart s fuel (i + 2) = .ok (some (j + 8)) ∧ i ≤ j ∧
            outputsLocatedAt s j ∧ ∀ k, i ≤ k → k < j → ¬ outputsLocatedAt s k) ∨
          (findOutputsStart s fuel (i + 2) = .ok none ∧
            ∀ k, i ≤ k → ¬ outputsLocatedAt s k) := by
        intro hnot
        have hcase : ∀ k, i ≤ k → k < i + 2 → ¬ outputsLocatedAt s k := by
          intro k hk1 hk2 hloc
          rcases Nat.eq_or_lt_of_le hk1 with hk | hk
          · rw [← hk] at hloc
            exact hnot hloc
          · have := hloc.1
            omega
        rcases ih (i + 2) (by omega) (by omega) with ⟨j, hj, hij, hloc, hfirst⟩ | ⟨hn, hall⟩
        · left
          refine ⟨j, hj, by omega, hloc, fun k hk1 hk2 => ?_⟩
          rcases Nat.lt_or_ge k (i + 2) with hk | hk
          · exact hcase k hk1 hk
          · exact hfirst k hk hk2
        · right
          refine ⟨hn, fun k hk1 => ?_⟩
          rcases Nat.lt_or_ge k (i + 2) with hk | hk
          · exact hcase k hk1 hk
          · exact hall k hk
      simp only [g, if_true, h1, h2]
      by_cases hw : (s.drop i).take 8 = "ffffffff".toList
      · by_cases hr : (parseUint ((s.drop (i + 8)).take 2) 16 8).1 ≥ 1 ∧
            (parseUint ((s.drop (i + 8)).take 2) 16 8).1 ≤ 10
        · left
          refine ⟨i, ?_, Nat.le_refl _, ⟨hi, g, hw, (count_in_range_iff _ hlen2).1 hr⟩,
            fun k hk1 hk2 => by omega⟩
          simp only [hw, if_true, hr, and_self]
        · simp only [hw, if_true, hr, if_false]
          apply hrec
          intro hloc
          exact hr ((count_in_range_iff _ hlen2).2 hloc.2.2.2)
      · simp only [hw, if_false]
        apply hrec
        intro hloc
        exact hw hloc.2.2.1
    · right
      simp only [g, if_false]
      refine ⟨trivial, fun k hk hloc => ?_⟩
      have := hloc.2.1
      omega

/-- The output loop returns outputs or panics; it never returns an error. -/
theorem walkOutputs_ne_fail (enc : AddressEncoder) (s : GoString) :
    ∀ (n off : Nat) (acc : List CoinbaseOutput) (e : GoError),
    walkOutputs enc s n off acc ≠ .fail e := by
  intro n
  induction n with
  | zero =>
    intro off acc e h
    simp [walkOutputs] at h
  | succ n ih =>
    intro off acc e h
    unfold walkOutputs at h
    simp only at h
    repeat' split at h
    all_goals first
      | exact Outcome.noConfusion h
      | exact ih _ _ _ h

/-- When at least 20 characters are given, `extractCoinbaseOutputs` returns an
`errors.New` error only if the scan found nothing and `ffffffff` does not start
the text. -/
theorem extractCoinbaseOutputs_errorsNew (enc : AddressEncoder) (part1 part2 : GoString)
    (msg : String) (hlen : 20 ≤ part2.length)
    (h : extractCoinbaseOutputs enc part1 part2 = .fail (.errorsNew msg)) :
    findOutputsStart part2 part2.length 0 = .ok none ∧
      startsWith part2 "ffffffff".toList = false := by
  unfold extractCoinbaseOutputs at h
  have g : ¬ part2.length < 20 := by omega
  simp only [g, if_false] at h
  rcases findOutputsStart_spec part2 part2.length 0 (by omega) rfl with
    ⟨j, hj, _, _, _⟩ | ⟨hn, _⟩
  · exfalso
    rw [hj] at h
    simp only at h
    repeat' split at h
    all_goals first
      | exact Outcome.noConfusion h
      | exact walkOutputs_ne_fail _ _ _ _ _ _ h
      | (injection h with h'; exact GoError.noConfusion h')
  · refine ⟨hn, ?_⟩
    rw [hn] at h
    simp only at h
    by_cases hp : startsWith part2 "ffffffff".toList = true
    · exfalso
      simp only [hp, if_true] at h
      repeat' split at h
      all_goals first
        | exact Outcome.noConfusion h
        | exact walkOutputs_ne_fail _ _ _ _ _ _ h
        | (injection h with h'; exact GoError.noConfusion h')
    · simpa using hp

theorem leValue_lt (bs : List Nat) (h : ∀ b ∈ bs, b < 256) : leValue bs < 256 ^ bs.length := by
  induction bs with
  | nil => simp [leValue]
  | cons b rest ih =>
    have hb : b < 256 := h b (by simp)
    have := ih (fun x hx => h x (by simp [hx]))
    simp only [leValue, List.length_cons, pow_succ]
    omega

/-- The height loop computes the little-endian value of the bytes, modulo
`2 ^ 64`. -/
theorem heightFromLE_eq (bs : List Nat) (h : ∀ b ∈ bs, b < 256) :
    heightFromLE bs = leValue bs % 2 ^ 64 := by
  induction bs with
  | nil => rfl
  | cons b rest ih =>
    have hb : b < 2 ^ 8 := by
      have := h b (by simp)
      omega
    have ih' := ih (fun x hx => h x (by simp [hx]))
    unfold heightFromLE at ih' ⊢
    simp only [List.foldr_cons, ih', leValue]
    have e : (leValue rest % 2 ^ 64) <<< 8 % 2 ^ 64 = 2 ^ 8 * (leValue rest % 2 ^ 56) := by
      rw [Nat.shiftLeft_eq]
      omega
    rw [e, ← Nat.mul_add_lt_is_or hb]
    omega

theorem hexDecodeString_ok : ∀ (n : Nat) (s : GoString), s.length ≤ n → ∀ bs,
    hexDecodeString s = (bs, false) →
    (∀ c ∈ s, isHexDigit c = true) ∧ s.length = 2 * bs.length ∧ (∀ b ∈ bs, b < 256) := by
  intro n
  induction n with
  | zero =>
    intro s hl bs h
    have : s = [] := List.eq_nil_of_length_eq_zero (by omega)
    subst this
    simp only [hexDecodeString, Prod.mk.injEq] at h
    rw [← h.1]
    simp
  | succ n ih =>
    intro s hl bs h
    match s, hl, h with
    | [], _, h =>
      simp only [hexDecodeString, Prod.mk.injEq] at h
      rw [← h.1]
      simp
    | [_], _, h => simp [hexDecodeString] at h
    | p :: q :: rest, hl, h =>
      simp only [hexDecodeString] at h
      cases ha : fromHexChar p with
      | none => simp [ha] at h
      | some a =>
        cases hb : fromHexChar q with
        | none => simp [ha, hb] at h
        | some b =>
          simp only [ha, hb, Prod.mk.injEq] at h
          obtain ⟨h1, h2⟩ := h
          have hp := isHexDigit_of_fromHexChar p a ha
          have hq := isHexDigit_of_fromHexChar q b hb
          obtain ⟨a', ha', ha16, _⟩ := fromHexChar_of_isHexDigit p hp
          obtain ⟨b', hb', hb16, _⟩ := fromHexChar_of_isHexDigit q hq
          rw [ha] at ha'
          rw [hb] at hb'
          cases ha'
          cases hb'
          obtain ⟨r1, r2, r3⟩ := ih rest (by simp at hl; omega) (hexDecodeString rest).1
            (by rw [← h2])
          rw [← h1]
          refine ⟨?_, ?_, ?_⟩
          · intro c hc
            simp only [List.mem_cons] at hc
            rcases hc with hc | hc | hc
            · rw [hc]; exact hp
            · rw [hc]; exact hq
            · exact r1 c hc
          · simp only [List.length_cons, r2]
            omega
          · intro x hx
            simp only [List.mem_cons] at hx
            rcases hx with hx | hx
            · omega
            · exact r3 x hx

theorem parseUint_of_hexByteValue (t : GoString) (ht : t.length = 2) (bits : Nat)
    (hbits : bits = 8 ∨ bits = 32) :
    (∀ v, hexByteValue t = some v → parseUint t 16 bits = (v, none) ∧ v < 256) ∧
    (hexByteValue t = none → parseUint t 16 bits = (0, some .invalidSyntax)) := by
  match t, ht with
  | [p, q], _ =>
    rcases hexByteValue_eq p q with ⟨hp, hq, hv⟩ | ⟨hn, hv⟩
    · have := parseUint_two_hex p q hp hq bits hbits
      rw [hv]
      refine ⟨fun v h => ?_, fun h => by cases h⟩
      cases h
      exact this
    · rw [hv]
      refine ⟨fun v h => ?_, fun _ => parseUint_two_nonhex p q bits hbits hn⟩
      cases h

theorem hexByteValue_length (t : GoString) (v : Nat) (h : hexByteValue t = some v) :
    t.length = 2 := by
  match t, h with
  | [_, _], _ => rfl

theorem slice_take_drop (s : GoString) (k m : Nat) (h : k + m ≤ s.length) :
    slice s k (k + m) = some ((s.drop k).take m) := by
  rw [slice_eq_some _ _ _ (by omega) h]
  congr 2
  omega

/-- The opcode `switch` does not panic, and height bytes it reads are `n ≥ 1` bytes within the scriptSig, placed as the
opcode says. -/
theorem heightBytesOf_spec (sig : GoString) (p : Nat) :
    ∃ hb, heightBytesOf sig p = some hb ∧ (hb ≠ [] → ∃ k n,
      ((1 ≤ p ∧ p ≤ 75 ∧ k = 2 ∧ n = p) ∨
       (p = 0x4c ∧ k = 4 ∧ hexByteValue ((sig.drop 2).take 2) = some n) ∨
       (p = 0x4d ∧ k = 6)) ∧
      1 ≤ n ∧ k + 2 * n ≤ sig.length ∧ hb = (sig.drop k).take (2 * n)) := by
  unfold heightBytesOf
  by_cases c1 : p ≥ 1 ∧ p ≤ 75
  · rw [if_pos c1]
    by_cases g : sig.length ≥ 2 + p * 2
    · simp only
      rw [if_pos g, slice_take_drop sig 2 (p * 2) (by omega)]
      refine ⟨_, rfl, fun _ => ⟨2, p, Or.inl ⟨c1.1, c1.2, rfl, rfl⟩, c1.1, by omega, ?_⟩⟩
      rw [Nat.mul_comm]
    · simp only
      rw [if_neg g]
      exact ⟨[], rfl, fun h => absurd rfl h⟩
  · rw [if_neg c1]
    by_cases c2 : p = 0x4c
    · rw [if_pos c2]
      by_cases g : sig.length ≥ 6
      · rw [if_pos g]
        have hs : slice sig 2 4 = some ((sig.drop 2).take 2) := slice_take_drop sig 2 2 (by omega)
        have hlen : ((sig.drop 2).take 2).length = 2 := by
          simp only [List.length_take, List.length_drop]
          omega
        obtain ⟨hsome, hnone⟩ := parseUint_of_hexByteValue _ hlen 32 (Or.inr rfl)
        simp only [hs]
        cases hv : hexByteValue ((sig.drop 2).take 2) with
        | none =>
          rw [hnone hv]
          simp only [Nat.zero_mul, Nat.add_zero]
          rw [if_pos (by omega), slice_eq_some _ _ _ (Nat.le_refl _) (by omega)]
          refine ⟨_, rfl, fun h => ?_⟩
          simp at h
        | some n =>
          rw [(hsome n hv).1]
          simp only
          by_cases g2 : sig.length ≥ 4 + n * 2
          · rw [if_pos g2, slice_take_drop sig 4 (n * 2) (by omega)]
            refine ⟨_, rfl, fun hne => ⟨4, n, Or.inr (Or.inl ⟨c2, rfl, rfl⟩), ?_, by omega, ?_⟩⟩
            · rcases Nat.eq_zero_or_pos n with h0 | h0
              · subst h0
                simp at hne
              · exact h0
            · rw [Nat.mul_comm]
          · rw [if_neg g2]
            exact ⟨[], rfl, fun h => absurd rfl h⟩
      · rw [if_neg g]
        exact ⟨[], rfl, fun h => absurd rfl h⟩
    · rw [if_neg c2]
      by_cases c3 : p = 0x4d
      · rw [if_pos c3]
        by_cases g : sig.length ≥ 8
        · rw [if_pos g]
          have hs : slice sig 2 6 = some ((sig.drop 2).take 4) := slice_take_drop sig 2 4 (by omega)
          simp only [hs]
          generalize (parseUint ((sig.drop 2).take 4) 16 32).1 = n
          by_cases g2 : sig.length ≥ 6 + n * 2
          · rw [if_pos g2, slice_take_drop sig 6 (n * 2) (by omega)]
            refine ⟨_, rfl, fun hne => ⟨6, n, Or.inr (Or.inr ⟨c3, rfl⟩), ?_, by omega, ?_⟩⟩
            · rcases Nat.eq_zero_or_pos n with h0 | h0
              · subst h0
                simp at hne
              · exact h0
            · rw [Nat.mul_comm]
          · rw [if_neg g2]
            exact ⟨[], rfl, fun h => absurd rfl h⟩
        · rw [if_neg g]
          exact ⟨[], rfl, fun h => absurd rfl h⟩
      · rw [if_neg c3]
        exact ⟨[], rfl, fun h => absurd rfl h⟩

/-- Reading the height push never panics, and a non-zero height comes from a
push that can be read. -/
theorem readHeightPush_total (sig : GoString) :
    ∃ height, readHeightPush sig = some height ∧ (height ≠ 0 → heightPushRead sig) := by
  unfold readHeightPush
  by_cases h4 : sig.length < 4
  · rw [if_pos h4]
    exact ⟨0, rfl, fun h => absurd rfl h⟩
  · rw [if_neg h4]
    have hs : slice sig 0 2 = some (sig.take 2) := by
      have := slice_take_drop sig 0 2 (by omega)
      simpa using this
    have hlen : (sig.take 2).length = 2 := by
      simp only [List.length_take]
      omega
    obtain ⟨hsome, hnone⟩ := parseUint_of_hexByteValue _ hlen 8 (Or.inl rfl)
    simp only [hs]
    obtain ⟨hb, hhb, hspec⟩ := heightBytesOf_spec sig (parseUint (sig.take 2) 16 8).1
    rw [hhb]
    simp only
    by_cases e : hb = []
    · rw [if_pos e]
      exact ⟨0, rfl, fun h => absurd rfl h⟩
    · rw [if_neg e]
      cases hd : (hexDecodeString hb).2 with
      | true =>
        simp only [if_true]
        exact ⟨0, rfl, fun h => absurd rfl h⟩
      | false =>
        simp only [Bool.false_eq_true, if_false]
        refine ⟨_, rfl, fun _ => ?_⟩
        obtain ⟨k, n, hcase, hn, hle, hbeq⟩ := hspec e
        have hok := (hexDecodeString_ok hb.length hb (Nat.le_refl _) (hexDecodeString hb).1
          (by rw [← hd])).1
        cases hv : hexByteValue (sig.take 2) with
        | none =>
          rw [hnone hv] at hcase
          simp at hcase
        | some p =>
          rw [(hsome p hv).1] at hcase
          exact ⟨by omega, p, hv, k, n, hcase, hn, hle, by rw [← hbeq]; exact hok⟩

theorem assembleScriptSig_total (part1 part2 : GoString) (L : Nat) (h : 84 ≤ part1.length) :
    ∃ sig, assembleScriptSig part1 part2 L = some sig := by
  unfold assembleScriptSig
  simp only [sliceFrom, sliceTo]
  rw [if_pos (by omega)]
  simp only
  split_ifs <;> exact ⟨_, rfl⟩

/-- Past the length checks and a non-zero script length byte,
`extractHeightFromCoinbase` assembles the scriptSig and reads the height push. -/
theorem extractHeightFromCoinbase_run (part1 part2 : GoString) (h90 : 90 ≤ part1.length)
    (L : Nat) (hL : hexByteValue ((part1.drop 82).take 2) = some L) (hL0 : L ≠ 0) :
    extractHeightFromCoinbase part1 part2 =
      match assembleScriptSig part1 part2 L with
      | none => none
      | some sig =>
        match readHeightPush sig with
        | none => none
        | some height => some (height, sig) := by
  have hs : slice part1 82 (82 + 2) = some ((part1.drop 82).take 2) :=
    slice_take_drop part1 82 2 (by omega)
  have hp := ((parseUint_of_hexByteValue _ (hexByteValue_length _ _ hL) 32 (Or.inr rfl)).1 L hL).1
  unfold extractHeightFromCoinbase
  rw [if_neg (by omega)]
  simp only
  rw [if_neg (by omega), hs]
  simp only [hp, ne_eq, not_true_eq_false, hL0, or_self, if_false]

/-- A direct push of `p` bytes of hexadecimal digits at the start of the
scriptSig is read as their little-endian value modulo `2 ^ 64`. -/
theorem readHeightPush_direct (opc data rest : GoString) (p : Nat) (hp : 1 ≤ p ∧ p ≤ 75)
    (hopc : hexByteValue opc = some p) (hdata : data.length = 2 * p)
    (hhex : ∀ c ∈ data, isHexDigit c = true) :
    readHeightPush (opc ++ data ++ rest) = some (leValue (hexDecodeString data).1 % 2 ^ 64) := by
  have ho := hexByteValue_length _ _ hopc
  have hpu := ((parseUint_of_hexByteValue _ ho 8 (Or.inl rfl)).1 p hopc).1
  have h1 : slice (opc ++ data ++ rest) 0 2 = some opc :=
    slice_at _ [] opc (data ++ rest) (by simp) _ _ rfl (by rw [ho])
  have h2 : slice (opc ++ data ++ rest) 2 (2 + p * 2) = some data :=
    slice_at _ opc data rest rfl _ _ ho.symm (by rw [hdata]; omega)
  obtain ⟨bs, hbs, _, hlt, _⟩ := hexDecodeString_of_hex p data hdata hhex
  have hne : data ≠ [] := by
    intro h
    rw [h] at hdata
    simp at hdata
    omega
  have hlen : (opc ++ data ++ rest).length = 2 + 2 * p + rest.length := by
    simp [ho, hdata]
    omega
  unfold readHeightPush
  rw [if_neg (by omega), h1]
  simp only [hpu]
  unfold heightBytesOf
  rw [if_pos hp]
  simp only
  rw [if_pos (by omega), h2]
  simp only [hne, if_false, hbs, Bool.false_eq_true, heightFromLE_eq bs hlt]

/-- Without the 90 characters, or without a non-zero hexadecimal length byte at
offset 82, `extractHeightFromCoinbase` returns height 0 and the empty scriptSig. -/
theorem extractHeightFromCoinbase_early_return (part1 part2 : GoString) :
    (part1.length < 90 → extractHeightFromCoinbase part1 part2 = some (0, [])) ∧
    (90 ≤ part1.length →
      hexByteValue ((part1.drop 82).take 2) = none ∨
        hexByteValue ((part1.drop 82).take 2) = some 0 →
      extractHeightFromCoinbase part1 part2 = some (0, [])) := by
  constructor
  · intro h
    unfold extractHeightFromCoinbase
    rw [if_pos h]
  · intro h90 hv
    have hs : slice part1 82 (82 + 2) = some ((part1.drop 82).take 2) :=
      slice_take_drop part1 82 2 (by omega)
    have hlen : ((part1.drop 82).take 2).length = 2 := by
      simp only [List.length_take, List.length_drop]
      omega
    obtain ⟨hsome, hnone⟩ := parseUint_of_hexByteValue _ hlen 32 (Or.inr rfl)
    unfold extractHeightFromCoinbase
    rw [if_neg (by omega)]
    simp only
    rw [if_neg (by omega), hs]
    rcases hv with hv | hv
    · simp [hnone hv]
    · simp [(hsome 0 hv).1]

/-- Height extraction never panics: for every pair of strings
`extractHeightFromCoinbase` returns a height and a scriptSig, and the height is 0
unless the scriptSig starts with a push opcode in `1..75`, `0x4c` or `0x4d` with
push data present and hexadecimal.  For `0x4d` the statement does not depend on
how the two length bytes are read: a non-zero height has at least one data byte
after them. -/
theorem extractHeightFromCoinbase_total (part1 part2 : GoString) :
    ∃ height sig, extractHeightFromCoinbase part1 part2 = some (height, sig) ∧
      (height ≠ 0 → heightPushRead sig) := by
  by_cases h90 : part1.length < 90
  · exact ⟨0, [], (extractHeightFromCoinbase_early_return part1 part2).1 h90,
      fun h => absurd rfl h⟩
  · cases hv : hexByteValue ((part1.drop 82).take 2) with
    | none =>
      exact ⟨0, [], (extractHeightFromCoinbase_early_return part1 part2).2 (by omega) (Or.inl hv),
        fun h => absurd rfl h⟩
    | some L =>
      by_cases hL0 : L = 0
      · subst hL0
        exact ⟨0, [],
          (extractHeightFromCoinbase_early_return part1 part2).2 (by omega) (Or.inr hv),
          fun h => absurd rfl h⟩
      · obtain ⟨sig, hsig⟩ := assembleScriptSig_total part1 part2 L (by omega)
        obtain ⟨height, hh, hread⟩ := readHeightPush_total sig
        refine ⟨height, sig, ?_, hread⟩
        rw [extractHeightFromCoinbase_run part1 part2 (by omega) L hv hL0, hsig]
        simp only [hh]

/-- On a `params` array of at least nine elements `Parse` checks the types of the
eight required positions in order and builds the result from their values; the
element at position 4 and those after position 8 are not looked at. -/
theorem parseObject_nine (enc : AddressEncoder) (raw : JsonObject)
    (p0 p1 p2 p3 p4 p5 p6 p7 p8 : JsonValue) (rest : List JsonValue)
    (h : raw "params".toList = some (.array (p0 :: p1 :: p2 :: p3 :: p4 :: p5 :: p6 :: p7 :: p8
      :: rest))) :
    parseObject enc raw =
      if isString p0 = false then .fail (.errorsNew (wrongTypeMessage 0))
      else if isString p1 = false then .fail (.errorsNew (wrongTypeMessage 1))
      else if isString p2 = false then .fail (.errorsNew (wrongTypeMessage 2))
      else if isString p3 = false then .fail (.errorsNew (wrongTypeMessage 3))
      else if isString p5 = false then .fail (.errorsNew (wrongTypeMessage 5))
      else if isString p6 = false then .fail (.errorsNew (wrongTypeMessage 6))
      else if isString p7 = false then .fail (.errorsNew (wrongTypeMessage 7))
      else if isBool p8 = false then .fail (.errorsNew (wrongTypeMessage 8))
      else buildNotify enc (stringOf p0) (stringOf p1) (stringOf p2) (stringOf p3)
        (stringOf p5) (stringOf p6) (stringOf p7) (boolOf p8) := by
  have hl : ¬ (p0 :: p1 :: p2 :: p3 :: p4 :: p5 :: p6 :: p7 :: p8 :: rest).length < 9 := by
    simp only [List.length_cons]
    omega
  unfold parseObject
  rw [h]
  simp only
  rw [if_neg hl]
  cases p0 <;> simp only [paramString, Outcome.bind, isString, wrongTypeMessage, stringOf,
    List.getElem?_cons_zero, List.getElem?_cons_succ, if_true, if_false, Bool.true_eq_false,
    Bool.false_eq_true] <;> try rfl
  cases p1 <;> simp only [paramString, Outcome.bind, isString, wrongTypeMessage, stringOf,
    List.getElem?_cons_zero, List.getElem?_cons_succ, if_true, if_false, Bool.true_eq_false,
    Bool.false_eq_true] <;> try rfl
  cases p2 <;> simp only [paramString, Outcome.bind, isString, wrongTypeMessage, stringOf,
    List.getElem?_cons_zero, List.getElem?_cons_succ, if_true, if_false, Bool.true_eq_false,
    Bool.false_eq_true] <;> try rfl
  cases p3 <;> simp only [paramString, Outcome.bind, isString, wrongTypeMessage, stringOf,
    List.getElem?_cons_zero, List.getElem?_cons_succ, if_true, if_false, Bool.true_eq_false,
    Bool.false_eq_true] <;> try rfl
  cases p5 <;> simp only [paramString, Outcome.bind, isString, wrongTypeMessage, stringOf,
    List.getElem?_cons_zero, List.getElem?_cons_succ, if_true, if_false, Bool.true_eq_false,
    Bool.false_eq_true] <;> try rfl
  cases p6 <;> simp only [paramString, Outcome.bind, isString, wrongTypeMessage, stringOf,
    List.getElem?_cons_zero, List.getElem?_cons_succ, if_true, if_false, Bool.true_eq_false,
    Bool.false_eq_true] <;> try rfl
  cases p7 <;> simp only [paramString, Outcome.bind, isString, wrongTypeMessage, stringOf,
    List.getElem?_cons_zero, List.getElem?_cons_succ, if_true, if_false, Bool.true_eq_false,
    Bool.false_eq_true] <;> try rfl
  cases p8 <;> simp only [paramBool, Outcome.bind, isBool, wrongTypeMessage, boolOf,
    List.getElem?_cons_zero, List.getElem?_cons_succ, if_true, if_false, Bool.true_eq_false,
    Bool.false_eq_true] <;> try rfl

theorem nine_of_length (ps : List JsonValue) (h : 9 ≤ ps.length) :
    ∃ p0 p1 p2 p3 p4 p5 p6 p7 p8 rest,
      ps = p0 :: p1 :: p2 :: p3 :: p4 :: p5 :: p6 :: p7 :: p8 :: rest := by
  match ps, h with
  | p0 :: p1 :: p2 :: p3 :: p4 :: p5 :: p6 :: p7 :: p8 :: rest, _ =>
    exact ⟨p0, p1, p2, p3, p4, p5, p6, p7, p8, rest, rfl⟩

theorem Parse_of_unmarshal (unmarshal : Unmarshal) (enc : AddressEncoder) (input : GoString)
    (raw : JsonObject) (h : unmarshal (trimSpace input) = .ok raw) :
    Parse unmarshal enc input = parseObject enc raw := by
  unfold Parse
  simp only [h]

/-- `Parse` uses the `ntime` string only for the fields `NTime` and `NTimeParsed`:
whether it returns an error or panics does not depend on it. -/
theorem buildNotify_ntime (enc : AddressEncoder) (jobID prevhashLe part1 part2 version nbits
    ntime ntime' : GoString) (cleanJobs : Bool) :
    buildNotify enc jobID prevhashLe part1 part2 version nbits ntime' cleanJobs =
      (buildNotify enc jobID prevhashLe part1 part2 version nbits ntime cleanJobs).map
        (withNTime ntime') := by
  unfold buildNotify
  cases reverseHashHex prevhashLe with
  | none => rfl
  | some prevHash =>
    cases extractHeightFromCoinbase part1 part2 with
    | none => rfl
    | some hs =>
      cases extractCoinbaseOutputs enc part1 part2 with
      | ok outs => rfl
      | fail e => rfl
      | panic => rfl

theorem buildNotify_NTimeParsed (enc : AddressEncoder) (jobID prevhashLe part1 part2 version
    nbits ntime : GoString) (cleanJobs : Bool) (r : ParsedNotify)
    (h : buildNotify enc jobID prevhashLe part1 part2 version nbits ntime cleanJobs = .ok r) :
    r.NTime = ntime ∧ r.NTimeParsed = parseNTime ntime ∧
      reverseHashHex prevhashLe = some r.PrevHash := by
  unfold buildNotify at h
  cases hrev : reverseHashHex prevhashLe with
  | none => rw [hrev] at h; cases h
  | some prevHash =>
    rw [hrev] at h
    cases hh : extractHeightFromCoinbase part1 part2 with
    | none => rw [hh] at h; cases h
    | some hs =>
      rw [hh] at h
      cases ho : extractCoinbaseOutputs enc part1 part2 with
      | ok outs =>
        rw [ho] at h
        simp only [Outcome.ok.injEq] at h
        subst h
        exact ⟨rfl, rfl, rfl⟩
      | fail e => rw [ho] at h; cases h
      | panic => rw [ho] at h; cases h

theorem parseObject_set_ntime (enc : AddressEncoder) (raw raw' : JsonObject)
    (params : List JsonValue) (ntime ntime' : GoString)
    (hp : raw "params".toList = some (.array params))
    (hp' : raw' "params".toList = some (.array (params.set 7 (.string ntime'))))
    (h7 : params[7]? = some (.string ntime)) :
    parseObject enc raw' = (parseObject enc raw).map (withNTime ntime') := by
  rcases Nat.lt_or_ge params.length 9 with hl | hl
  · unfold parseObject
    rw [hp, hp']
    simp only [List.length_set]
    rw [if_pos hl, if_pos hl]
    rfl
  · obtain ⟨p0, p1, p2, p3, p4, p5, p6, p7, p8, rest, rfl⟩ := nine_of_length params hl
    simp only [List.getElem?_cons_zero, List.getElem?_cons_succ, Option.some.injEq] at h7
    subst h7
    rw [parseObject_nine enc raw _ _ _ _ _ _ _ _ _ rest hp,
      parseObject_nine enc raw' p0 p1 p2 p3 p4 p5 p6 (.string ntime') p8 rest hp']
    simp only [isString, stringOf, Bool.true_eq_false, if_false]
    split_ifs <;> first | rfl | exact buildNotify_ntime _ _ _ _ _ _ _ _ _ _

theorem parseObject_fields (enc : AddressEncoder) (raw : JsonObject) (params : List JsonValue)
    (hp : raw "params".toList = some (.array params)) (r : ParsedNotify)
    (h : parseObject enc raw = .ok r) :
    params[7]? = some (.string r.NTime) ∧ r.NTimeParsed = parseNTime r.NTime ∧
      ∃ prevhashLe, params[1]? = some (.string prevhashLe) ∧
        reverseHashHex prevhashLe = some r.PrevHash := by
  rcases Nat.lt_or_ge params.length 9 with hl | hl
  · unfold parseObject at h
    rw [hp] at h
    simp only at h
    rw [if_pos hl] at h
    cases h
  · obtain ⟨p0, p1, p2, p3, p4, p5, p6, p7, p8, rest, rfl⟩ := nine_of_length params hl
    rw [parseObject_nine enc raw _ _ _ _ _ _ _ _ _ rest hp] at h
    split_ifs at h with c0 c1 c2 c3 c5 c6 c7 c8
    obtain ⟨hn, hnp, hrev⟩ := buildNotify_NTimeParsed _ _ _ _ _ _ _ _ _ r h
    cases p7 <;> simp [isString] at c7
    cases p1 <;> simp [isString] at c1
    simp only [stringOf] at hn hrev
    subst hn
    exact ⟨rfl, hnp, _, rfl, hrev⟩

set_option maxRecDepth 100000 in
/-- `Parse` on the test vector (with an address encoder that fails) gives what
`parse_test.go` expects. -/
theorem Parse_testVector :
    Parse (fun _ => .ok (notifyObject (.array testParams))) failingEncoder [] =
      .ok testParsed := by
  decide

theorem hex_take_drop (s : GoString) (h : ∀ c ∈ s, isHexDigit c = true) (k m : Nat) :
    ∀ c ∈ (s.drop k).take m, isHexDigit c = true :=
  fun c hc => h c (List.mem_of_mem_drop (List.mem_of_mem_take hc))

theorem length_take_drop (s : GoString) (k m : Nat) (h : k + m ≤ s.length) :
    ((s.drop k).take m).length = m := by
  simp only [List.length_take, List.length_drop]
  omega

/-- On a text of hexadecimal digits the output loop does not panic, and returns
at most one output more per round. -/
theorem walkOutputs_hex (enc : AddressEncoder) (s : GoString)
    (hhex : ∀ c ∈ s, isHexDigit c = true) :
    ∀ (n off : Nat) (acc : List CoinbaseOutput),
    ∃ outs, walkOutputs enc s n off acc = .ok outs ∧ outs.length ≤ acc.length + n := by
  intro n
  induction n with
  | zero =>
    intro off acc
    exact ⟨acc, walkOutputs_zero enc s off acc, by omega⟩
  | succ n ih =>
    intro off acc
    unfold walkOutputs
    by_cases g1 : off + 16 + 2 > s.length
    · rw [if_pos g1]
      exact ⟨acc, rfl, by omega⟩
    · rw [if_neg g1]
      have h1 : slice s off (off + 16) = some ((s.drop off).take 16) :=
        slice_take_drop s off 16 (by omega)
      have h2 : slice s (off + 16) (off + 16 + 2) = some ((s.drop (off + 16)).take 2) :=
        slice_take_drop s (off + 16) 2 (by omega)
      obtain ⟨bs, hbs, hbl, _, _⟩ := hexDecodeString_of_hex 8 ((s.drop off).take 16)
        (by rw [length_take_drop s off 16 (by omega)]) (hex_take_drop s hhex off 16)
      obtain ⟨r, hr, hbe⟩ := bigEndianUint64_swap bs hbl
      have hl2 := length_take_drop s (off + 16) 2 (by omega)
      have hp : parseUint ((s.drop (off + 16)).take 2) 16 32 =
          (hexNat ((s.drop (off + 16)).take 2), none) := by
        have hx := hex_take_drop s hhex (off + 16) 2
        match (s.drop (off + 16)).take 2, hl2, hx with
        | [p, q], _, hx =>
          exact (parseUint_two_hex p q (hx p (by simp)) (hx q (by simp)) 32 (Or.inr rfl)).1
      simp only [h1, hbs, hr, hbe, h2, hp, ne_eq, not_true_eq_false, if_false]
      generalize hexNat ((s.drop (off + 16)).take 2) = L
      by_cases g2 : off + 16 + 2 + L * 2 > s.length
      · rw [if_pos g2]
        exact ⟨acc, rfl, by omega⟩
      · rw [if_neg g2]
        rw [slice_take_drop s (off + 16 + 2) (L * 2) (by omega)]
        obtain ⟨ta, hta⟩ := classifyScript_isSome enc L ((s.drop (off + 16 + 2)).take (L * 2))
          (by rw [length_take_drop s _ _ (by omega)]; omega)
        simp only [hta]
        obtain ⟨outs, ho, hlen⟩ := ih (off + 16 + 2 + L * 2)
          (acc ++ [{ ValueSatoshis := leValue bs, Typ := ta.1, Address := ta.2 }])
        refine ⟨outs, ho, ?_⟩
        simp only [List.length_append, List.length_singleton] at hlen
        omega

/-- When the scan finds nothing, no offset is located. -/
theorem not_located_of_find (s : GoString)
    (h : findOutputsStart s s.length 0 = .ok none) : ¬ ∃ i, outputsLocatedAt s i := by
  rintro ⟨i, hi⟩
  rcases findOutputsStart_spec s s.length 0 (by omega) rfl with ⟨j, hj, _, _, _⟩ | ⟨_, hall⟩
  · rw [h] at hj
    cases hj
  · exact hall i (Nat.zero_le _) hi

/-- On a text of at least 20 characters with a located offset,
`extractCoinbaseOutputs` starts the output loop right after the count byte at the
first located offset, with that count; no SegWit marker is skipped. -/
theorem extractCoinbaseOutputs_located (enc : AddressEncoder) (part1 s : GoString)
    (hlen : 20 ≤ s.length) (hloc : ∃ i, outputsLocatedAt s i) :
    ∃ j v, outputsLocatedAt s j ∧ (∀ k, k < j → ¬ outputsLocatedAt s k) ∧
      hexByteValue ((s.drop (j + 8)).take 2) = some v ∧ 1 ≤ v ∧ v ≤ 10 ∧
      extractCoinbaseOutputs enc part1 s = walkOutputs enc s v (j + 8 + 2) [] := by
  rcases findOutputsStart_spec s s.length 0 (by omega) rfl with
    ⟨j, hj, _, hlocj, hfirst⟩ | ⟨_, hall⟩
  · obtain ⟨_, hj10, _, v, hv, hv1, hv10⟩ := hlocj
    have hl2 := length_take_drop s (j + 8) 2 (by omega)
    have hp := ((parseUint_of_hexByteValue _ hl2 8 (Or.inl rfl)).1 v hv).1
    have h2 : slice s (j + 8) (j + 8 + 2) = some ((s.drop (j + 8)).take 2) :=
      slice_take_drop s (j + 8) 2 (by omega)
    have hne : (s.drop (j + 8)).take 2 ≠ "00".toList := by
      intro h
      rw [h] at hv
      have : hexByteValue "00".toList = some 0 := by decide
      rw [this] at hv
      cases hv
      omega
    refine ⟨j, v, ⟨by assumption, hj10, by assumption, v, hv, hv1, hv10⟩,
      fun k hk => hfirst k (Nat.zero_le _) hk, hv, hv1, hv10, ?_⟩
    unfold extractCoinbaseOutputs
    simp only
    rw [if_neg (by omega), hj]
    simp only
    by_cases g : j + 8 + 4 ≤ s.length
    · rw [if_pos g, h2]
      simp only [hne, if_false, h2, hp]
    · rw [if_neg g]
      simp only [h2, hp]
  · obtain ⟨i, hi⟩ := hloc
    exact absurd hi (hall i (Nat.zero_le _))

/-- When the scan finds nothing and the text of at least 20 characters begins with
`ffffffff`, the count is read at offset 12 after a SegWit marker `00` with flag
`00` or `01`, else at offset 8, and the output loop starts behind it. -/
theorem extractCoinbaseOutputs_fallback (enc : AddressEncoder) (part1 s : GoString)
    (hlen : 20 ≤ s.length) (hnone : ¬ ∃ i, outputsLocatedAt s i)
    (hpre : "ffffffff".toList <+: s) (off : Nat)
    (hoff : off = if (s.drop 8).take 2 = "00".toList ∧
      ((s.drop 10).take 2 = "00".toList ∨ (s.drop 10).take 2 = "01".toList) then 12 else 8) :
    extractCoinbaseOutputs enc part1 s =
      match parseUint ((s.drop off).take 2) 16 8 with
      | (_, some kind) => .fail (.numError ((s.drop off).take 2) kind)
      | (outputCount, none) => walkOutputs enc s outputCount (off + 2) [] := by
  have hf : findOutputsStart s s.length 0 = .ok none := by
    rcases findOutputsStart_spec s s.length 0 (by omega) rfl with
      ⟨j, _, _, hloc, _⟩ | ⟨hn, _⟩
    · exact absurd ⟨j, hloc⟩ hnone
    · exact hn
  have hsw : startsWith s "ffffffff".toList = true := (startsWith_iff _ _).2 hpre
  have h8 : slice s 8 (8 + 2) = some ((s.drop 8).take 2) := slice_take_drop s 8 2 (by omega)
  have h10 : slice s (8 + 2) (8 + 4) = some ((s.drop 10).take 2) :=
    slice_take_drop s 10 2 (by omega)
  have h12 : slice s (8 + 4) (8 + 4 + 2) = some ((s.drop 12).take 2) :=
    slice_take_drop s 12 2 (by omega)
  unfold extractCoinbaseOutputs
  simp only
  rw [if_neg (by omega), hf]
  simp only [hsw, if_true]
  rw [if_pos (by omega), h8]
  simp only
  by_cases hm : (s.drop 8).take 2 = "00".toList
  · rw [if_pos hm, h10]
    simp only
    by_cases hfl : (s.drop 10).take 2 = "00".toList ∨ (s.drop 10).take 2 = "01".toList
    · rw [if_pos hfl] at *
      rw [if_pos ⟨hm, hfl⟩] at hoff
      subst hoff
      simp only [h12]
    · rw [if_neg hfl]
      rw [if_neg (fun h => hfl h.2)] at hoff
      subst hoff
      simp only [h8]
  · rw [if_neg hm]
    rw [if_neg (fun h => hm h.1)] at hoff
    subst hoff
    simp only [h8]

/-- On a text of hexadecimal digits `extractCoinbaseOutputs` does not panic. -/
theorem extractCoinbaseOutputs_hex_no_panic (enc : AddressEncoder) (part1 s : GoString)
    (hhex : ∀ c ∈ s, isHexDigit c = true) : extractCoinbaseOutputs enc part1 s ≠ .panic := by
  rcases Nat.lt_or_ge s.length 20 with hl | hl
  · unfold extractCoinbaseOutputs
    simp only
    rw [if_pos hl]
    exact fun h => Outcome.noConfusion h
  · by_cases hloc : ∃ i, outputsLocatedAt s i
    · obtain ⟨j, v, _, _, _, _, _, he⟩ := extractCoinbaseOutputs_located enc part1 s hl hloc
      obtain ⟨outs, ho, _⟩ := walkOutputs_hex enc s hhex v (j + 8 + 2) []
      rw [he, ho]
      exact fun h => Outcome.noConfusion h
    · by_cases hpre : "ffffffff".toList <+: s
      · rw [extractCoinbaseOutputs_fallback enc part1 s hl hloc hpre _ rfl]
        split
        · exact fun h => Outcome.noConfusion h
        · next c _ =>
          obtain ⟨outs, ho, _⟩ := walkOutputs_hex enc s hhex c
            ((if (s.drop 8).take 2 = "00".toList ∧
              ((s.drop 10).take 2 = "00".toList ∨ (s.drop 10).take 2 = "01".toList)
              then 12 else 8) + 2) []
          rw [ho]
          exact fun h => Outcome.noConfusion h
      · have hp : ¬ startsWith s "ffffffff".toList = true := fun hp =>
          hpre ((startsWith_iff _ _).1 hp)
        have hf : findOutputsStart s s.length 0 = .ok none := by
          rcases findOutputsStart_spec s s.length 0 (by omega) rfl with
            ⟨j, _, _, hl', _⟩ | ⟨hn, _⟩
          · exact absurd ⟨j, hl'⟩ hloc
          · exact hn
        unfold extractCoinbaseOutputs
        simp only
        rw [if_neg (by omega), hf]
        simp only [hp]
        exact fun h => Outcome.noConfusion h

theorem framed_iff (o : SerializedOutput) : o.framed = true ↔
    (o.value.length = 16 ∧ (∀ c ∈ o.value, isHexDigit c = true) ∧
     o.scriptLen.length = 2 ∧ (∀ c ∈ o.scriptLen, isHexDigit c = true) ∧
     o.script.length = 2 * hexNat o.scriptLen) := by
  simp only [SerializedOutput.framed, Bool.and_eq_true, decide_eq_true_eq, List.all_eq_true]
  tauto

/-- `hex.DecodeString` gives at most one byte per two characters, and as many
only without an error. -/
theorem hexDecodeString_full : ∀ (n : Nat) (s : GoString), s.length ≤ n →
    2 * (hexDecodeString s).1.length ≤ s.length ∧
    (2 * (hexDecodeString s).1.length = s.length → (hexDecodeString s).2 = false) := by
  intro n
  induction n with
  | zero =>
    intro s hl
    have : s = [] := List.eq_nil_of_length_eq_zero (by omega)
    subst this
    exact ⟨by simp [hexDecodeString], fun _ => rfl⟩
  | succ n ih =>
    intro s hl
    match s, hl with
    | [], _ => exact ⟨by simp [hexDecodeString], fun _ => rfl⟩
    | [_], _ =>
      refine ⟨by simp [hexDecodeString], fun h => ?_⟩
      simp [hexDecodeString] at h
    | p :: q :: rest, hl =>
      obtain ⟨i1, i2⟩ := ih rest (by simp at hl; omega)
      simp only [hexDecodeString]
      cases fromHexChar p with
      | none =>
        refine ⟨by simp, fun h => ?_⟩
        simp at h
      | some a =>
        cases fromHexChar q with
        | none =>
          refine ⟨by simp, fun h => ?_⟩
          simp at h
        | some b =>
          simp only [List.length_cons]
          refine ⟨by omega, fun h => i2 (by omega)⟩

theorem decodeOutput_templates_framed (enc : AddressEncoder) (o : SerializedOutput)
    (hfr : o.framed = true) : followsTemplates o.script (decodeOutput enc o) := by
  obtain ⟨_, _, _, _, hsc⟩ := (framed_iff o).1 hfr
  obtain ⟨ta, hta⟩ := classifyScript_isSome enc (hexNat o.scriptLen) o.script hsc
  have := classifyScript_templates enc _ _ hsc ta hta (leValue (hexDecodeString o.value).1)
  simpa [decodeOutput, hta] using this

theorem decodeOutput_keepsSentinel_framed (enc : AddressEncoder) (o : SerializedOutput)
    (hfr : o.framed = true) : keepsSentinel enc o (decodeOutput enc o) := by
  obtain ⟨_, _, _, _, hsc⟩ := (framed_iff o).1 hfr
  refine ⟨rfl, ?_, ?_, ?_, ?_⟩
  · intro p hs hp he
    have hL : hexNat o.scriptLen = 25 := by rw [hs] at hsc; simp [hp] at hsc; omega
    simp only [decodeOutput, hL, hs, classifyScript_p2pkh enc p hp, he, Option.getD_some,
      Option.getD_none]
    exact ⟨trivial, trivial⟩
  · intro p hs hp he
    have hL : hexNat o.scriptLen = 23 := by rw [hs] at hsc; simp [hp] at hsc; omega
    simp only [decodeOutput, hL, hs, classifyScript_p2sh enc p hp, he, Option.getD_some,
      Option.getD_none]
    exact ⟨trivial, trivial⟩
  · intro p hs hp he
    have hL : hexNat o.scriptLen = 22 := by rw [hs] at hsc; simp [hp] at hsc; omega
    simp only [decodeOutput, hL, hs, classifyScript_p2wpkh enc p, he, Option.getD_some,
      Option.getD_none]
    exact ⟨trivial, trivial⟩
  · intro p hs hp he
    have hL : hexNat o.scriptLen = 34 := by rw [hs] at hsc; simp [hp] at hsc; omega
    simp only [decodeOutput, hL, hs, classifyScript_p2wsh enc p, he, Option.getD_some,
      Option.getD_none]
    exact ⟨trivial, trivial⟩

theorem drop_split (s : GoString) (k m : Nat) :
    s.drop k = (s.drop k).take m ++ s.drop (k + m) := by
  rw [← List.drop_drop, List.take_append_drop]

/-- A text that begins with a framed serialized output begins with its value
and its script length, and is long enough for its script. -/
theorem framed_prefix (o : SerializedOutput) (hfr : o.framed = true) (t : GoString)
    (h : o.text <+: t) :
    t.take 16 = o.value ∧ (t.drop 16).take 2 = o.scriptLen ∧
      18 + 2 * hexNat o.scriptLen ≤ t.length := by
  obtain ⟨hv, _, hs, _, hsc⟩ := (framed_iff o).1 hfr
  obtain ⟨r, hr⟩ := h
  subst hr
  simp only [SerializedOutput.text, List.append_assoc]
  refine ⟨List.take_left' hv, ?_, ?_⟩
  · rw [List.drop_left' hv]
    exact List.take_left' hs
  · simp only [List.length_append]
    omega

/-- Whatever the text, the outputs the loop returns are the decodings, in order,
of serialized outputs that stand one after another in the text from the offset
where the loop starts; and the loop stops only when it has decoded as many as it
was asked for, or when no framed output stands next. -/
theorem walkOutputs_decoded (enc : AddressEncoder) (s : GoString) :
    ∀ (n off : Nat) (acc outs : List CoinbaseOutput),
    walkOutputs enc s n off acc = .ok outs →
    ∃ decoded : List SerializedOutput, outs = acc ++ decoded.map (decodeOutput enc) ∧
      decoded.length ≤ n ∧ (∀ o ∈ decoded, o.framed = true) ∧
      outputsText decoded <+: s.drop off ∧
      (decoded.length = n ∨ ¬ ∃ o : SerializedOutput, o.framed = true ∧
        o.text <+: s.drop (off + (outputsText decoded).length)) := by
  intro n
  induction n with
  | zero =>
    intro off acc outs h
    rw [walkOutputs_zero] at h
    cases h
    exact ⟨[], by simp, by simp, by simp, by simp [outputsText], Or.inl rfl⟩
  | succ n ih =>
    intro off acc outs h
    have done : ∀ {x : Outcome (List CoinbaseOutput)}, x = .ok acc → x = .ok outs →
        (¬ ∃ o : SerializedOutput, o.framed = true ∧ o.text <+: s.drop off) →
        ∃ decoded : List SerializedOutput, outs = acc ++ decoded.map (decodeOutput enc) ∧
          decoded.length ≤ n + 1 ∧ (∀ o ∈ decoded, o.framed = true) ∧
          outputsText decoded <+: s.drop off ∧
          (decoded.length = n + 1 ∨ ¬ ∃ o : SerializedOutput, o.framed = true ∧
            o.text <+: s.drop (off + (outputsText decoded).length)) := by
      intro x hx hx' hno
      rw [hx] at hx'
      cases hx'
      exact ⟨[], by simp, by simp, by simp, by simp [outputsText],
        Or.inr (by simpa [outputsText] using hno)⟩
    have hnext : ∀ o : SerializedOutput, o.framed = true → o.text <+: s.drop off →
        (s.drop (off + 16)).take 2 = o.scriptLen ∧
          off + 18 + 2 * hexNat o.scriptLen ≤ s.length := by
      intro o hfr hp
      obtain ⟨_, p2, p3⟩ := framed_prefix o hfr _ hp
      rw [List.length_drop] at p3
      refine ⟨?_, by omega⟩
      rw [← p2, List.drop_drop]
    unfold walkOutputs at h
    by_cases g1 : off + 16 + 2 > s.length
    · rw [if_pos g1] at h
      refine done rfl h ?_
      rintro ⟨o, hfr, hp⟩
      have := (hnext o hfr hp).2
      omega
    · rw [if_neg g1] at h
      have h1 : slice s off (off + 16) = some ((s.drop off).take 16) :=
        slice_take_drop s off 16 (by omega)
      have h2 : slice s (off + 16) (off + 16 + 2) = some ((s.drop (off + 16)).take 2) :=
        slice_take_drop s (off + 16) 2 (by omega)
      have hl16 := length_take_drop s off 16 (by omega)
      have hl2 := length_take_drop s (off + 16) 2 (by omega)
      simp only [h1, h2] at h
      by_cases hshort : (hexDecodeString ((s.drop off).take 16)).1.length < 8
      · rw [swapLoop_short _ hshort] at h
        cases h
      · obtain ⟨f1, f2⟩ := hexDecodeString_full 16 ((s.drop off).take 16) (by omega)
        have hbl : (hexDecodeString ((s.drop off).take 16)).1.length = 8 := by omega
        have hok : hexDecodeString ((s.drop off).take 16) =
            ((hexDecodeString ((s.drop off).take 16)).1, false) := by
          have := f2 (by omega)
          rw [← this]
        obtain ⟨hvhex, _, _⟩ := hexDecodeString_ok 16 _ (by omega) _ hok
        obtain ⟨r, hr, hbe⟩ := bigEndianUint64_swap _ hbl
        simp only [hr, hbe] at h
        by_cases hboth : ∀ c ∈ (s.drop (off + 16)).take 2, isHexDigit c = true
        · have hp : parseUint ((s.drop (off + 16)).take 2) 16 32 =
              (hexNat ((s.drop (off + 16)).take 2), none) := by
            match (s.drop (off + 16)).take 2, hl2, hboth with
            | [p, q], _, hx =>
              exact (parseUint_two_hex p q (hx p (by simp)) (hx q (by simp)) 32 (Or.inr rfl)).1
          simp only [hp, ne_eq, not_true_eq_false, if_false] at h
          by_cases g2 : off + 16 + 2 + hexNat ((s.drop (off + 16)).take 2) * 2 > s.length
          · rw [if_pos g2] at h
            refine done rfl h ?_
            rintro ⟨o, hfr, hp⟩
            obtain ⟨q1, q2⟩ := hnext o hfr hp
            rw [q1] at g2
            omega
          · rw [if_neg g2] at h
            rw [slice_take_drop s (off + 16 + 2) _ (by omega)] at h
            have hsl := length_take_drop s (off + 16 + 2)
              (hexNat ((s.drop (off + 16)).take 2) * 2) (by omega)
            obtain ⟨ta, hta⟩ := classifyScript_isSome enc (hexNat ((s.drop (off + 16)).take 2))
              ((s.drop (off + 16 + 2)).take (hexNat ((s.drop (off + 16)).take 2) * 2))
              (by rw [hsl]; omega)
            simp only [hta] at h
            obtain ⟨decoded, hd, hdl, hdf, hdp, hmax⟩ := ih _ _ _ h
            let o : SerializedOutput := ⟨(s.drop off).take 16, (s.drop (off + 16)).take 2,
              (s.drop (off + 16 + 2)).take (hexNat ((s.drop (off + 16)).take 2) * 2)⟩
            have hsc : o.script.length = 2 * hexNat o.scriptLen := by
              show ((s.drop (off + 16 + 2)).take
                (hexNat ((s.drop (off + 16)).take 2) * 2)).length =
                  2 * hexNat ((s.drop (off + 16)).take 2)
              rw [hsl]
              omega
            have hfr : o.framed = true := (framed_iff o).2 ⟨hl16, hvhex, hl2, hboth, hsc⟩
            have hdec : decodeOutput enc o =
                { ValueSatoshis := leValue (hexDecodeString ((s.drop off).take 16)).1,
                  Typ := ta.1, Address := ta.2 } := by
              simp only [decodeOutput, o, hta, Option.getD_some]
            have htl : off + (outputsText (o :: decoded)).length =
                off + 16 + 2 + hexNat ((s.drop (off + 16)).take 2) * 2 +
                  (outputsText decoded).length := by
              have : (outputsText (o :: decoded)).length =
                  ((s.drop off).take 16).length + ((s.drop (off + 16)).take 2).length +
                    ((s.drop (off + 16 + 2)).take
                      (hexNat ((s.drop (off + 16)).take 2) * 2)).length +
                    (outputsText decoded).length := by
                simp only [outputsText, List.map_cons, List.flatten_cons, List.length_append,
                  SerializedOutput.text, o]
              rw [this, hl16, hl2, hsl]
              omega
            refine ⟨o :: decoded, ?_, by simp; omega, ?_, ?_, ?_⟩
            · rw [hd, ← hdec]
              simp
            · intro x hx
              simp only [List.mem_cons] at hx
              rcases hx with hx | hx
              · rw [hx]; exact hfr
              · exact hdf x hx
            · have e : s.drop off = o.text ++
                  s.drop (off + 16 + 2 + hexNat ((s.drop (off + 16)).take 2) * 2) := by
                show s.drop off = (s.drop off).take 16 ++ (s.drop (off + 16)).take 2 ++
                  (s.drop (off + 16 + 2)).take (hexNat ((s.drop (off + 16)).take 2) * 2) ++ _
                rw [List.append_assoc, List.append_assoc, ← drop_split, ← drop_split,
                  ← drop_split]
              rw [e]
              simp only [outputsText, List.map_cons, List.flatten_cons]
              exact (List.prefix_append_right_inj _).2 hdp
            · rcases hmax with hmax | hmax
              · exact Or.inl (by simp only [List.length_cons]; omega)
              · exact Or.inr (by rw [htl]; exact hmax)
        · have hp : parseUint ((s.drop (off + 16)).take 2) 16 32 = (0, some .invalidSyntax) := by
            match (s.drop (off + 16)).take 2, hl2, hboth with
            | [p, q], _, hx =>
              apply parseUint_two_nonhex p q 32 (Or.inr rfl)
              intro hpq
              apply hx
              intro c hc
              simp only [List.mem_cons, List.mem_singleton, List.not_mem_nil, or_false] at hc
              rcases hc with hc | hc <;> rw [hc]
              · exact hpq.1
              · exact hpq.2
          simp only [hp, ne_eq, reduceCtorEq, not_false_eq_true, if_true] at h
          refine done rfl h ?_
          rintro ⟨o, hfr, hp'⟩
          obtain ⟨q1, _⟩ := hnext o hfr hp'
          obtain ⟨_, _, _, hsh, _⟩ := (framed_iff o).1 hfr
          rw [q1] at hboth
          exact hboth hsh

/-- When `extractCoinbaseOutputs` returns outputs, they are what the output loop
returns from the offset behind the count byte, run for as many rounds as the
count byte says. -/
theorem extractCoinbaseOutputs_ok_walk (enc : AddressEncoder) (part1 s : GoString)
    (outs : List CoinbaseOutput) (h : extractCoinbaseOutputs enc part1 s = .ok outs) :
    ∃ count start, outputsStartAt s start ∧
      hexByteValue ((s.drop (start - 2)).take 2) = some count ∧
      extractCoinbaseOutputs enc part1 s = walkOutputs enc s count start [] := by
  rcases Nat.lt_or_ge s.length 20 with hl | hl
  · exfalso
    unfold extractCoinbaseOutputs at h
    simp only at h
    rw [if_pos hl] at h
    cases h
  · by_cases hloc : ∃ i, outputsLocatedAt s i
    · obtain ⟨j, v, hj, hfirst, hv, _, _, he⟩ :=
        extractCoinbaseOutputs_located enc part1 s hl hloc
      refine ⟨v, j + 8 + 2, Or.inl ⟨j, hj, hfirst, rfl⟩, ?_, he⟩
      rw [Nat.add_sub_cancel]
      exact hv
    · by_cases hpre : "ffffffff".toList <+: s
      · obtain ⟨off, hoff⟩ : ∃ off, off = if (s.drop 8).take 2 = "00".toList ∧
            ((s.drop 10).take 2 = "00".toList ∨ (s.drop 10).take 2 = "01".toList)
            then 12 else 8 := ⟨_, rfl⟩
        have hoff12 : off ≤ 12 := by
          rw [hoff]
          split_ifs <;> omega
        have hfb := extractCoinbaseOutputs_fallback enc part1 s hl hloc hpre off hoff
        have hl2 := length_take_drop s off 2 (by omega)
        obtain ⟨hsome, hnone⟩ := parseUint_of_hexByteValue _ hl2 8 (Or.inl rfl)
        cases hv : hexByteValue ((s.drop off).take 2) with
        | none =>
          exfalso
          rw [hnone hv] at hfb
          simp only at hfb
          rw [hfb] at h
          cases h
        | some c =>
          rw [(hsome c hv).1] at hfb
          simp only at hfb
          refine ⟨c, off + 2, Or.inr ⟨hloc, hpre, ?_⟩, ?_, hfb⟩
          · rw [hoff]
            split_ifs <;> rfl
          · rw [Nat.add_sub_cancel]
            exact hv
      · exfalso
        have hp : ¬ startsWith s "ffffffff".toList = true := fun hp =>
          hpre ((startsWith_iff _ _).1 hp)
        have hf : findOutputsStart s s.length 0 = .ok none := by
          rcases findOutputsStart_spec s s.length 0 (by omega) rfl with
            ⟨j, _, _, hl', _⟩ | ⟨hn, _⟩
          · exact absurd ⟨j, hl'⟩ hloc
          · exact hn
        unfold extractCoinbaseOutputs at h
        simp only at h
        rw [if_neg (by omega), hf] at h
        simp only [hp] at h
        cases h

/-- Whatever the text, the outputs `extractCoinbaseOutputs` returns are the
decodings, in order, of serialized outputs that stand one after another in the
text behind the count byte: as many as the count byte says, or fewer when no
framed output stands next. -/
theorem extractCoinbaseOutputs_decoded (enc : AddressEncoder) (part1 s : GoString)
    (outs : List CoinbaseOutput) (h : extractCoinbaseOutputs enc part1 s = .ok outs) :
    ∃ (count start : Nat) (decoded : List SerializedOutput), outputsStartAt s start ∧
      hexByteValue ((s.drop (start - 2)).take 2) = some count ∧
      extractCoinbaseOutputs enc part1 s = walkOutputs enc s count start [] ∧
      decoded.length ≤ count ∧ outputsText decoded <+: s.drop start ∧
      (decoded.length = count ∨ ¬ ∃ o : SerializedOutput, o.framed = true ∧
        o.text <+: s.drop (start + (outputsText decoded).length)) ∧
      (∀ o ∈ decoded, o.framed = true) ∧ outs = decoded.map (decodeOutput enc) := by
  obtain ⟨count, start, hst, hc, hw⟩ := extractCoinbaseOutputs_ok_walk enc part1 s outs h
  rw [hw] at h
  obtain ⟨decoded, hd, hdl, hdf, hdp, hmax⟩ :=
    walkOutputs_decoded enc s count start [] outs h
  exact ⟨count, start, decoded, hst, hc, hw, hdl, hdp, hmax, hdf, by simpa using hd⟩

/-! ## Claims -/

/-- C3. Graceful truncation: when the count byte declares 3 outputs and the text
holds two well-formed outputs followed by a proper prefix of a well-formed
output (possibly empty), `extractCoinbaseOutputs` returns without error exactly
the decodings of the two outputs, in order. -/
theorem extractCoinbaseOutputs_truncated (enc : AddressEncoder) (part1 : GoString)
    (o1 o2 w : SerializedOutput) (h1 : o1.wellFormed = true) (h2 : o2.wellFormed = true)
    (hw : w.wellFormed = true) (t : GoString) (hpre : t <+: w.text) (hne : t ≠ w.text) :
    extractCoinbaseOutputs enc part1 ("ffffffff03".toList ++ o1.text ++ o2.text ++ t) =
      .ok [decodeOutput enc o1, decodeOutput enc o2] := by
  have hlt : t.length < w.text.length := by
    rcases Nat.lt_or_ge t.length w.text.length with h | h
    · exact h
    · exact absurd (List.IsPrefix.eq_of_length hpre (Nat.le_antisymm hpre.length_le h)) hne
  have hwf : ∀ o ∈ [o1, o2], o.wellFormed = true := by
    intro o ho
    simp only [List.mem_cons, List.mem_singleton, List.not_mem_nil, or_false] at ho
    rcases ho with ho | ho <;> rw [ho] <;> assumption
  have e : "ffffffff03".toList ++ o1.text ++ o2.text ++ t =
      "ffffffff".toList ++ "03".toList ++ outputsText [o1, o2] ++ t := by
    simp [outputsText]
  rw [e, extractCoinbaseOutputs_run enc part1 "03".toList t 3 1 [o1, o2] hwf rfl (by decide)
    (by decide) rfl (by simp)]
  exact walkOutputs_truncated enc _ _ t w hw rfl hpre hlt 0 _

/-- C3, with the test vector's two outputs and the first 20 characters of a third. -/
theorem extractCoinbaseOutputs_truncated_witness :
    extractCoinbaseOutputs failingEncoder []
      ("ffffffff03".toList ++
        (⟨"0097b01200000000".toList, "16".toList,
          "00140000000000000000000000000000000000000000".toList⟩ : SerializedOutput).text ++
        (⟨"0000000000000000".toList, "06".toList, "6a0400000000".toList⟩ : SerializedOutput).text
        ++ "0100000000000000026a".toList) =
      .ok [decodeOutput failingEncoder ⟨"0097b01200000000".toList, "16".toList,
          "00140000000000000000000000000000000000000000".toList⟩,
        decodeOutput failingEncoder ⟨"0000000000000000".toList, "06".toList,
          "6a0400000000".toList⟩] :=
  extractCoinbaseOutputs_truncated failingEncoder [] _ _
    ⟨"0100000000000000".toList, "02".toList, "6a00".toList⟩ (by decide) (by decide) (by decide)
    "0100000000000000026a".toList (by decide) (by decide)

/-- C2, as amended.  For every `coinbase_part2`, the outputs that
`extractCoinbaseOutputs` returns are the decodings, in order, of the serialized
outputs that stand one after another behind the count byte (the one after the
first located `ffffffff`, else the one at offset 8 or 12): as many as the count
byte says, or fewer when no framed output stands next.  Every decoded
output follows the templates on the hexadecimal text of its script: `P2PKH` for
50 characters starting `76a914` and ending `88ac`; `P2SH` for 46 characters
starting `a914` and ending `87`; `P2WPKH` for 44 characters starting `0014`;
`P2WSH` for 68 characters starting `0020`; `OP_RETURN` with address `(Null Data)`
for any text starting `6a`; and `Unknown` with address `Unable to decode` for a
text matching none of the five.  On `ffffffff`, a count `n` in `1..10`, `n`
well-formed outputs and any trailing text all `n` outputs are decoded so. -/
theorem extractCoinbaseOutputs_classifies :
    (∀ (enc : AddressEncoder) (part1 part2 : GoString) (outs : List CoinbaseOutput),
      extractCoinbaseOutputs enc part1 part2 = .ok outs →
      ∃ (count start : Nat) (decoded : List SerializedOutput), outputsStartAt part2 start ∧
        hexByteValue ((part2.drop (start - 2)).take 2) = some count ∧
        extractCoinbaseOutputs enc part1 part2 = walkOutputs enc part2 count start [] ∧
        decoded.length ≤ count ∧ outputsText decoded <+: part2.drop start ∧
        (decoded.length = count ∨ ¬ ∃ o : SerializedOutput, o.framed = true ∧
          o.text <+: part2.drop (start + (outputsText decoded).length)) ∧
        (∀ o ∈ decoded, o.framed = true) ∧ outs = decoded.map (decodeOutput enc) ∧
        List.Forall₂ (fun o r => followsTemplates o.script r) decoded outs) ∧
    (∀ (enc : AddressEncoder) (part1 : GoString) (n : Nat), 1 ≤ n ∧ n ≤ 10 →
      ∀ (outs : List SerializedOutput), outs.length = n → (∀ o ∈ outs, o.wellFormed = true) →
      ∀ (trailing : GoString),
      ∃ res, extractCoinbaseOutputs enc part1
          ("ffffffff".toList ++ hexEncodeToString [n] ++ outputsText outs ++ trailing) = .ok res ∧
        List.Forall₂ (fun o r => followsTemplates o.script r) outs res) := by
  constructor
  · intro enc part1 part2 outs h
    obtain ⟨count, start, decoded, hst, hc, hw, hdl, hdp, hmax, hdf, hd⟩ :=
      extractCoinbaseOutputs_decoded enc part1 part2 outs h
    refine ⟨count, start, decoded, hst, hc, hw, hdl, hdp, hmax, hdf, hd, ?_⟩
    rw [hd, List.forall₂_map_right_iff, List.forall₂_same]
    intro o ho
    exact decodeOutput_templates_framed enc o (hdf o ho)
  · intro enc part1 n hn outs hlen hwf trailing
    obtain ⟨hc, hp⟩ := parseUint_count n hn
    have hne : outs ≠ [] := by
      intro h
      rw [h] at hlen
      simp at hlen
      omega
    refine ⟨outs.map (decodeOutput enc), ?_, ?_⟩
    · rw [extractCoinbaseOutputs_run enc part1 _ trailing n 0 outs hwf hc hp hn (by omega) hne,
        walkOutputs_zero]
    · rw [List.forall₂_map_right_iff, List.forall₂_same]
      intro o ho
      exact decodeOutput_templates enc o (hwf o ho)

set_option maxRecDepth 100000 in
/-- C2 as amended, on the `coinbase_part2` of the test vector, where 30
characters of script signature stand before `ffffffff`; on a text with a SegWit
marker; and on the two outputs of the test vector behind `ffffffff02`. -/
theorem extractCoinbaseOutputs_classifies_witness :
    (∃ (count start : Nat) (decoded : List SerializedOutput),
      outputsStartAt testPart2 start ∧
      hexByteValue ((testPart2.drop (start - 2)).take 2) = some count ∧
      extractCoinbaseOutputs failingEncoder [] testPart2 =
        walkOutputs failingEncoder testPart2 count start [] ∧
      decoded.length ≤ count ∧ outputsText decoded <+: testPart2.drop start ∧
      (decoded.length = count ∨ ¬ ∃ o : SerializedOutput, o.framed = true ∧
        o.text <+: testPart2.drop (start + (outputsText decoded).length)) ∧
      (∀ o ∈ decoded, o.framed = true) ∧
      testParsed.CoinbaseOuts = decoded.map (decodeOutput failingEncoder) ∧
      List.Forall₂ (fun o r => followsTemplates o.script r) decoded testParsed.CoinbaseOuts) ∧
    (∃ (count start : Nat) (decoded : List SerializedOutput),
      outputsStartAt ("ffffffff0001".toList ++ "02".toList ++ outputsText testOutputs) start ∧
      hexByteValue ((("ffffffff0001".toList ++ "02".toList ++ outputsText testOutputs).drop
        (start - 2)).take 2) = some count ∧
      extractCoinbaseOutputs failingEncoder []
          ("ffffffff0001".toList ++ "02".toList ++ outputsText testOutputs) =
        walkOutputs failingEncoder
          ("ffffffff0001".toList ++ "02".toList ++ outputsText testOutputs) count start [] ∧
      decoded.length ≤ count ∧
      outputsText decoded <+:
        ("ffffffff0001".toList ++ "02".toList ++ outputsText testOutputs).drop start ∧
      (decoded.length = count ∨ ¬ ∃ o : SerializedOutput, o.framed = true ∧
        o.text <+: ("ffffffff0001".toList ++ "02".toList ++ outputsText testOutputs).drop
          (start + (outputsText decoded).length)) ∧
      (∀ o ∈ decoded, o.framed = true) ∧
      testParsed.CoinbaseOuts = decoded.map (decodeOutput failingEncoder) ∧
      List.Forall₂ (fun o r => followsTemplates o.script r) decoded testParsed.CoinbaseOuts) ∧
    (∃ res, extractCoinbaseOutputs failingEncoder []
        ("ffffffff".toList ++ hexEncodeToString [2] ++ outputsText testOutputs
          ++ "00000000".toList) = .ok res ∧
      List.Forall₂ (fun o r => followsTemplates o.script r) testOutputs res) :=
  ⟨extractCoinbaseOutputs_classifies.1 failingEncoder [] testPart2 testParsed.CoinbaseOuts
      (by decide),
   extractCoinbaseOutputs_classifies.1 failingEncoder []
      ("ffffffff0001".toList ++ "02".toList ++ outputsText testOutputs) testParsed.CoinbaseOuts
      (by decide),
   extractCoinbaseOutputs_classifies.2 failingEncoder [] 2 (by decide) testOutputs rfl
      (by decide) "00000000".toList⟩

/-- C2 as stated fails: the script text `6A00` writes the bytes `6a 00`, which
start with `6a`, and the output decoded from it has type `Unknown`, not
`OP_RETURN`. -/
theorem classification_uppercase_counterexample :
    hexDecodeString "6A00".toList = ([0x6a, 0x00], false) ∧
    extractCoinbaseOutputs failingEncoder [] "ffffffff010000000000000000026A00".toList =
      .ok [⟨0, "Unknown".toList, "Unable to decode".toList⟩] := by
  decide

/-- C4. The address encoder is an arbitrary function that may fail.  First, the
error (or panic) of `extractCoinbaseOutputs` and the number, order, type and
value of its outputs are the same for every two encoders, on every input.
Second, on every input the outputs returned are the decodings, in order, of the
serialized outputs behind the count byte, as many as the count byte says or
fewer when no framed output stands next; each is returned with its value, and
one whose script is a P2PKH, P2SH, P2WPKH or P2WSH template on whose payload the
encoder fails has that type and the address `Unable to decode`.  Third, on
`ffffffff`, a count `n` in `1..10`, `n` well-formed outputs and any trailing text
all `n` outputs are returned so. -/
theorem extractCoinbaseOutputs_encoder_failure :
    (∀ (e1 e2 : AddressEncoder) (part1 part2 : GoString),
      (extractCoinbaseOutputs e1 part1 part2).shape =
        (extractCoinbaseOutputs e2 part1 part2).shape) ∧
    (∀ (enc : AddressEncoder) (part1 part2 : GoString) (outs : List CoinbaseOutput),
      extractCoinbaseOutputs enc part1 part2 = .ok outs →
      ∃ (count start : Nat) (decoded : List SerializedOutput), outputsStartAt part2 start ∧
        hexByteValue ((part2.drop (start - 2)).take 2) = some count ∧
        extractCoinbaseOutputs enc part1 part2 = walkOutputs enc part2 count start [] ∧
        decoded.length ≤ count ∧ outputsText decoded <+: part2.drop start ∧
        (decoded.length = count ∨ ¬ ∃ o : SerializedOutput, o.framed = true ∧
          o.text <+: part2.drop (start + (outputsText decoded).length)) ∧
        (∀ o ∈ decoded, o.framed = true) ∧ outs = decoded.map (decodeOutput enc) ∧
        List.Forall₂ (keepsSentinel enc) decoded outs) ∧
    (∀ (enc : AddressEncoder) (part1 : GoString) (n : Nat), 1 ≤ n ∧ n ≤ 10 →
      ∀ (outs : List SerializedOutput), outs.length = n → (∀ o ∈ outs, o.wellFormed = true) →
      ∀ (trailing : GoString),
      ∃ res, extractCoinbaseOutputs enc part1
          ("ffffffff".toList ++ hexEncodeToString [n] ++ outputsText outs ++ trailing) = .ok res ∧
        List.Forall₂ (keepsSentinel enc) outs res) := by
  refine ⟨extractCoinbaseOutputs_shape, ?_, ?_⟩
  · intro enc part1 part2 outs h
    obtain ⟨count, start, decoded, hst, hc, hw, hdl, hdp, hmax, hdf, hd⟩ :=
      extractCoinbaseOutputs_decoded enc part1 part2 outs h
    refine ⟨count, start, decoded, hst, hc, hw, hdl, hdp, hmax, hdf, hd, ?_⟩
    rw [hd, List.forall₂_map_right_iff, List.forall₂_same]
    intro o ho
    exact decodeOutput_keepsSentinel_framed enc o (hdf o ho)
  · intro enc part1 n hn outs hlen hwf trailing
    obtain ⟨hc, hp⟩ := parseUint_count n hn
    have hne : outs ≠ [] := by
      intro h
      rw [h] at hlen
      simp at hlen
      omega
    refine ⟨outs.map (decodeOutput enc), ?_, ?_⟩
    · rw [extractCoinbaseOutputs_run enc part1 _ trailing n 0 outs hwf hc hp hn (by omega) hne,
        walkOutputs_zero]
    · rw [List.forall₂_map_right_iff, List.forall₂_same]
      intro o ho
      exact decodeOutput_keepsSentinel enc o (hwf o ho)

set_option maxRecDepth 100000 in
/-- C4 with an encoder that always fails: on the `coinbase_part2` of the test
vector, where 30 characters of script signature stand before `ffffffff`, and on
the two outputs of the test vector behind `ffffffff02`, the P2WPKH output is
returned with the address `Unable to decode`. -/
theorem extractCoinbaseOutputs_encoder_failure_witness :
    (∃ (count start : Nat) (decoded : List SerializedOutput),
      outputsStartAt testPart2 start ∧
      hexByteValue ((testPart2.drop (start - 2)).take 2) = some count ∧
      extractCoinbaseOutputs failingEncoder [] testPart2 =
        walkOutputs failingEncoder testPart2 count start [] ∧
      decoded.length ≤ count ∧ outputsText decoded <+: testPart2.drop start ∧
      (decoded.length = count ∨ ¬ ∃ o : SerializedOutput, o.framed = true ∧
        o.text <+: testPart2.drop (start + (outputsText decoded).length)) ∧
      (∀ o ∈ decoded, o.framed = true) ∧
      testParsed.CoinbaseOuts = decoded.map (decodeOutput failingEncoder) ∧
      List.Forall₂ (keepsSentinel failingEncoder) decoded testParsed.CoinbaseOuts) ∧
    (∃ res, extractCoinbaseOutputs failingEncoder []
        ("ffffffff".toList ++ hexEncodeToString [2] ++ outputsText testOutputs
          ++ "00000000".toList) = .ok res ∧
      List.Forall₂ (keepsSentinel failingEncoder) testOutputs res) :=
  ⟨extractCoinbaseOutputs_encoder_failure.2.1 failingEncoder [] testPart2
      testParsed.CoinbaseOuts (by decide),
   extractCoinbaseOutputs_encoder_failure.2.2 failingEncoder [] 2 (by decide) testOutputs rfl
      (by decide) "00000000".toList⟩

/-- C5. A `coinbase_part2` of fewer than 20 characters fails with
`coinbase part2 too short`.  One of at least 20 characters fails with
`could not locate outputs start` if and only if at no byte-aligned offset
`ffffffff` is followed at once by a byte with value in `[1, 10]`, and the text
does not begin with `ffffffff`. -/
theorem extractCoinbaseOutputs_location_errors (enc : AddressEncoder)
    (part1 part2 : GoString) :
    (part2.length < 20 →
      extractCoinbaseOutputs enc part1 part2 = .fail (.errorsNew "coinbase part2 too short")) ∧
    (20 ≤ part2.length →
      (extractCoinbaseOutputs enc part1 part2 =
          .fail (.errorsNew "could not locate outputs start") ↔
        (¬ ∃ i, outputsLocatedAt part2 i) ∧ ¬ "ffffffff".toList <+: part2)) := by
  constructor
  · intro h
    unfold extractCoinbaseOutputs
    simp only [h, if_true]
  · intro hlen
    constructor
    · intro h
      obtain ⟨hn, hp⟩ := extractCoinbaseOutputs_errorsNew enc part1 part2 _ hlen h
      constructor
      · rintro ⟨i, hi⟩
        rcases findOutputsStart_spec part2 part2.length 0 (by omega) rfl with
          ⟨j, hj, _, _, _⟩ | ⟨_, hall⟩
        · rw [hn] at hj
          cases hj
        · exact hall i (Nat.zero_le _) hi
      · intro hpre
        rw [(startsWith_iff _ _).2 hpre] at hp
        cases hp
    · rintro ⟨hnone, hpre⟩
      rcases findOutputsStart_spec part2 part2.length 0 (by omega) rfl with
        ⟨j, _, _, hloc, _⟩ | ⟨hn, _⟩
      · exact absurd ⟨j, hloc⟩ hnone
      · have hp : ¬ startsWith part2 "ffffffff".toList = true := fun hp =>
          hpre ((startsWith_iff _ _).1 hp)
        have g : ¬ part2.length < 20 := by omega
        unfold extractCoinbaseOutputs
        simp only [g, if_false, hn, hp]
        rfl

/-- C5 on a 4-character text and on 20 zeros. -/
theorem extractCoinbaseOutputs_location_errors_witness :
    extractCoinbaseOutputs failingEncoder [] "abcd".toList =
      .fail (.errorsNew "coinbase part2 too short") ∧
    (extractCoinbaseOutputs failingEncoder [] "00000000000000000000".toList =
        .fail (.errorsNew "could not locate outputs start") ↔
      (¬ ∃ i, outputsLocatedAt "00000000000000000000".toList i) ∧
        ¬ "ffffffff".toList <+: "00000000000000000000".toList) :=
  ⟨(extractCoinbaseOutputs_location_errors failingEncoder [] "abcd".toList).1 (by decide),
   (extractCoinbaseOutputs_location_errors failingEncoder []
      "00000000000000000000".toList).2 (by decide)⟩

/-- C6. For a `coinbase_part1` of at least 90 characters whose byte at offset 82
is a non-zero script length, if the assembled scriptSig starts with a direct push
opcode `p` in `1..75` followed by `p` bytes of hexadecimal digits, then
`extractHeightFromCoinbase` returns the little-endian value of those bytes modulo
`2 ^ 64` (and the assembled scriptSig); the value is exact when `p ≤ 8`. -/
theorem extractHeightFromCoinbase_direct_push (part1 part2 : GoString)
    (h90 : 90 ≤ part1.length) (L : Nat)
    (hL : hexByteValue ((part1.drop 82).take 2) = some L) (hL0 : L ≠ 0)
    (opc data rest : GoString) (p : Nat) (hp : 1 ≤ p ∧ p ≤ 75)
    (hopc : hexByteValue opc = some p) (hdata : data.length = 2 * p)
    (hhex : ∀ c ∈ data, isHexDigit c = true)
    (hsig : assembleScriptSig part1 part2 L = some (opc ++ data ++ rest)) :
    extractHeightFromCoinbase part1 part2 =
      some (leValue (hexDecodeString data).1 % 2 ^ 64, opc ++ data ++ rest) ∧
    (p ≤ 8 → leValue (hexDecodeString data).1 % 2 ^ 64 = leValue (hexDecodeString data).1) := by
  constructor
  · rw [extractHeightFromCoinbase_run part1 part2 h90 L hL hL0, hsig]
    simp only [readHeightPush_direct opc data rest p hp hopc hdata hhex]
  · intro h8
    obtain ⟨bs, hbs, hlen, hlt, _⟩ := hexDecodeString_of_hex p data hdata hhex
    rw [hbs]
    apply Nat.mod_eq_of_lt
    show leValue bs < 2 ^ 64
    have h1 := leValue_lt bs hlt
    have h2 : 256 ^ bs.length ≤ 256 ^ 8 := Nat.pow_le_pow_right (by norm_num) (by omega)
    have h3 : (256 : Nat) ^ 8 = 2 ^ 64 := by norm_num
    omega

set_option maxRecDepth 100000 in
/-- C6 on the test vector: the scriptSig begins `03 13 3e 0e` and the height is
933395. -/
theorem extractHeightFromCoinbase_direct_push_witness :
    (extractHeightFromCoinbase testPart1 testPart2 =
      some (leValue (hexDecodeString "133e0e".toList).1 % 2 ^ 64,
        "03".toList ++ "133e0e".toList ++
          ("010004b050726904c0e425150c0e6879647261706f6f6c2f32353666ffffffff020097b012000000"
            ).toList) ∧
    (3 ≤ 8 → leValue (hexDecodeString "133e0e".toList).1 % 2 ^ 64 =
      leValue (hexDecodeString "133e0e".toList).1)) ∧
    leValue (hexDecodeString "133e0e".toList).1 = 933395 :=
  ⟨extractHeightFromCoinbase_direct_push testPart1 testPart2 (by decide) 44 (by decide)
    (by decide) "03".toList "133e0e".toList _ 3 (by decide) (by decide) (by decide) (by decide)
    (by decide), by decide⟩

/-- C7. A `coinbase_part1` shorter than 90 characters gives height 0 and the empty
scriptSig; so does one of at least 90 characters whose two characters at offset
82 are not a hexadecimal byte, or write the byte zero. -/
theorem extractHeightFromCoinbase_no_script (part1 part2 : GoString) :
    (part1.length < 90 → extractHeightFromCoinbase part1 part2 = some (0, [])) ∧
    (90 ≤ part1.length →
      hexByteValue ((part1.drop 82).take 2) = none ∨
        hexByteValue ((part1.drop 82).take 2) = some 0 →
      extractHeightFromCoinbase part1 part2 = some (0, [])) :=
  extractHeightFromCoinbase_early_return part1 part2

set_option maxRecDepth 100000 in
/-- C7 on an 89-character text, and on texts of 90 characters with `zz` and with
`00` at offset 82. -/
theorem extractHeightFromCoinbase_no_script_witness :
    extractHeightFromCoinbase (List.replicate 89 '0') testPart2 = some (0, []) ∧
    extractHeightFromCoinbase (List.replicate 82 '0' ++ "zz013333".toList) testPart2
      = some (0, []) ∧
    extractHeightFromCoinbase (List.replicate 82 '0' ++ "00013333".toList) testPart2
      = some (0, []) :=
  ⟨(extractHeightFromCoinbase_no_script _ testPart2).1 (by decide),
   (extractHeightFromCoinbase_no_script _ testPart2).2 (by decide) (Or.inl (by decide)),
   (extractHeightFromCoinbase_no_script _ testPart2).2 (by decide) (Or.inr (by decide))⟩

set_option maxRecDepth 100000 in
/-- C8 fails on the code: for a scriptSig `4d 03 00 13 3e 0e` the four length
characters `0300` are parsed as one base-16 number, 768, most significant byte
first; 768 data bytes are not there and the height returned is 0, where the
little-endian length 3 and the bytes `13 3e 0e` give 933395.  With the length
bytes swapped (`00 03`) the code does return 933395. -/
theorem extractHeightFromCoinbase_pushdata2_big_endian :
    extractHeightFromCoinbase pushData2Part1 testPart2 = some (0, "4d0300133e0e".toList) ∧
    (parseUint "0300".toList 16 32).1 = 768 ∧
    leValue (hexDecodeString "0300".toList).1 = 3 ∧
    leValue (hexDecodeString "133e0e".toList).1 = 933395 ∧
    extractHeightFromCoinbase (List.replicate 82 '0' ++ "064d0003133e0e".toList) testPart2 =
      some (933395, "4d0003133e0e".toList) := by
  decide

set_option maxRecDepth 100000 in
/-- C9 fails on the code in one case, by the defect of C8.  The extraction never
panics, and a non-zero height needs a push opcode in `1..75`, `0x4c` or `0x4d`
with push data present and hexadecimal.  But for the scriptSig `4d 00 01 05` the
length bytes `00 01` declare 256 bytes little-endian, one byte follows, so the
push data are missing; the code reads the length as 1 and returns height 5, not
0. -/
theorem extractHeightFromCoinbase_pushdata2_missing_data :
    (∀ part1 part2 : GoString, ∃ height sig,
      extractHeightFromCoinbase part1 part2 = some (height, sig) ∧
        (height ≠ 0 → heightPushRead sig)) ∧
    leValue (hexDecodeString "0001".toList).1 = 256 ∧
    (parseUint "0001".toList 16 32).1 = 1 ∧
    extractHeightFromCoinbase pushData2ShortPart1 testPart2 = some (5, "4d000105".toList) :=
  ⟨extractHeightFromCoinbase_total, by decide, by decide, by decide⟩

/-- C10, as amended.  For every even-length string `s` of hexadecimal digits,
`reverseHashHex (reverseHashHex s)` is `s` with its letters in lower case; it is
`s` itself when `s` has no upper-case digit. -/
theorem reverseHashHex_round_trip (s : GoString) (heven : s.length % 2 = 0)
    (hhex : ∀ c ∈ s, isHexDigit c = true) :
    (reverseHashHex s).bind reverseHashHex = some (s.map Char.toLower) ∧
    ((∀ c ∈ s, isLowerHexDigit c = true) → (reverseHashHex s).bind reverseHashHex = some s) := by
  refine ⟨reverseHashHex_twice s heven hhex, fun hlow => ?_⟩
  rw [reverseHashHex_twice s heven hhex, map_toLower_of_lower s hlow]

/-- C10 as amended, on the lower-case text `c02f7244`. -/
theorem reverseHashHex_round_trip_witness :
    (reverseHashHex "c02f7244".toList).bind reverseHashHex = some "c02f7244".toList :=
  (reverseHashHex_round_trip "c02f7244".toList (by decide) (by decide)).2 (by decide)

/-- C10 as stated fails: `AB` is an even-length string of hexadecimal digits, and
reversing it twice gives `ab`. -/
theorem reverseHashHex_uppercase_counterexample :
    (∀ c ∈ "AB".toList, isHexDigit c = true) ∧ "AB".toList.length % 2 = 0 ∧
    (reverseHashHex "AB".toList).bind reverseHashHex = some "ab".toList ∧
    (reverseHashHex "AB".toList).bind reverseHashHex ≠ some "AB".toList := by
  decide

/-- C13. For every input that decodes to a JSON object, `Parse` fails with the
missing-params error when there is no `params` key, with the
params-must-be-an-array error when `params` is not an array, and with the
`params too short` error for every array of fewer than 9 elements, whatever the
elements are. -/
theorem Parse_params_errors (unmarshal : Unmarshal) (enc : AddressEncoder) (input : GoString)
    (raw : JsonObject) (h : unmarshal (trimSpace input) = .ok raw) :
    (raw "params".toList = none →
      Parse unmarshal enc input =
        .fail (.errorsNew "missing 'params' field in mining.notify JSON")) ∧
    (∀ v, raw "params".toList = some v → (∀ items, v ≠ .array items) →
      Parse unmarshal enc input = .fail (.errorsNew "'params' must be an array")) ∧
    (∀ params, raw "params".toList = some (.array params) → params.length < 9 →
      Parse unmarshal enc input =
        .fail (.errorsNew ("mining.notify params too short: got " ++ toString params.length
          ++ ", expected >=9"))) := by
  rw [Parse_of_unmarshal unmarshal enc input raw h]
  refine ⟨fun h0 => ?_, fun v hv hna => ?_, fun params hp hl => ?_⟩
  · unfold parseObject
    rw [h0]
  · unfold parseObject
    rw [hv]
    cases v with
    | array items => exact absurd rfl (hna items)
    | null => rfl
    | bool b => rfl
    | number n => rfl
    | string s => rfl
    | object f => rfl
  · unfold parseObject
    rw [hp]
    simp only
    rw [if_pos hl]

/-- C13 on an object without `params`, on one whose `params` is a string, and on
one whose `params` has two elements. -/
theorem Parse_params_errors_witness :
    Parse (fun _ => .ok (fun _ => none)) failingEncoder [] =
      .fail (.errorsNew "missing 'params' field in mining.notify JSON") ∧
    Parse (fun _ => .ok (notifyObject (.string []))) failingEncoder [] =
      .fail (.errorsNew "'params' must be an array") ∧
    Parse (fun _ => .ok (notifyObject (.array [.null, .bool true]))) failingEncoder [] =
      .fail (.errorsNew ("mining.notify params too short: got " ++
        toString [JsonValue.null, JsonValue.bool true].length ++ ", expected >=9")) :=
  ⟨(Parse_params_errors (fun _ => .ok (fun _ => none)) failingEncoder [] _ rfl).1 rfl,
   (Parse_params_errors (fun _ => .ok (notifyObject (.string []))) failingEncoder [] _ rfl).2.1
      (.string []) rfl (fun _ h => JsonValue.noConfusion h),
   (Parse_params_errors (fun _ => .ok (notifyObject (.array [.null, .bool true])))
      failingEncoder [] _ rfl).2.2 [.null, .bool true] rfl (by decide)⟩

/-- C14. For a `params` array of at least 9 elements, if the value at a required
position `i` has the wrong JSON type and every required position before `i` has
the right one, `Parse` fails with the error that names position `i`, whatever
the other elements (the coinbase fragments included) are.  So a single wrong
position is named, and of several the lowest. -/
theorem Parse_wrong_type (unmarshal : Unmarshal) (enc : AddressEncoder) (input : GoString)
    (raw : JsonObject) (h : unmarshal (trimSpace input) = .ok raw) (params : List JsonValue)
    (hp : raw "params".toList = some (.array params)) (hl : 9 ≤ params.length) (i : Nat)
    (hi : i ∈ requiredPositions) (v : JsonValue) (hv : params[i]? = some v)
    (hwrong : hasRequiredType i v = false)
    (hbefore : ∀ j ∈ requiredPositions, j < i → ∀ w, params[j]? = some w →
      hasRequiredType j w = true) :
    Parse unmarshal enc input = .fail (.errorsNew (wrongTypeMessage i)) ∧
    ("params[" ++ toString i ++ "]").toList <+: (wrongTypeMessage i).toList := by
  obtain ⟨p0, p1, p2, p3, p4, p5, p6, p7, p8, rest, rfl⟩ := nine_of_length params hl
  rw [Parse_of_unmarshal unmarshal enc input raw h,
    parseObject_nine enc raw p0 p1 p2 p3 p4 p5 p6 p7 p8 rest hp]
  have e0 : 0 < i → isString p0 = true := fun hlt => by
    simpa [hasRequiredType] using hbefore 0 (by decide) hlt p0 rfl
  have e1 : 1 < i → isString p1 = true := fun hlt => by
    simpa [hasRequiredType] using hbefore 1 (by decide) hlt p1 rfl
  have e2 : 2 < i → isString p2 = true := fun hlt => by
    simpa [hasRequiredType] using hbefore 2 (by decide) hlt p2 rfl
  have e3 : 3 < i → isString p3 = true := fun hlt => by
    simpa [hasRequiredType] using hbefore 3 (by decide) hlt p3 rfl
  have e5 : 5 < i → isString p5 = true := fun hlt => by
    simpa [hasRequiredType] using hbefore 5 (by decide) hlt p5 rfl
  have e6 : 6 < i → isString p6 = true := fun hlt => by
    simpa [hasRequiredType] using hbefore 6 (by decide) hlt p6 rfl
  have e7 : 7 < i → isString p7 = true := fun hlt => by
    simpa [hasRequiredType] using hbefore 7 (by decide) hlt p7 rfl
  simp only [requiredPositions, List.mem_cons, List.mem_singleton, List.not_mem_nil,
    or_false] at hi
  rcases hi with rfl | rfl | rfl | rfl | rfl | rfl | rfl | rfl
  all_goals
    simp only [List.getElem?_cons_zero, List.getElem?_cons_succ, Option.some.injEq] at hv
    subst hv
    simp [hasRequiredType] at hwrong
    refine ⟨?_, by decide⟩
    simp [hwrong, e0, e1, e2, e3, e5, e6, e7]

/-- C14 on the test vector with position 5 (version) replaced by a number. -/
theorem Parse_wrong_type_witness :
    Parse (fun _ => .ok (notifyObject (.array (testParams.set 5 (.number "1".toList)))))
        failingEncoder [] = .fail (.errorsNew (wrongTypeMessage 5)) ∧
    ("params[" ++ toString 5 ++ "]").toList <+: (wrongTypeMessage 5).toList :=
  Parse_wrong_type (fun _ => .ok (notifyObject (.array (testParams.set 5 (.number "1".toList)))))
    failingEncoder [] _ rfl (testParams.set 5 (.number "1".toList)) rfl (by decide) 5
    (by decide) (.number "1".toList) rfl rfl
    (by
      intro j hj hlt w hw
      simp only [requiredPositions, List.mem_cons, List.mem_singleton, List.not_mem_nil,
        or_false] at hj
      rcases hj with rfl | rfl | rfl | rfl | rfl | rfl | rfl | rfl <;>
        first
        | omega
        | (simp only [testParams, List.set, List.getElem?_cons_zero, List.getElem?_cons_succ,
            Option.some.injEq] at hw
           subst hw
           rfl))

/-- C16. The merkle-branch field is not interpreted: two inputs whose `params`
arrays both have at least 9 elements and agree at positions 0, 1, 2, 3, 5, 6, 7
and 8 give the same result of `Parse` (the same error, the same panic or equal
`ParsedNotify`), whatever stands at position 4, after position 8 or under other
keys of the object. -/
theorem Parse_ignores_merkle_branches (unmarshal : Unmarshal) (enc : AddressEncoder)
    (input1 input2 : GoString) (raw1 raw2 : JsonObject)
    (h1 : unmarshal (trimSpace input1) = .ok raw1) (h2 : unmarshal (trimSpace input2) = .ok raw2)
    (params1 params2 : List JsonValue)
    (hp1 : raw1 "params".toList = some (.array params1))
    (hp2 : raw2 "params".toList = some (.array params2))
    (hl1 : 9 ≤ params1.length) (hl2 : 9 ≤ params2.length)
    (hagree : ∀ i ∈ requiredPositions, params1[i]? = params2[i]?) :
    Parse unmarshal enc input1 = Parse unmarshal enc input2 := by
  obtain ⟨p0, p1, p2, p3, p4, p5, p6, p7, p8, rest, rfl⟩ := nine_of_length params1 hl1
  obtain ⟨q0, q1, q2, q3, q4, q5, q6, q7, q8, rest', rfl⟩ := nine_of_length params2 hl2
  have a0 := hagree 0 (by decide)
  have a1 := hagree 1 (by decide)
  have a2 := hagree 2 (by decide)
  have a3 := hagree 3 (by decide)
  have a5 := hagree 5 (by decide)
  have a6 := hagree 6 (by decide)
  have a7 := hagree 7 (by decide)
  have a8 := hagree 8 (by decide)
  simp only [List.getElem?_cons_zero, List.getElem?_cons_succ,
    Option.some.injEq] at a0 a1 a2 a3 a5 a6 a7 a8
  subst a0 a1 a2 a3 a5 a6 a7 a8
  rw [Parse_of_unmarshal unmarshal enc input1 raw1 h1,
    Parse_of_unmarshal unmarshal enc input2 raw2 h2,
    parseObject_nine enc raw1 _ _ _ _ p4 _ _ _ _ rest hp1,
    parseObject_nine enc raw2 _ _ _ _ q4 _ _ _ _ rest' hp2]

/-- C16 on the test vector against a copy with another merkle-branch value, an
extra tenth element and no other key. -/
theorem Parse_ignores_merkle_branches_witness :
    Parse (fun s => if s = [] then .ok (notifyObject (.array testParams))
        else .ok (fun key => if key = "params".toList then
          some (.array (testParams.set 4 (.string "ab".toList) ++ [JsonValue.null])) else none))
      failingEncoder [] =
    Parse (fun s => if s = [] then .ok (notifyObject (.array testParams))
        else .ok (fun key => if key = "params".toList then
          some (.array (testParams.set 4 (.string "ab".toList) ++ [JsonValue.null])) else none))
      failingEncoder "x".toList :=
  Parse_ignores_merkle_branches _ failingEncoder [] "x".toList _ _ rfl rfl testParams
    (testParams.set 4 (.string "ab".toList) ++ [JsonValue.null]) rfl rfl (by decide) (by decide)
    (by
      intro i hi
      simp only [requiredPositions, List.mem_cons, List.mem_singleton, List.not_mem_nil,
        or_false] at hi
      rcases hi with rfl | rfl | rfl | rfl | rfl | rfl | rfl | rfl <;> rfl)

set_option maxRecDepth 100000 in
/-- C15 fails on the code for `ntime` values from `2 ^ 63` on.  What holds: an
`ntime` that parses as `t` with `1e9 < t < 2 ^ 63` gives the instant `t` seconds
after the Unix epoch (`697250b0` gives 1769099440 s, 2026-01-22 16:30:40 UTC,
being day 20475 of the epoch plus 16 h 30 min 40 s); an `ntime` that does not
parse, or is at most `1e9`, gives the zero value; `Parse` puts this in
`NTimeParsed`; and whether `Parse` returns an error does not depend on the
`ntime` string.  But `t` is converted with `int64(t)`: `ffffffffffffffff` parses
as `2 ^ 64 - 1 > 1e9` and gives the instant one second before the epoch. -/
theorem Parse_ntime_int64_wrap :
    (∀ (ntime : GoString) (t : Nat), parseUint ntime 16 64 = (t, none) → 1000000000 < t →
      t < 2 ^ 63 → parseNTime ntime = (t : Int)) ∧
    (∀ ntime : GoString,
      (parseUint ntime 16 64).2 ≠ none ∨ (parseUint ntime 16 64).1 ≤ 1000000000 →
      parseNTime ntime = zeroTime) ∧
    (∀ (enc : AddressEncoder) (raw : JsonObject) (params : List JsonValue) (r : ParsedNotify),
      raw "params".toList = some (.array params) → parseObject enc raw = .ok r →
      params[7]? = some (.string r.NTime) ∧ r.NTimeParsed = parseNTime r.NTime) ∧
    (∀ (enc : AddressEncoder) (raw raw' : JsonObject) (params : List JsonValue)
      (ntime ntime' : GoString), raw "params".toList = some (.array params) →
      raw' "params".toList = some (.array (params.set 7 (.string ntime'))) →
      params[7]? = some (.string ntime) →
      parseObject enc raw' = (parseObject enc raw).map (withNTime ntime')) ∧
    parseNTime "697250b0".toList = 1769099440 ∧
    (1769099440 : Int) = 20475 * 86400 + 16 * 3600 + 30 * 60 + 40 ∧
    parseUint "ffffffffffffffff".toList 16 64 = (2 ^ 64 - 1, none) ∧
    parseNTime "ffffffffffffffff".toList = -1 ∧
    (Parse (fun _ => .ok (notifyObject (.array (testParams.set 7
        (.string "ffffffffffffffff".toList))))) failingEncoder []).map
      (fun r => r.NTimeParsed) = .ok (-1) := by
  refine ⟨?_, ?_, ?_, ?_, by decide, by decide, by decide, by decide, by decide⟩
  · intro ntime t hp h1 h2
    have e : t % 2 ^ 64 = t := Nat.mod_eq_of_lt (by omega)
    simp only [parseNTime, hp, gt_iff_lt, h1, and_self, if_true, timeUnixUTC, int64OfUint64, e,
      h2]
  · intro ntime h
    unfold parseNTime
    simp only
    rw [if_neg]
    rintro ⟨h1, h2⟩
    rcases h with h | h
    · exact h h1
    · omega
  · intro enc raw params r hp h
    obtain ⟨h7, hnp, _⟩ := parseObject_fields enc raw params hp r h
    exact ⟨h7, hnp⟩
  · intro enc raw raw' params ntime ntime' hp hp' h7
    exact parseObject_set_ntime enc raw raw' params ntime ntime' hp hp' h7

/-- C12. For every even-length lower-case hexadecimal string `s`, writing the
bytes `bs`, `reverseHashHex s` is the lower-case hexadecimal text of `bs`
reversed, of the length of `s`; and when `Parse` returns a result, its `PrevHash`
is `reverseHashHex` of the string at `params[1]`. -/
theorem reverseHashHex_byte_reversal :
    (∀ s : GoString, s.length % 2 = 0 → (∀ c ∈ s, isLowerHexDigit c = true) →
      ∃ bs, hexDecodeString s = (bs, false) ∧ hexEncodeToString bs = s ∧
        reverseHashHex s = some (hexEncodeToString bs.reverse) ∧
        (hexEncodeToString bs.reverse).length = s.length) ∧
    (∀ (unmarshal : Unmarshal) (enc : AddressEncoder) (input : GoString) (raw : JsonObject)
      (params : List JsonValue) (r : ParsedNotify), unmarshal (trimSpace input) = .ok raw →
      raw "params".toList = some (.array params) → Parse unmarshal enc input = .ok r →
      ∃ prevhashLe, params[1]? = some (.string prevhashLe) ∧
        reverseHashHex prevhashLe = some r.PrevHash) := by
  constructor
  · intro s heven hlow
    obtain ⟨bs, hbs, _, hlen, henc, hr⟩ := reverseHashHex_of_hex s heven
      (fun c hc => isHexDigit_of_lower c (hlow c hc))
    refine ⟨bs, hbs, ?_, hr, ?_⟩
    · rw [henc, map_toLower_of_lower s hlow]
    · rw [hexEncodeToString_length, List.length_reverse]
      exact hlen
  · intro unmarshal enc input raw params r hu hp h
    rw [Parse_of_unmarshal unmarshal enc input raw hu] at h
    exact (parseObject_fields enc raw params hp r h).2.2

set_option maxRecDepth 100000 in
/-- C12 on the test vector: the hash sent as `c02f…0000` is shown as
`0000…2fc0`. -/
theorem reverseHashHex_byte_reversal_witness :
    (∃ bs, hexDecodeString (stringOf testParams[1]) = (bs, false) ∧
        hexEncodeToString bs = stringOf testParams[1] ∧
        reverseHashHex (stringOf testParams[1]) = some (hexEncodeToString bs.reverse) ∧
        (hexEncodeToString bs.reverse).length = (stringOf testParams[1]).length) ∧
    (∃ prevhashLe, testParams[1]? = some (.string prevhashLe) ∧
        reverseHashHex prevhashLe = some testParsed.PrevHash) ∧
    reverseHashHex "c02f7244762d09e3e052549bb90a2b9839f417cd0001d7da0000000000000000".toList =
      some "0000000000000000dad70100cd17f439982b0ab99b5452e0e3092d7644722fc0".toList :=
  ⟨reverseHashHex_byte_reversal.1 (stringOf testParams[1]) (by decide) (by decide),
   reverseHashHex_byte_reversal.2 (fun _ => .ok (notifyObject (.array testParams)))
     failingEncoder [] _ testParams testParsed rfl rfl Parse_testVector,
   by decide⟩

/-- C11, as amended.  When hex decoding fails on `s` trimmed of surrounding white
space and padded to even length, `reverseHashHex s` returns that trimmed and
padded string; it is `s` itself when `s` has no surrounding white space and an
even length. -/
theorem reverseHashHex_decode_failure (s : GoString)
    (hfail : (hexDecodeString (padEven (trimSpace s))).2 = true) :
    reverseHashHex s = some (padEven (trimSpace s)) ∧
    (trimSpace s = s → s.length % 2 = 0 → reverseHashHex s = some s) := by
  have h1 : reverseHashHex s = some (padEven (trimSpace s)) := by
    unfold reverseHashHex
    simp only
    generalize hd : hexDecodeString (if (trimSpace s).length % 2 = 1 then '0' :: trimSpace s
      else trimSpace s) = d
    have hd2 : d.2 = true := by
      rw [← hd]
      exact hfail
    obtain ⟨bs, b⟩ := d
    simp only at hd2
    subst hd2
    rfl
  refine ⟨h1, fun ht heven => ?_⟩
  rw [h1, ht]
  unfold padEven
  rw [if_neg (by omega)]

/-- C11 as amended, on the text `zz`. -/
theorem reverseHashHex_decode_failure_witness :
    reverseHashHex "zz".toList = some (padEven (trimSpace "zz".toList)) ∧
    (trimSpace "zz".toList = "zz".toList → "zz".toList.length % 2 = 0 →
      reverseHashHex "zz".toList = some "zz".toList) :=
  reverseHashHex_decode_failure "zz".toList (by decide)

/-- C11 as stated fails: decoding fails on `z` (padded to `0z`) and on ` zz`
(trimmed to `zz`), and `reverseHashHex` returns `0z` and `zz`, not the strings
given. -/
theorem reverseHashHex_fallback_counterexample :
    (hexDecodeString (padEven (trimSpace "z".toList))).2 = true ∧
    reverseHashHex "z".toList = some "0z".toList ∧
    reverseHashHex "z".toList ≠ some "z".toList ∧
    (hexDecodeString (padEven (trimSpace " zz".toList))).2 = true ∧
    reverseHashHex " zz".toList = some "zz".toList ∧
    reverseHashHex " zz".toList ≠ some " zz".toList := by
  decide

set_option maxRecDepth 100000 in
/-- C19 fails on the code: a character that is not a hexadecimal digit in the
16-character value field of an output makes `hex.DecodeString` return fewer than
8 bytes, and the swap of `valBytes[0]` and `valBytes[7]` panics.  On a text of
hexadecimal digits there is no panic. -/
theorem extractCoinbaseOutputs_value_panic :
    hexDecodeString "zz00000000000000".toList = ([], true) ∧
    swapLoop 8 [] 0 7 = none ∧
    extractCoinbaseOutputs failingEncoder [] "ffffffff01zz0000000000000000".toList = .panic ∧
    (hexDecodeString "0097b0120000000g".toList).1.length = 7 ∧
    extractCoinbaseOutputs failingEncoder []
      "ffffffff010097b0120000000g026a00".toList = .panic ∧
    (∀ (enc : AddressEncoder) (part1 s : GoString), (∀ c ∈ s, isHexDigit c = true) →
      extractCoinbaseOutputs enc part1 s ≠ .panic) :=
  ⟨by decide, by decide, by decide, by decide, by decide, extractCoinbaseOutputs_hex_no_panic⟩

/-- C20, as amended.  For every `coinbase_part2` of at least 20 characters, all
hexadecimal digits, that has a byte-aligned `ffffffff` followed at once by a byte
in `[1, 10]`: `extractCoinbaseOutputs` returns no error, the output loop starts
right after the count byte of the first such offset `j` (so no SegWit marker is
skipped), the count is that byte, and at most that many outputs, hence at most
10, are returned. -/
theorem extractCoinbaseOutputs_first_marker (enc : AddressEncoder) (part1 s : GoString)
    (hlen : 20 ≤ s.length) (hhex : ∀ c ∈ s, isHexDigit c = true)
    (hloc : ∃ i, outputsLocatedAt s i) :
    ∃ j v outs, outputsLocatedAt s j ∧ (∀ k, k < j → ¬ outputsLocatedAt s k) ∧
      hexByteValue ((s.drop (j + 8)).take 2) = some v ∧
      extractCoinbaseOutputs enc part1 s = walkOutputs enc s v (j + 8 + 2) [] ∧
      extractCoinbaseOutputs enc part1 s = .ok outs ∧ outs.length ≤ v ∧ v ≤ 10 := by
  obtain ⟨j, v, hj, hfirst, hv, _, hv10, he⟩ := extractCoinbaseOutputs_located enc part1 s hlen hloc
  obtain ⟨outs, ho, hl⟩ := walkOutputs_hex enc s hhex v (j + 8 + 2) []
  refine ⟨j, v, outs, hj, hfirst, hv, he, ?_, ?_, hv10⟩
  · rw [he, ho]
  · simpa using hl

set_option maxRecDepth 100000 in
/-- C20 as amended, on the `coinbase_part2` of the test vector, where the first
located offset is 30. -/
theorem extractCoinbaseOutputs_first_marker_witness :
    ∃ j v outs, outputsLocatedAt testPart2 j ∧ (∀ k, k < j → ¬ outputsLocatedAt testPart2 k) ∧
      hexByteValue ((testPart2.drop (j + 8)).take 2) = some v ∧
      extractCoinbaseOutputs failingEncoder [] testPart2 =
        walkOutputs failingEncoder testPart2 v (j + 8 + 2) [] ∧
      extractCoinbaseOutputs failingEncoder [] testPart2 = .ok outs ∧ outs.length ≤ v ∧ v ≤ 10 :=
  extractCoinbaseOutputs_first_marker failingEncoder [] testPart2 (by decide) (by decide)
    ⟨30, by decide, by decide, by decide, 2, by decide, by decide, by decide⟩

/-- C20 as stated fails: `ffffffff01` consists of hexadecimal digits and has
`ffffffff` followed by the byte 1 at offset 0, and `extractCoinbaseOutputs`
returns the error `coinbase part2 too short`. -/
theorem extractCoinbaseOutputs_short_marker_counterexample :
    (∀ c ∈ "ffffffff01".toList, isHexDigit c = true) ∧
    outputsLocatedAt "ffffffff01".toList 0 ∧
    extractCoinbaseOutputs failingEncoder [] "ffffffff01".toList =
      .fail (.errorsNew "coinbase part2 too short") :=
  ⟨by decide, ⟨by decide, by decide, by decide, 1, by decide, by decide, by decide⟩, by decide⟩

/-- C17. ScriptSig assembly: for a `coinbase_part1` of at least 90 characters with
a non-zero script length `L` at offset 82, and `r` the rest of `part1` after
offset 84: if `len(r) < 2 * L` and `part2` has at least `2 * L - len(r)`
characters, the scriptSig returned is `r` followed by that many first characters
of `part2`, `2 * L` characters in all; if `part2` is shorter than that, or
`len(r) ≥ 2 * L`, it is `r`. -/
theorem extractHeightFromCoinbase_scriptSig (part1 part2 : GoString) (h90 : 90 ≤ part1.length)
    (L : Nat) (hL : hexByteValue ((part1.drop 82).take 2) = some L) (hL0 : L ≠ 0) :
    ((part1.drop 84).length < 2 * L → 2 * L - (part1.drop 84).length ≤ part2.length →
      (∃ height, extractHeightFromCoinbase part1 part2 =
        some (height, part1.drop 84 ++ part2.take (2 * L - (part1.drop 84).length))) ∧
      (part1.drop 84 ++ part2.take (2 * L - (part1.drop 84).length)).length = 2 * L) ∧
    (part2.length < 2 * L - (part1.drop 84).length ∨ 2 * L ≤ (part1.drop 84).length →
      ∃ height, extractHeightFromCoinbase part1 part2 = some (height, part1.drop 84)) := by
  have hrun := extractHeightFromCoinbase_run part1 part2 h90 L hL hL0
  have hlen : (part1.drop 84).length = part1.length - 82 - 2 := by
    simp only [List.length_drop]
    omega
  have hsf : sliceFrom part1 (82 + 2) = some (part1.drop 84) := by
    simp only [sliceFrom]
    rw [if_pos (by omega)]
  constructor
  · intro h1 h2
    have ha : assembleScriptSig part1 part2 L =
        some (part1.drop 84 ++ part2.take (2 * L - (part1.drop 84).length)) := by
      unfold assembleScriptSig
      simp only [hsf]
      rw [if_pos (by omega), if_pos (by omega)]
      simp only [sliceTo]
      rw [if_pos (by omega)]
      simp only
      congr 3
      omega
    obtain ⟨height, hh, _⟩ := readHeightPush_total
      (part1.drop 84 ++ part2.take (2 * L - (part1.drop 84).length))
    refine ⟨⟨height, ?_⟩, ?_⟩
    · rw [hrun, ha]
      simp only [hh]
    · simp only [List.length_append, List.length_take]
      omega
  · intro h
    have ha : assembleScriptSig part1 part2 L = some (part1.drop 84) := by
      unfold assembleScriptSig
      simp only [hsf]
      rcases h with h | h
      · rw [if_pos (by omega), if_neg (by omega)]
      · rw [if_neg (by omega)]
    obtain ⟨height, hh, _⟩ := readHeightPush_total (part1.drop 84)
    refine ⟨height, ?_⟩
    rw [hrun, ha]
    simp only [hh]

set_option maxRecDepth 100000 in
/-- C17 on the test vector: the 17 bytes left in `part1` are completed from
`part2` to the 44 bytes the length byte `2c` declares. -/
theorem extractHeightFromCoinbase_scriptSig_witness :
    ((∃ height, extractHeightFromCoinbase testPart1 testPart2 =
        some (height, testPart1.drop 84 ++ testPart2.take (2 * 44 - (testPart1.drop 84).length)))
      ∧ (testPart1.drop 84 ++ testPart2.take (2 * 44 - (testPart1.drop 84).length)).length
        = 2 * 44) ∧
    (testPart1.drop 84).length = 2 * 17 ∧
    testPart1.drop 84 ++ testPart2.take (2 * 44 - (testPart1.drop 84).length) =
      testParsed.ScriptSig ∧
    ∃ height, extractHeightFromCoinbase testPart1 ("0e6879".toList) =
      some (height, testPart1.drop 84) :=
  ⟨(extractHeightFromCoinbase_scriptSig testPart1 testPart2 (by decide) 44 (by decide)
      (by decide)).1 (by decide) (by decide),
   by decide, by decide,
   (extractHeightFromCoinbase_scriptSig testPart1 ("0e6879".toList) (by decide) 44 (by decide)
      (by decide)).2 (Or.inl (by decide))⟩

/-- C18. SegWit marker skip: for a `coinbase_part2` of at least 20 hexadecimal
digits that begins with `ffffffff` and `00` and has no byte-aligned `ffffffff`
followed at once by a byte in `[1, 10]`: when the next byte is `00` or `01`,
`extractCoinbaseOutputs` reads the count from the byte at offset 12 and runs the
output loop from offset 14; otherwise nothing is skipped, the count read is 0 and
the result is the empty list, without error. -/
theorem extractCoinbaseOutputs_segwit_skip (enc : AddressEncoder) (part1 s : GoString)
    (hlen : 20 ≤ s.length) (hhex : ∀ c ∈ s, isHexDigit c = true)
    (hpre : "ffffffff00".toList <+: s) (hnone : ¬ ∃ i, outputsLocatedAt s i) :
    ((s.drop 10).take 2 = "00".toList ∨ (s.drop 10).take 2 = "01".toList →
      extractCoinbaseOutputs enc part1 s =
        walkOutputs enc s (hexNat ((s.drop 12).take 2)) 14 []) ∧
    (¬ ((s.drop 10).take 2 = "00".toList ∨ (s.drop 10).take 2 = "01".toList) →
      extractCoinbaseOutputs enc part1 s = .ok []) := by
  obtain ⟨u, hu⟩ := hpre
  have hpre8 : "ffffffff".toList <+: s := ⟨"00".toList ++ u, by rw [← hu]; rfl⟩
  have hm : (s.drop 8).take 2 = "00".toList := by
    rw [← hu]
    rfl
  constructor
  · intro hfl
    rw [extractCoinbaseOutputs_fallback enc part1 s hlen hnone hpre8 12
      (by rw [if_pos ⟨hm, hfl⟩])]
    have hl2 := length_take_drop s 12 2 (by omega)
    have hx := hex_take_drop s hhex 12 2
    have hp : parseUint ((s.drop 12).take 2) 16 8 = (hexNat ((s.drop 12).take 2), none) := by
      match (s.drop 12).take 2, hl2, hx with
      | [p, q], _, hx =>
        exact (parseUint_two_hex p q (hx p (by simp)) (hx q (by simp)) 8 (Or.inl rfl)).1
    rw [hp]
  · intro hfl
    rw [extractCoinbaseOutputs_fallback enc part1 s hlen hnone hpre8 8
      (by rw [if_neg (fun h => hfl h.2)])]
    rw [hm]
    have hp : parseUint "00".toList 16 8 = (0, none) := by decide
    rw [hp]
    exact walkOutputs_zero enc s _ []

set_option maxRecDepth 100000 in
/-- C18 on a text with marker `00` and flag `01` before the two outputs of the
test vector, and on one with flag `02`. -/
theorem extractCoinbaseOutputs_segwit_skip_witness :
    extractCoinbaseOutputs failingEncoder []
        ("ffffffff0001".toList ++ "02".toList ++ outputsText testOutputs) =
      walkOutputs failingEncoder
        ("ffffffff0001".toList ++ "02".toList ++ outputsText testOutputs)
        (hexNat ((("ffffffff0001".toList ++ "02".toList ++ outputsText testOutputs).drop 12).take
          2)) 14 [] ∧
    extractCoinbaseOutputs failingEncoder []
        ("ffffffff0001".toList ++ "02".toList ++ outputsText testOutputs) =
      .ok testParsed.CoinbaseOuts ∧
    extractCoinbaseOutputs failingEncoder []
        ("ffffffff0002".toList ++ "02".toList ++ outputsText testOutputs) = .ok [] :=
  ⟨(extractCoinbaseOutputs_segwit_skip failingEncoder [] _ (by decide) (by decide) (by decide)
      (not_located_of_find _ (by decide))).1 (Or.inr (by decide)),
   by decide,
   (extractCoinbaseOutputs_segwit_skip failingEncoder [] _ (by decide) (by decide) (by decide)
      (not_located_of_find _ (by decide))).2 (by decide)⟩

end MiningNotify
